import Mathlib

/-!
Verification of the core of the scudb storage engine: the LRU replacer and
extendible hash table (project1), and the buffer pool manager and B+Tree
index (project2).  Each C++ component is shallowly embedded as executable
Lean definitions that mirror the source functions statement by statement;
the theorems below settle the specification claims against those
definitions.  Machine integers that are used as non-negative counts
(sizes, pin counts are kept as `Int` where they may be decremented) are
modelled as `Nat`/`Int`; C++ integer division on non-negative values
coincides with `Nat` division.
-/

namespace Scudb

/-- `INVALID_PAGE_ID` sentinel (= -1) from common/config.h. -/
def INVALID_PAGE_ID : Int := -1

/-! ## B+Tree page header (src/page/b_plus_tree_page.cpp) -/

inductive IndexPageType
  | LEAF_PAGE
  | INTERNAL_PAGE
deriving DecidableEq, Repr

inductive OperationType
  | READ
  | INSERT
  | DELETE
deriving DecidableEq, Repr

/-- Shared header of every B+Tree page: page type, number of valid slots,
capacity, and parent page id (`INVALID_PAGE_ID` iff root).  `lsn`/`page_id`
fields are irrelevant to the safety predicate and omitted. -/
structure BPlusTreePage where
  page_type_ : IndexPageType
  size_ : Nat
  max_size_ : Nat
  parent_page_id_ : Int
deriving DecidableEq, Repr

/-- `BPlusTreePage::IsLeafPage`. -/
def BPlusTreePage.IsLeafPage (p : BPlusTreePage) : Bool :=
  p.page_type_ = IndexPageType.LEAF_PAGE

/-- `BPlusTreePage::IsRootPage`: the parent pointer is the invalid sentinel. -/
def BPlusTreePage.IsRootPage (p : BPlusTreePage) : Bool :=
  p.parent_page_id_ = INVALID_PAGE_ID

/-- `BPlusTreePage::GetMinSize`: 1 for a root leaf, 2 for a root internal
page, `max_size_ / 2` (integer division) otherwise. -/
def BPlusTreePage.GetMinSize (p : BPlusTreePage) : Nat :=
  if p.IsRootPage then
    (if p.IsLeafPage then 1 else 2)
  else p.max_size_ / 2

/-- `BPlusTreePage::IsSafeOperation`: latch-crabbing safety predicate. -/
def BPlusTreePage.IsSafeOperation (p : BPlusTreePage) (operation : OperationType) : Bool :=
  if operation = OperationType.READ then
    true
  else if operation = OperationType.INSERT then
    decide (p.size_ < p.max_size_)
  else
    -- operation = DELETE (the trailing assert(false) is unreachable for the 3-valued enum)
    let minSize := p.GetMinSize + 1
    if p.IsLeafPage then decide (p.size_ ≥ minSize) else decide (p.size_ > minSize)

/-! ## LRU replacer (src/buffer/lru_replacer.cpp)

The replacer's state is the contents of the doubly linked list read from
head (most recently inserted) to tail (least recently inserted); the
`hashmap` member is an index into the list and is represented by list
membership itself.  The C++ class is instantiated at `Page *` and at
`int`; the model is generic over a decidable-equality element type. -/

namespace LRU

/-- `LRUReplacer::Insert`: if `value` is present, unlink it; then link it at
the head of the list. -/
def Insert {α : Type} [DecidableEq α] (value : α) (s : List α) : List α :=
  value :: s.erase value

/-- `LRUReplacer::Victim`: if the list is empty return `false` (modelled as
`none`); otherwise unlink the tail node and return its value. -/
def Victim {α : Type} [DecidableEq α] (s : List α) : Option α × List α :=
  if s.isEmpty then (none, s)
  else (s.getLast?, s.dropLast)

theorem Victim_eq {α : Type} [DecidableEq α] (s : List α) :
    Victim s = (s.getLast?, s.dropLast) := by
  by_cases h : s = []
  · subst h; rfl
  · rw [Victim, if_neg (by simpa using h)]

/-- `LRUReplacer::Erase`: unlink `value` if present; the returned flag is
whether the hashmap contained it. -/
def Erase {α : Type} [DecidableEq α] (value : α) (s : List α) : Bool × List α :=
  (decide (value ∈ s), s.erase value)

/-- `LRUReplacer::Size`. -/
def Size {α : Type} (s : List α) : Nat := s.length

end LRU

/-! ## Buffer pool manager (src/buffer/buffer_pool_manager.cpp, project2)

The pool is a fixed array of frames; the page table (an extendible hash
from page id to frame) is modelled as an association list observed only
through find/insert/remove, the free list as a list of frame indices, the
replacer as the LRU list above.  Disk contents are a function from page id
to data (one abstract word per page), and each operation additionally
returns the list of disk-manager calls it performed, in order. -/

/-- One frame (class `Page`): page id, pin count, dirty flag and the data
buffer (abstracted to a single word). -/
structure Frame where
  page_id_ : Int
  pin_count_ : Int
  is_dirty_ : Bool
  data_ : Int
deriving DecidableEq, Repr

instance : Inhabited Frame := ⟨⟨INVALID_PAGE_ID, 0, false, 0⟩⟩

/-- Disk-manager calls recorded by a buffer pool operation. -/
inductive IOEv
  | ReadPage (pid : Int)
  | WritePage (pid : Int) (data : Int)
  | DeallocatePage (pid : Int)
deriving DecidableEq, Repr

/-- `ExtendibleHash<page_id_t, Page *>::Find` on the page table. -/
def ptFind (pt : List (Int × Nat)) (pid : Int) : Option Nat :=
  (pt.find? (fun e => decide (e.1 = pid))).map (fun e => e.2)

/-- `ExtendibleHash::Remove` on the page table. -/
def ptRemove (pt : List (Int × Nat)) (pid : Int) : List (Int × Nat) :=
  pt.filter (fun e => decide (e.1 ≠ pid))

/-- `ExtendibleHash::Insert` (upsert) on the page table. -/
def ptInsert (pt : List (Int × Nat)) (pid : Int) (fid : Nat) : List (Int × Nat) :=
  (pid, fid) :: ptRemove pt pid

/-- State owned by `BufferPoolManager`. -/
structure BPState where
  frames : List Frame
  page_table : List (Int × Nat)
  free_list : List Nat
  replacer : List Nat
  disk : Int → Int

/-- `BufferPoolManager::GetVictimPage`: prefer the head of the free list;
otherwise evict from the replacer; `none` if both are empty.  (The two
C++ `assert`s — a free-list frame has the invalid page id, a victim has
pin count zero — are invariant checks; the corresponding facts appear as
hypotheses of the theorems that need them.) -/
def GetVictimPage (s : BPState) : Option Nat × BPState :=
  match s.free_list with
  | fid :: rest => (some fid, { s with free_list := rest })
  | [] =>
    if s.replacer.length = 0 then (none, s)
    else
      match LRU.Victim s.replacer with
      | (some fid, rep) => (some fid, { s with replacer := rep })
      | (none, rep) => (none, { s with replacer := rep })

/-- `BufferPoolManager::FetchPage`. -/
def FetchPage (s : BPState) (pid : Int) : Option Nat × BPState × List IOEv :=
  match ptFind s.page_table pid with
  | some fid =>
    -- 1.1: present: pin it and remove it from the replacer
    let f := s.frames.getD fid default
    (some fid,
     { s with frames := s.frames.set fid { f with pin_count_ := f.pin_count_ + 1 },
              replacer := s.replacer.erase fid },
     [])
  | none =>
    match GetVictimPage s with
    | (none, s1) => (none, s1, [])
    | (some fid, s1) =>
      let f := s1.frames.getD fid default
      -- 2: write the victim back iff dirty
      let wio : List IOEv := if f.is_dirty_ then [IOEv.WritePage f.page_id_ f.data_] else []
      let disk1 := if f.is_dirty_ then Function.update s1.disk f.page_id_ f.data_ else s1.disk
      -- 3: drop the old page-table entry
      let pt1 := ptRemove s1.page_table f.page_id_
      -- 4: read the requested page and install the new metadata
      let f' : Frame := { page_id_ := pid, pin_count_ := 1, is_dirty_ := false, data_ := disk1 pid }
      (some fid,
       { frames := s1.frames.set fid f', page_table := ptInsert pt1 pid fid,
         free_list := s1.free_list, replacer := s1.replacer, disk := disk1 },
       wio ++ [IOEv.ReadPage pid])

/-- `BufferPoolManager::UnpinPage` (project2 variant).  The C++
`assert(GetPinCount() > 0)` is a precondition; the theorem about this
function assumes it. -/
def UnpinPage (s : BPState) (pid : Int) (is_dirty : Bool) : Bool × BPState :=
  match ptFind s.page_table pid with
  | none => (false, s)
  | some fid =>
    let f := s.frames.getD fid default
    let f1 : Frame := { f with is_dirty_ := f.is_dirty_ || is_dirty, pin_count_ := f.pin_count_ - 1 }
    let rep := if f1.pin_count_ = 0 then LRU.Insert fid s.replacer else s.replacer
    (true, { s with frames := s.frames.set fid f1, replacer := rep })

/-- `BufferPoolManager::DeletePage`. -/
def DeletePage (s : BPState) (pid : Int) : Bool × BPState × List IOEv :=
  match ptFind s.page_table pid with
  | some fid =>
    let f := s.frames.getD fid default
    if f.pin_count_ > 0 then (false, s, [])
    else
      let f' : Frame := { page_id_ := INVALID_PAGE_ID, pin_count_ := f.pin_count_,
                          is_dirty_ := false, data_ := 0 }
      (true,
       { s with frames := s.frames.set fid f',
                page_table := ptRemove s.page_table pid,
                replacer := s.replacer.erase fid,
                free_list := s.free_list ++ [fid] },
       [IOEv.DeallocatePage pid])
  | none => (true, s, [IOEv.DeallocatePage pid])

/-! ## LRU history

To state the eviction-order claim we replay an arbitrary sequence of
`Insert`/`Victim`/`Erase` calls from the empty replacer and relate the
resulting list to the position of each value's most recent `Insert` in
the call history. -/

inductive LRUOp
  | ins (v : Int)
  | victim
  | eraseOp (v : Int)
deriving DecidableEq, Repr

/-- Effect of one replacer call on the list state. -/
def lruStep (s : List Int) : LRUOp → List Int
  | .ins v => LRU.Insert v s
  | .victim => (LRU.Victim s).2
  | .eraseOp v => (LRU.Erase v s).2

/-- Replay a call history from the empty replacer. -/
def lruRun (ops : List LRUOp) : List Int := ops.foldl lruStep []

/-- Position (0-based, counted from the start of the history) of the last
`ins v` in `ops`, if any. -/
def lastInsertAt (ops : List LRUOp) (v : Int) : Option Nat :=
  (ops.reverse.findIdx? (fun op => decide (op = LRUOp.ins v))).map
    (fun i => ops.length - 1 - i)

/-- Time of the last insert, defaulted; used only on values where
`lastInsertAt` is `some`. -/
def timeD (ops : List LRUOp) (v : Int) : Nat := (lastInsertAt ops v).getD 0

theorem lastInsertAt_append_single (ops : List LRUOp) (o : LRUOp) (v : Int) :
    lastInsertAt (ops ++ [o]) v =
      if o = LRUOp.ins v then some ops.length else lastInsertAt ops v := by
  rw [lastInsertAt, lastInsertAt, List.reverse_append]
  by_cases h : o = LRUOp.ins v
  · simp [h]
  · have hpo : (decide (o = LRUOp.ins v)) = false := by simpa using h
    rw [if_neg h]
    simp only [List.reverse_singleton, List.singleton_append, List.findIdx?_cons, hpo,
      Bool.false_eq_true, if_false, List.findIdx?_succ, Option.map_map, List.length_append]
    congr 1
    funext i
    simp only [Function.comp_apply, List.length_singleton]
    omega

theorem lastInsertAt_lt_length {ops : List LRUOp} {v : Int} {n : Nat}
    (h : lastInsertAt ops v = some n) : n < ops.length := by
  rw [lastInsertAt] at h
  rcases hf : ops.reverse.findIdx? (fun op => decide (op = LRUOp.ins v)) with - | i
  · rw [hf] at h; exact absurd h (by simp)
  · rw [hf] at h
    have hne : ops ≠ [] := by
      rintro rfl
      simp at hf
    have hlen : 0 < ops.length := List.length_pos.mpr hne
    have hn : ops.length - 1 - i = n := by
      have := h
      simp only [Option.map_some'] at this
      exact Option.some.inj this
    omega

/-- Invariant tying the replayed replacer state to the call history:
the state is duplicate-free, every present value has been inserted, and
the list is ordered by strictly decreasing time of most recent insert
(most recent at the head). -/
def lruInv (ops : List LRUOp) : Prop :=
  (lruRun ops).Nodup ∧
  (∀ v ∈ lruRun ops, (lastInsertAt ops v).isSome = true) ∧
  (lruRun ops).Pairwise (fun a b => timeD ops b < timeD ops a)

theorem lruRun_append_single (ops : List LRUOp) (o : LRUOp) :
    lruRun (ops ++ [o]) = lruStep (lruRun ops) o := by
  simp [lruRun, List.foldl_append]

theorem lru_inv (ops : List LRUOp) : lruInv ops := by
  induction ops using List.reverseRecOn with
  | nil => refine ⟨by simp [lruRun], by simp [lruRun], by simp [lruRun]⟩
  | append_singleton ops o ih =>
    obtain ⟨hnd, hsome, hpw⟩ := ih
    have htime : ∀ w : Int, o ≠ LRUOp.ins w →
        lastInsertAt (ops ++ [o]) w = lastInsertAt ops w := by
      intro w hw
      rw [lastInsertAt_append_single, if_neg hw]
    rcases o with v | - | v
    · -- Insert v
      have hrw : lruRun (ops ++ [LRUOp.ins v]) = v :: (lruRun ops).erase v := by
        rw [lruRun_append_single]; rfl
      have htv : lastInsertAt (ops ++ [LRUOp.ins v]) v = some ops.length := by
        rw [lastInsertAt_append_single, if_pos rfl]
      have htne : ∀ w : Int, w ≠ v →
          lastInsertAt (ops ++ [LRUOp.ins v]) w = lastInsertAt ops w := by
        intro w hw
        rw [lastInsertAt_append_single, if_neg (by simp [hw.symm])]
      have hmem_erase : ∀ w ∈ (lruRun ops).erase v, w ≠ v ∧ w ∈ lruRun ops := by
        intro w hw
        exact (List.Nodup.mem_erase_iff hnd).1 hw
      refine ⟨?_, ?_, ?_⟩
      · rw [hrw]
        refine List.Nodup.cons ?_ (List.Nodup.erase v hnd)
        intro hv
        exact ((hmem_erase v hv).1 rfl).elim
      · rw [hrw]
        intro w hw
        rcases List.mem_cons.1 hw with rfl | hw'
        · rw [htv]; rfl
        · obtain ⟨hwv, hws⟩ := hmem_erase w hw'
          rw [htne w hwv]
          exact hsome w hws
      · rw [hrw]
        refine List.Pairwise.cons ?_ ?_
        · intro b hb
          obtain ⟨hbv, hbs⟩ := hmem_erase b hb
          have hbt := hsome b hbs
          obtain ⟨n, hn⟩ := Option.isSome_iff_exists.1 hbt
          have := lastInsertAt_lt_length hn
          simp only [timeD, htv, htne b hbv, hn, Option.getD_some]
          exact this
        · have hsub : ((lruRun ops).erase v).Sublist (lruRun ops) := List.erase_sublist v _
          have hp : ((lruRun ops).erase v).Pairwise (fun a b => timeD ops b < timeD ops a) :=
            hpw.sublist hsub
          refine hp.imp_of_mem ?_
          intro a b ha hb hab
          rw [timeD, timeD, htne a (hmem_erase a ha).1, htne b (hmem_erase b hb).1]
          exact hab
    · -- Victim
      have hrw : lruRun (ops ++ [LRUOp.victim]) = (lruRun ops).dropLast := by
        rw [lruRun_append_single]
        show (LRU.Victim (lruRun ops)).2 = _
        rw [LRU.Victim_eq]
      have hsub : ((lruRun ops).dropLast).Sublist (lruRun ops) := List.dropLast_sublist _
      refine ⟨?_, ?_, ?_⟩
      · rw [hrw]; exact hnd.sublist hsub
      · rw [hrw]
        intro w hw
        rw [htime w (by simp)]
        exact hsome w (hsub.mem hw)
      · rw [hrw]
        refine (hpw.sublist hsub).imp_of_mem ?_
        intro a b ha hb hab
        rw [timeD, timeD, htime a (by simp), htime b (by simp)]
        exact hab
    · -- Erase v
      have hrw : lruRun (ops ++ [LRUOp.eraseOp v]) = (lruRun ops).erase v := by
        rw [lruRun_append_single]; rfl
      have hsub : ((lruRun ops).erase v).Sublist (lruRun ops) := List.erase_sublist v _
      refine ⟨?_, ?_, ?_⟩
      · rw [hrw]; exact hnd.sublist hsub
      · rw [hrw]
        intro w hw
        rw [htime w (by simp)]
        exact hsome w (hsub.mem hw)
      · rw [hrw]
        refine (hpw.sublist hsub).imp_of_mem ?_
        intro a b ha hb hab
        rw [timeD, timeD, htime a (by simp), htime b (by simp)]
        exact hab

/-! ## Claim theorems: C4 and C9 -/

/-- C4: for every B+Tree page, `IsSafeOperation(READ)` is true;
`IsSafeOperation(INSERT)` holds iff `size < max_size`;
`IsSafeOperation(DELETE)` holds iff `size ≥ min_size + 1` for a leaf and
`size > min_size + 1` for an internal page, where `min_size` is
`⌊max_size/2⌋` for a non-root page, 1 for a root leaf and 2 for a root
internal page. -/
theorem C4_is_safe_operation_spec (p : BPlusTreePage) :
    p.IsSafeOperation OperationType.READ = true ∧
    (p.IsSafeOperation OperationType.INSERT = true ↔ p.size_ < p.max_size_) ∧
    (p.IsSafeOperation OperationType.DELETE = true ↔
      (if p.IsLeafPage then p.GetMinSize + 1 ≤ p.size_ else p.GetMinSize + 1 < p.size_)) ∧
    p.GetMinSize =
      (if p.IsRootPage then (if p.IsLeafPage then 1 else 2) else p.max_size_ / 2) := by
  refine ⟨rfl, by simp [BPlusTreePage.IsSafeOperation], ?_, rfl⟩
  by_cases h : p.IsLeafPage
  · simp [BPlusTreePage.IsSafeOperation, h]
  · simp only [Bool.not_eq_true] at h
    simp [BPlusTreePage.IsSafeOperation, h]

/-- C9: for every call history, `Insert(v)` places `v` at the MRU head and,
when `v` was already present, moves it there without changing membership or
size; `Victim` removes and returns the tail element — the present element
whose most recent `Insert` is oldest — and returns `none` exactly when the
replacer is empty. -/
theorem C9_lru_ordering_spec (ops : List LRUOp) (v : Int) :
    (LRU.Insert v (lruRun ops)).head? = some v ∧
    (∀ w, w ∈ LRU.Insert v (lruRun ops) ↔ (w = v ∨ w ∈ lruRun ops)) ∧
    (v ∈ lruRun ops → (LRU.Insert v (lruRun ops)).length = (lruRun ops).length) ∧
    ((LRU.Victim (lruRun ops)).1 = none ↔ lruRun ops = []) ∧
    (LRU.Victim (lruRun ops)).2 = (lruRun ops).dropLast ∧
    (∀ w, (LRU.Victim (lruRun ops)).1 = some w →
      w ∈ lruRun ops ∧
      ∀ u ∈ lruRun ops, u ≠ w →
        ∃ tu tw, lastInsertAt ops u = some tu ∧ lastInsertAt ops w = some tw ∧ tw < tu) := by
  obtain ⟨hnd, hsome, hpw⟩ := lru_inv ops
  refine ⟨rfl, ?_, ?_, ?_, ?_, ?_⟩
  · intro w
    simp only [LRU.Insert, List.mem_cons]
    constructor
    · rintro (rfl | hw)
      · exact Or.inl rfl
      · exact Or.inr ((List.erase_sublist v _).mem hw)
    · rintro (rfl | hw)
      · exact Or.inl rfl
      · by_cases hwv : w = v
        · exact Or.inl hwv
        · exact Or.inr ((List.mem_erase_of_ne hwv).2 hw)
  · intro hv
    simp only [LRU.Insert, List.length_cons, List.length_erase_of_mem hv]
    have : 0 < (lruRun ops).length := List.length_pos_of_mem hv
    omega
  · rw [LRU.Victim_eq]
    simp
  · rw [LRU.Victim_eq]
  · intro w hw
    rw [LRU.Victim_eq] at hw
    simp only at hw
    obtain ⟨ys, hys⟩ := List.getLast?_eq_some_iff.1 hw
    have hwmem : w ∈ lruRun ops := by
      rw [hys]; exact List.mem_append.2 (Or.inr (by simp))
    refine ⟨hwmem, ?_⟩
    intro u hu huw
    have humem : u ∈ ys := by
      rw [hys] at hu
      rcases List.mem_append.1 hu with h1 | h1
      · exact h1
      · simp at h1; exact absurd h1 huw
    have hrel : timeD ops w < timeD ops u := by
      have hpw' : (ys ++ [w]).Pairwise (fun a b => timeD ops b < timeD ops a) := by
        rw [← hys]; exact hpw
      exact (List.pairwise_append.1 hpw').2.2 u humem w (by simp)
    obtain ⟨tu, htu⟩ := Option.isSome_iff_exists.1 (hsome u hu)
    obtain ⟨tw, htw⟩ := Option.isSome_iff_exists.1 (hsome w hwmem)
    refine ⟨tu, tw, htu, htw, ?_⟩
    rw [timeD, timeD, htu, htw] at hrel
    simpa using hrel

/-- Witness for `C9_lru_ordering_spec` at the concrete history
`[ins 1, ins 2, ins 1]`: the replayed state is `[1, 2]`, the victim is 2,
and 2's last insert (position 1) is older than 1's (position 2). -/
theorem C9_lru_ordering_witness :
    (LRU.Victim (lruRun [LRUOp.ins 1, LRUOp.ins 2, LRUOp.ins 1])).1 = some 2 ∧
    2 ∈ lruRun [LRUOp.ins 1, LRUOp.ins 2, LRUOp.ins 1] ∧
    ∃ tu tw, lastInsertAt [LRUOp.ins 1, LRUOp.ins 2, LRUOp.ins 1] 1 = some tu ∧
      lastInsertAt [LRUOp.ins 1, LRUOp.ins 2, LRUOp.ins 1] 2 = some tw ∧ tw < tu := by
  have h := (C9_lru_ordering_spec [LRUOp.ins 1, LRUOp.ins 2, LRUOp.ins 1] 0).2.2.2.2.2
    2 (by decide)
  exact ⟨by decide, h.1, h.2 1 (by decide) (by decide)⟩

/-! ## Claim theorems: C2, C3, C10 (buffer pool) -/

theorem getVictim_free (s : BPState) (fid : Nat) (rest : List Nat)
    (h : s.free_list = fid :: rest) :
    GetVictimPage s = (some fid, { s with free_list := rest }) := by
  rw [GetVictimPage, h]

theorem getVictim_lru (s : BPState) (h : s.free_list = []) :
    GetVictimPage s = (s.replacer.getLast?, { s with replacer := s.replacer.dropLast }) := by
  obtain ⟨fr, pt, fl, rep, dk⟩ := s
  simp only at h
  subst h
  rcases rep with - | ⟨r, rs⟩
  · rfl
  · obtain ⟨x, hx⟩ := Option.isSome_iff_exists.1 (List.getLast?_isSome.2 (by simp) :
      ((r :: rs).getLast?).isSome = true)
    rw [GetVictimPage]
    simp only [if_neg (by simp : ¬((r : Nat) :: rs).length = 0), LRU.Victim_eq, hx]

/-- C2: `FetchPage` on a resident page pins it, removes its frame from the
replacer, does no disk I/O and returns the frame; on a miss it takes a
victim (free list preferred, else the LRU tail), writes the victim back
exactly when dirty, drops the victim's page-table entry, reads the page
from disk into the frame with `pin_count = 1` and `is_dirty = false`,
inserts the new page-table entry and returns the frame; it returns `none`
exactly when the page is absent and the free list and replacer are both
empty. -/
theorem C2_fetch_page_spec (s : BPState) (pid : Int) :
    (∀ fid, ptFind s.page_table pid = some fid →
      FetchPage s pid =
        (some fid,
         { s with
             frames := s.frames.set fid
               { s.frames.getD fid default with
                   pin_count_ := (s.frames.getD fid default).pin_count_ + 1 },
             replacer := s.replacer.erase fid },
         [])) ∧
    (∀ fid rest, s.free_list = fid :: rest →
      GetVictimPage s = (some fid, { s with free_list := rest })) ∧
    (s.free_list = [] →
      GetVictimPage s = (s.replacer.getLast?, { s with replacer := s.replacer.dropLast })) ∧
    (∀ fid s1, ptFind s.page_table pid = none → GetVictimPage s = (some fid, s1) →
      FetchPage s pid =
        (some fid,
         { frames := s1.frames.set fid
             { page_id_ := pid, pin_count_ := 1, is_dirty_ := false,
               data_ := (if (s1.frames.getD fid default).is_dirty_ then
                   Function.update s1.disk (s1.frames.getD fid default).page_id_
                     (s1.frames.getD fid default).data_
                 else s1.disk) pid },
           page_table := ptInsert
             (ptRemove s1.page_table (s1.frames.getD fid default).page_id_) pid fid,
           free_list := s1.free_list,
           replacer := s1.replacer,
           disk := if (s1.frames.getD fid default).is_dirty_ then
               Function.update s1.disk (s1.frames.getD fid default).page_id_
                 (s1.frames.getD fid default).data_
             else s1.disk },
         (if (s1.frames.getD fid default).is_dirty_ then
             [IOEv.WritePage (s1.frames.getD fid default).page_id_
               (s1.frames.getD fid default).data_]
           else []) ++ [IOEv.ReadPage pid])) ∧
    ((FetchPage s pid).1 = none ↔
      ptFind s.page_table pid = none ∧ s.free_list = [] ∧ s.replacer = []) := by
  refine ⟨?_, ?_, ?_, ?_, ?_⟩
  · intro fid h
    simp only [FetchPage, h]
  · intro fid rest h
    exact getVictim_free s fid rest h
  · intro h
    exact getVictim_lru s h
  · intro fid s1 hpt hv
    simp only [FetchPage, hpt, hv]
  · rcases hpt : ptFind s.page_table pid with - | fid
    · rcases hfree : s.free_list with - | ⟨f, fs⟩
      · rcases hrep : s.replacer with - | ⟨r, rs⟩
        · have hv : GetVictimPage s = (none, s) := by
            rw [getVictim_lru s hfree, hrep]
            simp only [List.getLast?_nil, List.dropLast_nil]
            rw [← hrep]
          simp only [FetchPage, hpt, hv]
          simp
        · have hv := getVictim_lru s hfree
          rw [hrep] at hv
          have hlast : (r :: rs).getLast? = some ((r :: rs).getLast (by simp)) :=
            List.getLast?_eq_getLast _ _
          rw [hlast] at hv
          simp only [FetchPage, hpt, hv]
          simp
      · have hv := getVictim_free s f fs hfree
        simp only [FetchPage, hpt, hv]
        simp [hfree]
    · simp only [FetchPage, hpt]
      simp [hpt]

/-- Witness for `C2_fetch_page_spec`: a concrete hit in a one-frame pool
increments the pin count, performs no I/O and returns frame 0. -/
theorem C2_fetch_page_witness :
    (FetchPage
        { frames := [{ page_id_ := 7, pin_count_ := 1, is_dirty_ := false, data_ := 42 }],
          page_table := [(7, 0)], free_list := [], replacer := [],
          disk := fun _ => 0 } 7).1 = some 0 ∧
    (FetchPage
        { frames := [{ page_id_ := 7, pin_count_ := 1, is_dirty_ := false, data_ := 42 }],
          page_table := [(7, 0)], free_list := [], replacer := [],
          disk := fun _ => 0 } 7).2.2 = [] := by
  have h := (C2_fetch_page_spec
    { frames := [{ page_id_ := 7, pin_count_ := 1, is_dirty_ := false, data_ := 42 }],
      page_table := [(7, 0)], free_list := [], replacer := [],
      disk := fun _ => 0 } 7).1 0 (by decide)
  exact ⟨by rw [h], by rw [h]⟩

/-- C3: `UnpinPage` on an absent page returns false and changes nothing; on
a resident page with positive pin count it ors the dirty flag, decrements
the pin count, inserts the frame into the replacer exactly when the count
reaches zero, and returns true. -/
theorem C3_unpin_page_spec (s : BPState) (pid : Int) (d : Bool) :
    (ptFind s.page_table pid = none → UnpinPage s pid d = (false, s)) ∧
    (∀ fid, ptFind s.page_table pid = some fid →
      0 < (s.frames.getD fid default).pin_count_ →
      UnpinPage s pid d =
        (true,
         { s with
             frames := s.frames.set fid
               { s.frames.getD fid default with
                   is_dirty_ := (s.frames.getD fid default).is_dirty_ || d,
                   pin_count_ := (s.frames.getD fid default).pin_count_ - 1 },
             replacer :=
               if (s.frames.getD fid default).pin_count_ - 1 = 0 then
                 LRU.Insert fid s.replacer
               else s.replacer })) := by
  constructor
  · intro h
    simp only [UnpinPage, h]
  · intro fid h _
    simp only [UnpinPage, h]

/-- Witness for `C3_unpin_page_spec`: unpinning the only pin of a concrete
resident page succeeds. -/
theorem C3_unpin_page_witness :
    (UnpinPage
        { frames := [{ page_id_ := 7, pin_count_ := 1, is_dirty_ := false, data_ := 42 }],
          page_table := [(7, 0)], free_list := [], replacer := [],
          disk := fun _ => 0 } 7 true).1 = true := by
  have h := (C3_unpin_page_spec
    { frames := [{ page_id_ := 7, pin_count_ := 1, is_dirty_ := false, data_ := 42 }],
      page_table := [(7, 0)], free_list := [], replacer := [],
      disk := fun _ => 0 } 7 true).2 0 (by decide) (by decide)
  rw [h]

/-- C10: `DeletePage` on a page absent from the page table still calls the
disk manager's `DeallocatePage` and returns true while leaving the state
unchanged; it returns false (and does not deallocate) exactly when the
page is resident with a positive pin count. -/
theorem C10_delete_page_spec (s : BPState) (pid : Int) :
    (ptFind s.page_table pid = none →
      DeletePage s pid = (true, s, [IOEv.DeallocatePage pid])) ∧
    (∀ fid, ptFind s.page_table pid = some fid →
      0 < (s.frames.getD fid default).pin_count_ →
      DeletePage s pid = (false, s, [])) ∧
    ((DeletePage s pid).1 = false ↔
      ∃ fid, ptFind s.page_table pid = some fid ∧
        0 < (s.frames.getD fid default).pin_count_) := by
  refine ⟨?_, ?_, ?_⟩
  · intro h
    simp only [DeletePage, h]
  · intro fid h hpin
    simp only [DeletePage, h, if_pos hpin]
  · rcases h : ptFind s.page_table pid with - | fid
    · simp only [DeletePage, h]
      simp
    · simp only [DeletePage, h]
      by_cases hpin : 0 < (s.frames.getD fid default).pin_count_
      · rw [if_pos hpin]
        exact iff_of_true rfl ⟨fid, rfl, hpin⟩
      · rw [if_neg hpin]
        simp only [Option.some.injEq]
        constructor
        · intro hc; exact absurd hc (by simp)
        · rintro ⟨fid', hfid', hpin'⟩
          cases hfid'
          exact absurd hpin' hpin

/-- Witness for `C10_delete_page_spec`: deleting a page that is not in the
page table of a concrete pool returns true and deallocates it. -/
theorem C10_delete_page_witness :
    (DeletePage
        { frames := [{ page_id_ := 7, pin_count_ := 1, is_dirty_ := false, data_ := 42 }],
          page_table := [(7, 0)], free_list := [], replacer := [],
          disk := fun _ => 0 } 9).1 = true ∧
    (DeletePage
        { frames := [{ page_id_ := 7, pin_count_ := 1, is_dirty_ := false, data_ := 42 }],
          page_table := [(7, 0)], free_list := [], replacer := [],
          disk := fun _ => 0 } 9).2.2 = [IOEv.DeallocatePage 9] := by
  have h := (C10_delete_page_spec
    { frames := [{ page_id_ := 7, pin_count_ := 1, is_dirty_ := false, data_ := 42 }],
      page_table := [(7, 0)], free_list := [], replacer := [],
      disk := fun _ => 0 } 9).1 (by decide)
  exact ⟨by rw [h], by rw [h]⟩

/-! ## Extendible hash table (src/hash/extendible_hash.cpp, project1)

`buckets` is a vector of `shared_ptr<Bucket>`; aliasing between directory
slots matters (the split loop compares slots against the current bucket by
pointer identity), so buckets live in a `store` and the directory holds
indices into it; pointer equality is index equality.  `std::map<K,V>` is a
key-sorted association list.  `std::hash<int>` is the identity, modelled
for the non-negative keys of the scenario as `Int.toNat`. -/

structure EHBucket where
  localDepth : Nat
  keyMap : List (Int × Int)
deriving DecidableEq, Repr

instance : Inhabited EHBucket := ⟨⟨0, []⟩⟩

structure EHState where
  globalDepth : Nat
  bucketNum : Nat
  bucketSize : Nat
  store : List EHBucket
  dir : List Nat
deriving DecidableEq, Repr

/-- `std::map::find`. -/
def mapFind (m : List (Int × Int)) (k : Int) : Option Int :=
  (m.find? (fun e => decide (e.1 = k))).map (fun e => e.2)

/-- `std::map::operator[]` followed by assignment: sorted insert-or-overwrite. -/
def mapInsert (m : List (Int × Int)) (k v : Int) : List (Int × Int) :=
  match m with
  | [] => [(k, v)]
  | (k', v') :: tl =>
    if k < k' then (k, v) :: (k', v') :: tl
    else if k = k' then (k, v) :: tl
    else (k', v') :: mapInsert tl k v

/-- `std::hash<K>` at `K = int` (identity on the scenario's keys). -/
def hashKey (k : Int) : Nat := k.toNat

/-- `ExtendibleHash::getIdx`. -/
def getIdx (s : EHState) (k : Int) : Nat :=
  hashKey k &&& ((1 <<< s.globalDepth) - 1)

/-- `ExtendibleHash::ExtendibleHash(size)`. -/
def ehInit (size : Nat) : EHState :=
  { globalDepth := 0, bucketNum := 1, bucketSize := size,
    store := [{ localDepth := 0, keyMap := [] }], dir := [0] }

/-- `ExtendibleHash::Find`. -/
def ehFind (s : EHState) (k : Int) : Option Int :=
  mapFind ((s.store.getD (s.dir.getD (getIdx s k) 0) default).keyMap) k

/-- Body of the `while (true)` loop of `ExtendibleHash::Insert`, with fuel
(the C++ loop retries after each split; the scenario below terminates well
within the supplied fuel). -/
def ehInsertLoop : Nat → EHState → Int → Int → Nat → EHState
  | 0, s, _, _, _ => s
  | fuel + 1, s, key, value, curId =>
    let cur := s.store.getD curId default
    if (mapFind cur.keyMap key).isSome || cur.keyMap.length < s.bucketSize then
      { s with store := s.store.set curId { cur with keyMap := mapInsert cur.keyMap key value } }
    else
      -- split: mask from the old local depth, then increment it
      let mask := 1 <<< cur.localDepth
      let cur1 : EHBucket := { cur with localDepth := cur.localDepth + 1 }
      let s1 := { s with store := s.store.set curId cur1 }
      -- double the directory if the local depth now exceeds the global depth
      let s2 := if s1.globalDepth < cur1.localDepth then
          { s1 with dir := s1.dir ++ s1.dir, globalDepth := s1.globalDepth + 1 }
        else s1
      let s3 := { s2 with bucketNum := s2.bucketNum + 1 }
      -- allocate the new bucket and redistribute on bit `mask`
      let newId := s3.store.length
      let newBuc : EHBucket :=
        { localDepth := cur1.localDepth,
          keyMap := cur1.keyMap.filter (fun e => decide (hashKey e.1 &&& mask ≠ 0)) }
      let curAfter : EHBucket :=
        { cur1 with
          keyMap := cur1.keyMap.filter (fun e => decide (hashKey e.1 &&& mask = 0)) }
      let s4 := { s3 with store := (s3.store.set curId curAfter) ++ [newBuc] }
      -- repoint every directory slot that aliases `cur` and has the split bit set
      let s5 := { s4 with dir := (List.range s4.dir.length).map (fun i =>
          if s4.dir.getD i 0 = curId ∧ i &&& mask ≠ 0 then newId else s4.dir.getD i 0) }
      ehInsertLoop fuel s5 key value (s5.dir.getD (getIdx s5 key) 0)

/-- `ExtendibleHash::Insert`. -/
def ehInsert (s : EHState) (k v : Int) : EHState :=
  ehInsertLoop 16 s k v (s.dir.getD (getIdx s k) 0)

/-- The C8 scenario: bucket size 2, keys 0, 1, 2 inserted in order. -/
def eh012 : EHState := ehInsert (ehInsert (ehInsert (ehInit 2) 0 0) 1 1) 2 2

/-- C8 counterexample: with bucket_size 2, initial global_depth 0 and the
identity hash, inserting 0, 1, 2 does NOT yield global_depth 2 with 3 or 4
buckets: inserting 2 splits bucket 0 once (depth 0 → 1, keys 0 and 1
separate on bit 0) and key 2 then fits in bucket 0, so the table stops at
global_depth 1 with 2 buckets. -/
theorem C8_eht_split_counterexample :
    ¬(eh012.globalDepth = 2 ∧ (eh012.bucketNum = 3 ∨ eh012.bucketNum = 4) ∧
      (ehFind eh012 0).isSome = true ∧ (ehFind eh012 1).isSome = true ∧
      (ehFind eh012 2).isSome = true) := by
  decide

/-- C8 amended: after inserting keys 0, 1, 2 in order (bucket_size 2,
identity hash), global_depth is 1, there are 2 buckets, and `Find(0)`,
`Find(1)`, `Find(2)` all succeed. -/
theorem C8_eht_split_amended :
    eh012.globalDepth = 1 ∧ eh012.bucketNum = 2 ∧
    ehFind eh012 0 = some 0 ∧ ehFind eh012 1 = some 1 ∧ ehFind eh012 2 = some 2 := by
  decide

/-! ## B+Tree (src/index/b_plus_tree.cpp, src/page/b_plus_tree_leaf_page.cpp,
src/page/b_plus_tree_internal_page.cpp)

The tree is embedded functionally: a node is a leaf holding the sorted
`(key, value)` entries of a leaf page, or an internal node holding the
`(key, child)` entries of an internal page (slot 0's key is stored but
unused, as in the source).  Keys and values are `Int`; the comparator is
the order on `Int`.  Page ids, latches and pins are bookkeeping that the
buffer-pool model covers; the structural algorithms — binary searches,
split points, merge/redistribute decisions and the separator-key updates —
are translated statement by statement below. -/

structure BTConfig where
  leafMax : Nat
  intMax : Nat
deriving DecidableEq, Repr

/-- Sanity bounds on the page capacities (in the source both are derived
from `PAGE_SIZE` and are far larger). -/
def BTConfig.ok (cfg : BTConfig) : Prop := 2 ≤ cfg.leafMax ∧ 3 ≤ cfg.intMax

inductive BNode where
  | leaf : List (Int × Int) → BNode
  | internal : List (Int × BNode) → BNode

instance : Inhabited BNode := ⟨.leaf []⟩

/-- `BPlusTreePage::GetSize`: the number of valid entries. -/
def BNode.size : BNode → Nat
  | .leaf kvs => kvs.length
  | .internal es => es.length

def BNode.isLeaf : BNode → Bool
  | .leaf _ => true
  | .internal _ => false

/-- `GetMaxSize` of the page underlying a node. -/
def nodeMaxSize (cfg : BTConfig) : BNode → Nat
  | .leaf _ => cfg.leafMax
  | .internal _ => cfg.intMax

/-- `GetMinSize` of a non-root page: `max_size / 2` for leaves and
internal pages alike. -/
def childLB (cfg : BTConfig) : BNode → Nat
  | .leaf _ => cfg.leafMax / 2
  | .internal _ => cfg.intMax / 2

/-- The binary-search loop of `BPlusTreeLeafPage::KeyIndex` (finds the
first index whose key is `≥ key`), with the C++ `(start, end)` pair
mapped to the half-open `[lo, hi)`:
`while (start <= end) { mid = (end-start)/2+start;
  if (cmp(a[mid], key) >= 0) end = mid-1; else start = mid+1; }
return end+1;`. -/
def bsearchGe (keys : List Int) (key : Int) (lo hi : Nat) : Nat :=
  if lo < hi then
    if key ≤ keys.getD ((hi - 1 - lo) / 2 + lo) 0 then
      bsearchGe keys key lo ((hi - 1 - lo) / 2 + lo)
    else
      bsearchGe keys key ((hi - 1 - lo) / 2 + lo + 1) hi
  else lo
termination_by hi - lo
decreasing_by
  · omega
  · omega

/-- `BPlusTreeLeafPage::KeyIndex`. -/
def keyIndex (kvs : List (Int × Int)) (key : Int) : Nat :=
  bsearchGe (kvs.map Prod.fst) key 0 kvs.length

/-- The binary-search loop of `BPlusTreeInternalPage::Lookup` (finds the
last index in `[1, size)` whose key is `≤ key`), same `(start, end)`
mapping:
`start = 1; end = size-1; while (start <= end) { mid = ...;
  if (cmp(a[mid], key) <= 0) start = mid+1; else end = mid-1; }
return a[start-1].second;`. -/
def bsearchLe (keys : List Int) (key : Int) (lo hi : Nat) : Nat :=
  if lo < hi then
    if keys.getD ((hi - 1 - lo) / 2 + lo) 0 ≤ key then
      bsearchLe keys key ((hi - 1 - lo) / 2 + lo + 1) hi
    else
      bsearchLe keys key lo ((hi - 1 - lo) / 2 + lo)
  else lo
termination_by hi - lo
decreasing_by
  · omega
  · omega

/-- Index of the child chosen by `BPlusTreeInternalPage::Lookup`. -/
def childIdx (es : List (Int × BNode)) (key : Int) : Nat :=
  bsearchLe (es.map Prod.fst) key 1 es.length - 1

/-- `BPlusTreeLeafPage::Lookup`. -/
def leafLookup (kvs : List (Int × Int)) (key : Int) : Option Int :=
  let idx := keyIndex kvs key
  if idx < kvs.length then
    if (kvs.getD idx (0, 0)).1 = key then some (kvs.getD idx (0, 0)).2 else none
  else none

/-- `BPlusTreeLeafPage::Insert`: shift the suffix right and write at the
insertion index. -/
def leafInsert (kvs : List (Int × Int)) (k v : Int) : List (Int × Int) :=
  let idx := keyIndex kvs k
  kvs.take idx ++ (k, v) :: kvs.drop idx

/-- `BPlusTreeLeafPage::RemoveAndDeleteRecord`. -/
def removeRecord (kvs : List (Int × Int)) (k : Int) : List (Int × Int) :=
  let idx := keyIndex kvs k
  if idx ≥ kvs.length then kvs
  else if (kvs.getD idx (0, 0)).1 ≠ k then kvs
  else kvs.eraseIdx idx

/-! In-order contents of a subtree (concatenation of its leaves). -/
mutual
def toL : BNode → List (Int × Int)
  | .leaf kvs => kvs
  | .internal es => toLL es
def toLL : List (Int × BNode) → List (Int × Int)
  | [] => []
  | (_, c) :: tl => toL c ++ toLL tl
end

/-! `BPlusTree::FindLeafPage` (read path): descend by `Lookup` and return
the entries of the leaf reached. -/
mutual
def findLeaf (key : Int) : BNode → List (Int × Int)
  | .leaf kvs => kvs
  | .internal es => findLeafIn key es (childIdx es key)
def findLeafIn (key : Int) : List (Int × BNode) → Nat → List (Int × Int)
  | [], _ => []
  | (_, c) :: _, 0 => findLeaf key c
  | _ :: tl, i + 1 => findLeafIn key tl i
end

/-- `BPlusTree::GetValue`: the returned flag and the result vector
(`result.resize(1)`; slot 0 is written only on a hit, otherwise it keeps
the default-constructed value). -/
def getValue (t : Option BNode) (key : Int) : Bool × List Int :=
  match t with
  | none => (false, [])
  | some n =>
    match leafLookup (findLeaf key n) key with
    | some v => (true, [v])
    | none => (false, [0])

/-- Result of inserting below a node: duplicate key, an updated node, or a
split (left page, separator pushed to the parent, new right page). -/
inductive IRes where
  | dup
  | one : BNode → IRes
  | split : BNode → Int → BNode → IRes

inductive CRes where
  | dup
  | upd : List (Int × BNode) → CRes

/-! `BPlusTree::InsertIntoLeaf` / `InsertIntoParent` / `Split` and the two
`MoveHalfTo`s, as one recursive insertion:
leaves split at `(max_size + 1) / 2` after growing to `max_size + 1`
entries; internal pages split at `size / 2` after exceeding `max_size`;
the separator pushed up is the new right page's `KeyAt(0)`; the parent
inserts the new entry right after the split child (`InsertNodeAfter`). -/
mutual
def insertNode (cfg : BTConfig) (k v : Int) : BNode → IRes
  | .leaf kvs =>
    if (leafLookup kvs k).isSome then .dup
    else
      let kvs' := leafInsert kvs k v
      if kvs'.length > cfg.leafMax then
        let idxToCopy := (cfg.leafMax + 1) / 2
        .split (.leaf (kvs'.take idxToCopy)) ((kvs'.drop idxToCopy).getD 0 (0, 0)).1
          (.leaf (kvs'.drop idxToCopy))
      else .one (.leaf kvs')
  | .internal es =>
    match insertChildAt cfg k v es (childIdx es k) with
    | .dup => .dup
    | .upd es' =>
      if es'.length > cfg.intMax then
        let mid := es'.length / 2
        .split (.internal (es'.take mid)) ((es'.drop mid).getD 0 (0, default)).1
          (.internal (es'.drop mid))
      else .one (.internal es')
def insertChildAt (cfg : BTConfig) (k v : Int) : List (Int × BNode) → Nat → CRes
  | [], _ => .upd []
  | (key, c) :: tl, 0 =>
    match insertNode cfg k v c with
    | .dup => .dup
    | .one c' => .upd ((key, c') :: tl)
    | .split l sep r => .upd ((key, l) :: (sep, r) :: tl)
  | e :: tl, i + 1 =>
    match insertChildAt cfg k v tl i with
    | .dup => .dup
    | .upd tl' => .upd (e :: tl')
end

/-- `BPlusTree::Insert`: `StartNewTree` on an empty tree, else
`InsertIntoLeaf`; a root split builds a new root via `PopulateNewRoot`
(slot 0's key is uninitialised, modelled as 0). -/
def insertTree (cfg : BTConfig) (k v : Int) (t : Option BNode) : Bool × Option BNode :=
  match t with
  | none => (true, some (.leaf [(k, v)]))
  | some n =>
    match insertNode cfg k v n with
    | .dup => (false, some n)
    | .one n' => (true, some n')
    | .split l sep r => (true, some (.internal [(0, l), (sep, r)]))

/-- `MoveAllTo` of the two page kinds: a leaf merge appends the right
page's entries to the left page; an internal merge first pulls the
parent's separator down into the right page's slot 0, then appends. -/
def mergeNodes (left right : BNode) (sepKey : Int) : BNode :=
  match left, right with
  | .leaf lk, .leaf rk => .leaf (lk ++ rk)
  | .internal le, .internal re =>
    match re with
    | [] => .internal le
    | (_, c0) :: rt => .internal (le ++ (sepKey, c0) :: rt)
  | l, _ => l

/-- `BPlusTree::CoalesceOrRedistribute` on the entry list of the parent,
for the under-full child at index `i`:
`FindLeftSibling` picks the left sibling unless `i = 0` (then the right);
if the two sizes fit in one page, merge the right-most of the two into the
left-most and drop the right entry from the parent (`Coalesce`), else move
one entry from the sibling to the node and update the parent separator
(`Redistribute` / `MoveFirstToEndOf` / `MoveLastToFrontOf`).  Returns the
new entry list and whether a merge happened. -/
def coalesceOrRedistribute (cfg : BTConfig) (es : List (Int × BNode)) (i : Nat) :
    List (Int × BNode) × Bool :=
  let j := if i = 0 then 1 else i - 1
  let node := (es.getD i default).2
  let sib := (es.getD j default).2
  if node.size + sib.size ≤ nodeMaxSize cfg node then
    -- Coalesce: merge into the left-most of the two, remove the right entry
    let li := min i j
    let ri := max i j
    let merged := mergeNodes (es.getD li default).2 (es.getD ri default).2 (es.getD ri default).1
    ((es.set li ((es.getD li default).1, merged)).eraseIdx ri, true)
  else if i = 0 then
    -- Redistribute from the right sibling: `sib.MoveFirstToEndOf(node)`;
    -- the parent key of the sibling becomes the sibling's new first key
    match node, sib with
    | .leaf nk, .leaf sk =>
      let sk' := sk.drop 1
      ((es.set 0 ((es.getD 0 default).1, .leaf (nk ++ [sk.getD 0 (0, 0)]))).set 1
        ((sk'.getD 0 (0, 0)).1, .leaf sk'), false)
    | .internal ne, .internal se =>
      let se' := se.drop 1
      ((es.set 0 ((es.getD 0 default).1, .internal (ne ++ [se.getD 0 (0, default)]))).set 1
        ((se'.getD 0 (0, default)).1, .internal se'), false)
    | _, _ => (es, false)
  else
    -- Redistribute from the left sibling: `sib.MoveLastToFrontOf(node, i)`;
    -- the parent key of the node becomes the moved (borrowed) key
    match node, sib with
    | .leaf nk, .leaf sk =>
      let moved := sk.getD (sk.length - 1) (0, 0)
      ((es.set (i - 1) ((es.getD (i - 1) default).1, .leaf sk.dropLast)).set i
        (moved.1, .leaf (moved :: nk)), false)
    | .internal ne, .internal se =>
      let moved := se.getD (se.length - 1) (0, default)
      ((es.set (i - 1) ((es.getD (i - 1) default).1, .internal se.dropLast)).set i
        (moved.1, .internal (moved :: ne)), false)
    | _, _ => (es, false)

/-! `BPlusTree::Remove` below the root: delete in the leaf reached by the
descent; a leaf that drops below `min_size` is fixed at its parent
(`CoalesceOrRedistribute`); an internal node that lost an entry to a merge
of its children is fixed at its parent when its size is `≤ min_size`
(the `parent->GetSize() <= parent->GetMinSize()` recursion in `Coalesce`).
The boolean is whether a merge removed an entry from the returned node. -/
mutual
def removeNode (cfg : BTConfig) (k : Int) : BNode → BNode × Bool
  | .leaf kvs => (.leaf (removeRecord kvs k), false)
  | .internal es =>
    let i := childIdx es k
    let res := removeChildAt cfg k es i
    if res.2 then
      let fix := coalesceOrRedistribute cfg res.1 i
      (.internal fix.1, fix.2)
    else (.internal res.1, false)
def removeChildAt (cfg : BTConfig) (k : Int) : List (Int × BNode) → Nat →
    List (Int × BNode) × Bool
  | [], _ => ([], false)
  | (key, c) :: tl, 0 =>
    let r := removeNode cfg k c
    let trig := match r.1 with
      | .leaf kvs' => decide (kvs'.length < cfg.leafMax / 2)
      | .internal esc => r.2 && decide (esc.length ≤ cfg.intMax / 2)
    ((key, r.1) :: tl, trig)
  | e :: tl, i + 1 =>
    let r := removeChildAt cfg k tl i
    (e :: r.1, r.2)
end

/-- `BPlusTree::Remove` at the root, including `AdjustRoot`: a root leaf
emptied by the removal makes the tree empty; a root internal page that
lost an entry to a merge and has size `≤ 2` (`GetMinSize` of a root
internal page) goes through `AdjustRoot`, which promotes the only child
when the size is exactly 1. -/
def removeTree (cfg : BTConfig) (k : Int) (t : Option BNode) : Option BNode :=
  match t with
  | none => none
  | some (.leaf kvs) =>
    let kvs' := removeRecord kvs k
    if kvs'.length < 1 then none else some (.leaf kvs')
  | some (.internal es) =>
    let r := removeNode cfg k (.internal es)
    match r.1 with
    | .internal es' =>
      if r.2 && decide (es'.length ≤ 2) then
        if es'.length = 1 then some ((es'.getD 0 default).2)
        else some (.internal es')
      else some (.internal es')
    | n' => some n'

/-! ## Binary-search and leaf-page lemmas -/

theorem getD_map_fst {α β : Type} [Inhabited α] [Inhabited β]
    (kvs : List (α × β)) (i : Nat) (h : i < kvs.length) (d : α) (d2 : α × β) :
    (kvs.map Prod.fst).getD i d = (kvs.getD i d2).1 := by
  simp [List.getD_eq_getElem?_getD, List.getElem?_map, List.getElem?_eq_getElem h]

theorem pairwise_getD_lt {ks : List Int} (hs : List.Pairwise (· < ·) ks) {i j : Nat}
    (hij : i < j) (hj : j < ks.length) : ks.getD i 0 < ks.getD j 0 := by
  have := List.pairwise_iff_getElem.1 hs i j (hij.trans hj) hj hij
  simpa [List.getD_eq_getElem?_getD, List.getElem?_eq_getElem, hij.trans hj, hj] using this

theorem pairwise_getD_le {ks : List Int} (hs : List.Pairwise (· < ·) ks) {i j : Nat}
    (hij : i ≤ j) (hj : j < ks.length) : ks.getD i 0 ≤ ks.getD j 0 := by
  rcases Nat.lt_or_ge i j with h | h
  · exact le_of_lt (pairwise_getD_lt hs h hj)
  · have : i = j := by omega
    subst this
    exact le_refl _

theorem bsearchGe_spec (keys : List Int) (key : Int)
    (hmono : ∀ i j, i ≤ j → j < keys.length → keys.getD i 0 ≤ keys.getD j 0) :
    ∀ fuel lo hi, hi - lo ≤ fuel → lo ≤ hi → hi ≤ keys.length →
    (∀ i, i < lo → keys.getD i 0 < key) →
    (∀ i, hi ≤ i → i < keys.length → key ≤ keys.getD i 0) →
    lo ≤ bsearchGe keys key lo hi ∧ bsearchGe keys key lo hi ≤ hi ∧
    (∀ i, i < bsearchGe keys key lo hi → keys.getD i 0 < key) ∧
    (∀ i, bsearchGe keys key lo hi ≤ i → i < keys.length → key ≤ keys.getD i 0) := by
  intro fuel
  induction fuel with
  | zero =>
    intro lo hi h1 h2 h3 hA hB
    have heq : ¬lo < hi := by omega
    rw [bsearchGe, if_neg heq]
    exact ⟨le_refl _, h2, hA, fun i hle hlt => hB i (by omega) hlt⟩
  | succ n ih =>
    intro lo hi h1 h2 h3 hA hB
    rw [bsearchGe]
    by_cases hlh : lo < hi
    · rw [if_pos hlh]
      have hmlo : lo ≤ (hi - 1 - lo) / 2 + lo := by omega
      have hmhi : (hi - 1 - lo) / 2 + lo < hi := by omega
      by_cases hc : key ≤ keys.getD ((hi - 1 - lo) / 2 + lo) 0
      · rw [if_pos hc]
        obtain ⟨c1, c2, c3, c4⟩ := ih lo ((hi - 1 - lo) / 2 + lo) (by omega) (by omega)
          (by omega) hA
          (fun i hge hlt => le_trans hc (hmono _ i hge hlt))
        exact ⟨c1, by omega, c3, c4⟩
      · rw [if_neg hc]
        push_neg at hc
        obtain ⟨c1, c2, c3, c4⟩ := ih ((hi - 1 - lo) / 2 + lo + 1) hi (by omega) (by omega) h3
          (fun i hi' => lt_of_le_of_lt (hmono i _ (by omega) (by omega)) hc) hB
        exact ⟨by omega, c2, c3, c4⟩
    · rw [if_neg hlh]
      exact ⟨le_refl _, h2, hA, fun i hle hlt => hB i (by omega) hlt⟩

theorem bsearchLe_spec (keys : List Int) (key : Int)
    (hmono : ∀ i j, 1 ≤ i → i ≤ j → j < keys.length → keys.getD i 0 ≤ keys.getD j 0) :
    ∀ fuel lo hi, hi - lo ≤ fuel → 1 ≤ lo → lo ≤ hi → hi ≤ keys.length →
    (∀ i, 1 ≤ i → i < lo → keys.getD i 0 ≤ key) →
    (∀ i, hi ≤ i → i < keys.length → key < keys.getD i 0) →
    lo ≤ bsearchLe keys key lo hi ∧ bsearchLe keys key lo hi ≤ hi ∧
    (∀ i, 1 ≤ i → i < bsearchLe keys key lo hi → keys.getD i 0 ≤ key) ∧
    (∀ i, bsearchLe keys key lo hi ≤ i → i < keys.length → key < keys.getD i 0) := by
  intro fuel
  induction fuel with
  | zero =>
    intro lo hi h1 h0 h2 h3 hA hB
    have heq : ¬lo < hi := by omega
    rw [bsearchLe, if_neg heq]
    exact ⟨le_refl _, h2, hA, fun i hle hlt => hB i (by omega) hlt⟩
  | succ n ih =>
    intro lo hi h1 h0 h2 h3 hA hB
    rw [bsearchLe]
    by_cases hlh : lo < hi
    · rw [if_pos hlh]
      have hmlo : lo ≤ (hi - 1 - lo) / 2 + lo := by omega
      have hmhi : (hi - 1 - lo) / 2 + lo < hi := by omega
      by_cases hc : keys.getD ((hi - 1 - lo) / 2 + lo) 0 ≤ key
      · rw [if_pos hc]
        obtain ⟨c1, c2, c3, c4⟩ := ih ((hi - 1 - lo) / 2 + lo + 1) hi (by omega) (by omega)
          (by omega) h3
          (fun i h1i hilt => le_trans (hmono i _ h1i (by omega) (by omega)) hc) hB
        exact ⟨by omega, c2, c3, c4⟩
      · rw [if_neg hc]
        push_neg at hc
        obtain ⟨c1, c2, c3, c4⟩ := ih lo ((hi - 1 - lo) / 2 + lo) (by omega) h0 (by omega)
          (by omega) hA
          (fun i hge hlt => lt_of_lt_of_le hc (hmono _ i (by omega) hge hlt))
        exact ⟨c1, by omega, c3, c4⟩
    · rw [if_neg hlh]
      exact ⟨le_refl _, h2, hA, fun i hle hlt => hB i (by omega) hlt⟩

/-- Specification of `keyIndex` on a sorted leaf: all earlier keys are
`< key`, all keys from the returned index on are `≥ key`. -/
theorem keyIndex_spec (kvs : List (Int × Int)) (key : Int)
    (hs : List.Pairwise (· < ·) (kvs.map Prod.fst)) :
    keyIndex kvs key ≤ kvs.length ∧
    (∀ i, i < keyIndex kvs key → (kvs.getD i (0, 0)).1 < key) ∧
    (∀ i, keyIndex kvs key ≤ i → i < kvs.length → key ≤ (kvs.getD i (0, 0)).1) := by
  have hmono : ∀ i j, i ≤ j → j < (kvs.map Prod.fst).length →
      (kvs.map Prod.fst).getD i 0 ≤ (kvs.map Prod.fst).getD j 0 :=
    fun i j hij hj => pairwise_getD_le hs hij hj
  obtain ⟨c1, c2, c3, c4⟩ := bsearchGe_spec (kvs.map Prod.fst) key hmono
    kvs.length 0 kvs.length (by omega) (by omega) (by simp)
    (fun i h => absurd h (Nat.not_lt_zero i))
    (by
      intro i hge hlt
      rw [List.length_map] at hlt
      omega)
  rw [keyIndex]
  refine ⟨c2, ?_, ?_⟩
  · intro i hi
    have hilen : i < kvs.length := by omega
    have := c3 i hi
    rwa [getD_map_fst kvs i hilen 0 (0, 0)] at this
  · intro i hge hlt
    have := c4 i hge (by simpa using hlt)
    rwa [getD_map_fst kvs i hlt 0 (0, 0)] at this

/-- Specification of `leafLookup` on a sorted leaf. -/
theorem leafLookup_spec (kvs : List (Int × Int)) (key : Int)
    (hs : List.Pairwise (· < ·) (kvs.map Prod.fst)) :
    (∀ v, leafLookup kvs key = some v ↔ (key, v) ∈ kvs) ∧
    (leafLookup kvs key = none ↔ key ∉ kvs.map Prod.fst) := by
  obtain ⟨hle, hlt, hge⟩ := keyIndex_spec kvs key hs
  set r := keyIndex kvs key with hr
  have hmemIdx : ∀ p, p ∈ kvs → ∃ m, m < kvs.length ∧ kvs.getD m (0, 0) = p := by
    intro p hp
    obtain ⟨m, hm, hget⟩ := List.getElem_of_mem hp
    exact ⟨m, hm, by simp [List.getD_eq_getElem?_getD, List.getElem?_eq_getElem hm, hget]⟩
  have hgetDmem : ∀ m, m < kvs.length → kvs.getD m (0, 0) ∈ kvs := by
    intro m hm
    rw [List.getD_eq_getElem?_getD, List.getElem?_eq_getElem hm]
    exact List.getElem_mem hm
  by_cases hidx : r < kvs.length
  · by_cases hkey : (kvs.getD r (0, 0)).1 = key
    · have hlk : leafLookup kvs key = some (kvs.getD r (0, 0)).2 := by
        rw [leafLookup, ← hr]
        simp only [if_pos hidx, if_pos hkey]
      have hmem : (key, (kvs.getD r (0, 0)).2) ∈ kvs := by
        have heq : (key, (kvs.getD r (0, 0)).2) = kvs.getD r (0, 0) := by
          rw [← hkey]
        rw [heq]
        exact hgetDmem r hidx
      have huniq : ∀ m, m < kvs.length → (kvs.getD m (0, 0)).1 = key → m = r := by
        intro m hm hmk
        by_contra hne
        rcases Nat.lt_or_ge m r with hmlt | hmge
        · have h1 := hlt m hmlt
          rw [hmk] at h1
          exact absurd h1 (lt_irrefl key)
        · have hmgt : r < m := by omega
          have h1 := pairwise_getD_lt hs (show r < m from hmgt) (by simpa using hm)
          rw [getD_map_fst kvs _ hidx 0 (0, 0), getD_map_fst kvs _ hm 0 (0, 0),
            hmk, hkey] at h1
          exact absurd h1 (lt_irrefl key)
      constructor
      · intro v
        rw [hlk]
        constructor
        · intro hv
          rw [← Option.some_inj.1 hv]
          exact hmem
        · intro hv
          obtain ⟨m, hm, hgm⟩ := hmemIdx _ hv
          have hmk : (kvs.getD m (0, 0)).1 = key := by rw [hgm]
          have hmr := huniq m hm hmk
          rw [hmr] at hgm
          rw [hgm]
      · constructor
        · intro hcon
          rw [hlk] at hcon
          exact absurd hcon (by simp)
        · intro hcon
          refine absurd ?_ hcon
          have : (kvs.getD r (0, 0)).1 ∈ kvs.map Prod.fst :=
            List.mem_map_of_mem Prod.fst (hgetDmem r hidx)
          rwa [hkey] at this
    · have hlk : leafLookup kvs key = none := by
        rw [leafLookup, ← hr]
        simp only [if_pos hidx, if_neg hkey]
      have hnot : key ∉ kvs.map Prod.fst := by
        intro hcon
        obtain ⟨p, hp, hpk⟩ := List.mem_map.1 hcon
        obtain ⟨m, hm, hgm⟩ := hmemIdx _ hp
        have hmk : (kvs.getD m (0, 0)).1 = key := by rw [hgm, hpk]
        rcases Nat.lt_or_ge m r with hmlt | hmge
        · have h1 := hlt m hmlt
          rw [hmk] at h1
          exact absurd h1 (lt_irrefl key)
        · rcases Nat.eq_or_lt_of_le hmge with heq | hmgt
          · rw [heq] at hkey
            exact hkey hmk
          · have h1 := pairwise_getD_lt hs (show r < m from hmgt) (by simpa using hm)
            rw [getD_map_fst kvs _ hidx 0 (0, 0), getD_map_fst kvs _ hm 0 (0, 0), hmk] at h1
            have h2 := hge r (le_refl _) hidx
            omega
      refine ⟨fun v => ⟨fun hv => absurd (hlk ▸ hv) (by simp), fun hv => ?_⟩, by simp [hlk, hnot]⟩
      exact absurd (List.mem_map_of_mem Prod.fst hv) hnot
  · have hlk : leafLookup kvs key = none := by
      rw [leafLookup, ← hr]
      simp only [if_neg hidx]
    have hnot : key ∉ kvs.map Prod.fst := by
      intro hcon
      obtain ⟨p, hp, hpk⟩ := List.mem_map.1 hcon
      obtain ⟨m, hm, hgm⟩ := hmemIdx _ hp
      have h1 := hlt m (by omega)
      rw [hgm, hpk] at h1
      exact absurd h1 (lt_irrefl key)
    refine ⟨fun v => ⟨fun hv => absurd (hlk ▸ hv) (by simp), fun hv => ?_⟩, by simp [hlk, hnot]⟩
    exact absurd (List.mem_map_of_mem Prod.fst hv) hnot

theorem mem_take_idx {α : Type} [Inhabited α] {l : List α} {r : Nat} {x : α} (d : α)
    (hx : x ∈ l.take r) : ∃ i, i < r ∧ i < l.length ∧ l.getD i d = x := by
  obtain ⟨i, hi, hget⟩ := List.mem_iff_getElem.1 hx
  have hlen : i < r ∧ i < l.length := by
    simp only [List.length_take] at hi
    omega
  refine ⟨i, hlen.1, hlen.2, ?_⟩
  rw [List.getD_eq_getElem?_getD, ← List.getElem?_take_of_lt hlen.1,
    List.getElem?_eq_getElem hi, Option.getD_some, hget]

theorem mem_drop_idx {α : Type} [Inhabited α] {l : List α} {r : Nat} {x : α} (d : α)
    (hx : x ∈ l.drop r) : ∃ i, r ≤ i ∧ i < l.length ∧ l.getD i d = x := by
  obtain ⟨i, hi, hget⟩ := List.mem_iff_getElem.1 hx
  have hlen : r + i < l.length := by
    simp only [List.length_drop] at hi
    omega
  refine ⟨r + i, by omega, hlen, ?_⟩
  rw [List.getD_eq_getElem?_getD, List.getElem?_eq_getElem hlen, Option.getD_some,
    ← List.getElem_drop, hget]

theorem getD_mem_take {α : Type} [Inhabited α] {l : List α} {r i : Nat} (d : α)
    (hir : i < r) (hil : i < l.length) : l.getD i d ∈ l.take r := by
  have hi : i < (l.take r).length := by
    simp only [List.length_take]
    omega
  rw [List.mem_iff_getElem]
  refine ⟨i, hi, ?_⟩
  have h1 : (l.take r)[i]? = l[i]? := List.getElem?_take_of_lt hir
  rw [List.getElem?_eq_getElem hi, List.getElem?_eq_getElem hil] at h1
  rw [Option.some_inj.1 h1, List.getD_eq_getElem?_getD, List.getElem?_eq_getElem hil]
  rfl

theorem getD_mem_drop {α : Type} [Inhabited α] {l : List α} {r i : Nat} (d : α)
    (hir : r ≤ i) (hil : i < l.length) : l.getD i d ∈ l.drop r := by
  have hi : i - r < (l.drop r).length := by
    simp only [List.length_drop]
    omega
  rw [List.mem_iff_getElem]
  have hif : r + (i - r) = i := by omega
  refine ⟨i - r, hi, ?_⟩
  rw [List.getElem_drop, List.getD_eq_getElem?_getD]
  simp only [hif, List.getElem?_eq_getElem hil, Option.getD_some]

/-- Specification of `leafInsert` (`BPlusTreeLeafPage::Insert`) on a
sorted leaf that does not contain the key: the result is sorted, is the
old entry set plus `(k, v)`, and is one entry longer. -/
theorem leafInsert_spec (kvs : List (Int × Int)) (k v : Int)
    (hs : List.Pairwise (· < ·) (kvs.map Prod.fst))
    (hnot : k ∉ kvs.map Prod.fst) :
    List.Pairwise (· < ·) ((leafInsert kvs k v).map Prod.fst) ∧
    (∀ p, p ∈ leafInsert kvs k v ↔ p = (k, v) ∨ p ∈ kvs) ∧
    (leafInsert kvs k v).length = kvs.length + 1 := by
  obtain ⟨hle, hlt, hge⟩ := keyIndex_spec kvs k hs
  set r := keyIndex kvs k with hr
  have hins : leafInsert kvs k v = kvs.take r ++ (k, v) :: kvs.drop r := by
    rw [leafInsert, ← hr]
  have hkgt : ∀ x ∈ (kvs.map Prod.fst).take r, x < k := by
    intro x hx
    obtain ⟨i, hir, hil, hgd⟩ := mem_take_idx 0 hx
    rw [List.length_map] at hil
    rw [getD_map_fst kvs i hil 0 (0, 0)] at hgd
    rw [← hgd]
    exact hlt i hir
  have hklt : ∀ x ∈ (kvs.map Prod.fst).drop r, k < x := by
    intro x hx
    obtain ⟨i, hir, hil, hgd⟩ := mem_drop_idx 0 hx
    rw [List.length_map] at hil
    rw [getD_map_fst kvs i hil 0 (0, 0)] at hgd
    have h1 := hge i hir hil
    rw [hgd] at h1
    rcases lt_or_eq_of_le h1 with h2 | h2
    · exact h2
    · exfalso
      apply hnot
      rw [h2]
      exact (List.drop_sublist r _).mem hx
  refine ⟨?_, ?_, ?_⟩
  · rw [hins]
    rw [List.map_append, List.map_cons, List.map_take, List.map_drop]
    rw [List.pairwise_append]
    refine ⟨hs.sublist (List.map_take Prod.fst kvs r ▸
      (List.take_sublist r kvs).map Prod.fst), ?_, ?_⟩
    · refine List.Pairwise.cons ?_ (hs.sublist (List.drop_sublist r (kvs.map Prod.fst)))
      intro b hb
      exact hklt b hb
    · intro a ha b hb
      rcases List.mem_cons.1 hb with rfl | hb'
      · exact hkgt a ha
      · exact lt_trans (hkgt a ha) (hklt b hb')
  · intro p
    rw [hins]
    rw [List.mem_append, List.mem_cons]
    constructor
    · rintro (hp | rfl | hp)
      · exact Or.inr ((List.take_sublist r kvs).mem hp)
      · exact Or.inl rfl
      · exact Or.inr ((List.drop_sublist r kvs).mem hp)
    · rintro (rfl | hp)
      · exact Or.inr (Or.inl rfl)
      · conv at hp => rw [← List.take_append_drop r kvs]
        rcases List.mem_append.1 hp with hp1 | hp1
        · exact Or.inl hp1
        · exact Or.inr (Or.inr hp1)
  · rw [hins]
    simp only [List.length_append, List.length_cons, List.length_take, List.length_drop]
    omega

/-- Specification of `removeRecord` (`RemoveAndDeleteRecord`) on a sorted
leaf: the result is sorted and is the old entry set minus the key; an
absent key leaves the page untouched, a present key removes one entry. -/
theorem removeRecord_spec (kvs : List (Int × Int)) (k : Int)
    (hs : List.Pairwise (· < ·) (kvs.map Prod.fst)) :
    List.Pairwise (· < ·) ((removeRecord kvs k).map Prod.fst) ∧
    (∀ p, p ∈ removeRecord kvs k ↔ p ∈ kvs ∧ p.1 ≠ k) ∧
    (k ∉ kvs.map Prod.fst → removeRecord kvs k = kvs) ∧
    (k ∈ kvs.map Prod.fst → (removeRecord kvs k).length + 1 = kvs.length) := by
  obtain ⟨hle, hlt, hge⟩ := keyIndex_spec kvs k hs
  set r := keyIndex kvs k with hr
  have hgetDfst : ∀ i, i < kvs.length → (kvs.getD i (0, 0)).1 ∈ kvs.map Prod.fst := by
    intro i hil
    rw [List.getD_eq_getElem?_getD, List.getElem?_eq_getElem hil, Option.getD_some]
    exact List.mem_map_of_mem Prod.fst (List.getElem_mem hil)
  by_cases hidx : r < kvs.length
  · by_cases hkey : (kvs.getD r (0, 0)).1 = k
    · -- key found at index r; result erases that slot
      have hrem : removeRecord kvs k = kvs.eraseIdx r := by
        rw [removeRecord, ← hr]
        rw [if_neg (by omega), if_neg (by simpa using hkey)]
      have hkin : k ∈ kvs.map Prod.fst := by
        rw [← hkey]
        exact hgetDfst r hidx
      have hsub : (kvs.eraseIdx r).Sublist kvs := List.eraseIdx_sublist kvs r
      have huniqne : ∀ i, i < kvs.length → i ≠ r → (kvs.getD i (0, 0)).1 ≠ k := by
        intro i hil hir hcon
        rcases Nat.lt_or_ge i r with h1 | h1
        · have := hlt i h1
          rw [hcon] at this
          exact absurd this (lt_irrefl k)
        · have hgt : r < i := by omega
          have h2 := pairwise_getD_lt hs (show r < i from hgt) (by simpa using hil)
          rw [getD_map_fst kvs _ hidx 0 (0, 0), getD_map_fst kvs _ hil 0 (0, 0),
            hkey, hcon] at h2
          exact absurd h2 (lt_irrefl k)
      refine ⟨?_, ?_, ?_, ?_⟩
      · rw [hrem]
        exact hs.sublist (hsub.map Prod.fst)
      · intro p
        rw [hrem]
        constructor
        · intro hp
          refine ⟨hsub.mem hp, ?_⟩
          rw [List.eraseIdx_eq_take_drop_succ] at hp
          rcases List.mem_append.1 hp with hp1 | hp1
          · obtain ⟨i, hir, hil, hgd⟩ := mem_take_idx (0, 0) hp1
            rw [← hgd]
            exact huniqne i hil (by omega)
          · obtain ⟨i, hir, hil, hgd⟩ := mem_drop_idx (0, 0) hp1
            rw [← hgd]
            exact huniqne i hil (by omega)
        · rintro ⟨hp, hpk⟩
          obtain ⟨m, hm, hgm⟩ := List.mem_iff_getElem.1 hp
          have hgdm : kvs.getD m (0, 0) = p := by
            rw [List.getD_eq_getElem?_getD, List.getElem?_eq_getElem hm, Option.getD_some, hgm]
          have hmne : m ≠ r := by
            intro hc
            rw [hc] at hgdm
            rw [← hgdm] at hpk
            exact hpk hkey
          rw [List.eraseIdx_eq_take_drop_succ, List.mem_append]
          rcases Nat.lt_or_ge m r with h1 | h1
          · exact Or.inl (hgdm ▸ getD_mem_take (0, 0) h1 hm)
          · have : r + 1 ≤ m := by omega
            exact Or.inr (hgdm ▸ getD_mem_drop (0, 0) this hm)
      · intro hnk
        exact absurd hkin hnk
      · intro _
        rw [hrem]
        exact List.length_eraseIdx_add_one hidx
    · -- r in range but key mismatch: untouched, key absent
      have hrem : removeRecord kvs k = kvs := by
        rw [removeRecord, ← hr]
        rw [if_neg (by omega), if_pos (by simpa using hkey)]
      have hnot : k ∉ kvs.map Prod.fst := by
        intro hcon
        obtain ⟨p, hp, hpk⟩ := List.mem_map.1 hcon
        obtain ⟨m, hm, hgm⟩ := List.mem_iff_getElem.1 hp
        have hgdm : (kvs.getD m (0, 0)).1 = k := by
          rw [List.getD_eq_getElem?_getD, List.getElem?_eq_getElem hm, Option.getD_some, hgm,
            hpk]
        rcases Nat.lt_or_ge m r with h1 | h1
        · have := hlt m h1
          rw [hgdm] at this
          exact absurd this (lt_irrefl k)
        · rcases Nat.eq_or_lt_of_le h1 with h2 | h2
          · rw [h2] at hkey
            exact hkey hgdm
          · have h3 := pairwise_getD_lt hs (show r < m from h2) (by simpa using hm)
            rw [getD_map_fst kvs _ hidx 0 (0, 0), getD_map_fst kvs _ hm 0 (0, 0), hgdm] at h3
            have h4 := hge r (le_refl _) hidx
            omega
      refine ⟨by rw [hrem]; exact hs, ?_, fun _ => hrem, fun hk => absurd hk hnot⟩
      intro p
      rw [hrem]
      refine ⟨fun hp => ⟨hp, fun hc => hnot (hc ▸ List.mem_map_of_mem Prod.fst hp)⟩,
        fun hp => hp.1⟩
  · -- index past the end: untouched, key absent
    have hrem : removeRecord kvs k = kvs := by
      rw [removeRecord, ← hr]
      rw [if_pos (by omega)]
    have hnot : k ∉ kvs.map Prod.fst := by
      intro hcon
      obtain ⟨p, hp, hpk⟩ := List.mem_map.1 hcon
      obtain ⟨m, hm, hgm⟩ := List.mem_iff_getElem.1 hp
      have h1 := hlt m (by omega)
      rw [List.getD_eq_getElem?_getD, List.getElem?_eq_getElem hm, Option.getD_some, hgm,
        hpk] at h1
      exact absurd h1 (lt_irrefl k)
    refine ⟨by rw [hrem]; exact hs, ?_, fun _ => hrem, fun hk => absurd hk hnot⟩
    intro p
    rw [hrem]
    refine ⟨fun hp => ⟨hp, fun hc => hnot (hc ▸ List.mem_map_of_mem Prod.fst hp)⟩,
      fun hp => hp.1⟩

/-! ## B+Tree well-formedness

`WF cfg h lb lo hi n` says the subtree `n` has height `h` (all leaves at
the same depth), its top node has at least `lb` entries, every key lies in
the half-open window `[lo, hi)` (`none` = unbounded), every node respects
the size bounds of its page kind (`GetMinSize`/`GetMaxSize` of non-root
pages), and every internal node whose window's lower edge is a proper key
stores that key in its slot 0 (so in particular every non-leftmost
internal child stores its parent separator in its slot-0 key, which the
source reads in `MoveFirstToEndOf` / `MoveLastToFrontOf`). -/

def inB (lo hi : Option Int) (k : Int) : Prop :=
  (∀ a, lo = some a → a ≤ k) ∧ (∀ a, hi = some a → k < a)

/-- Upper key bound of the child at index `i`: the next separator, or the
parent's upper bound for the last child. -/
def sepHi (es : List (Int × BNode)) (hi : Option Int) (i : Nat) : Option Int :=
  match es[i + 1]? with
  | some e => some e.1
  | none => hi

/-- The node, if internal, stores `k` in its slot-0 key. -/
def slot0Matches (k : Int) : BNode → Prop
  | .leaf _ => True
  | .internal esc => (esc[0]?).map Prod.fst = some k

/-- `slot0Matches` lifted to the window's lower edge. -/
def slot0Lo (lo : Option Int) (n : BNode) : Prop :=
  ∀ a, lo = some a → slot0Matches a n

def WF (cfg : BTConfig) : Nat → Nat → Option Int → Option Int → BNode → Prop
  | 0, lb, lo, hi, .leaf kvs =>
      lb ≤ kvs.length ∧ kvs.length ≤ cfg.leafMax ∧
      List.Pairwise (· < ·) (kvs.map Prod.fst) ∧
      ∀ p ∈ kvs, inB lo hi p.1
  | h + 1, lb, lo, hi, .internal es =>
      2 ≤ es.length ∧ lb ≤ es.length ∧ es.length ≤ cfg.intMax ∧
      (∀ a, lo = some a → (es[0]?).map Prod.fst = some a) ∧
      (∀ i k c, es[i]? = some (k, c) →
        WF cfg h (childLB cfg c) (if i = 0 then lo else some k) (sepHi es hi i) c)
  | _, _, _, _, _ => False

/-- The top lower bound in `WF` can be replaced by anything the actual
size satisfies. -/
theorem WF_set_lb {cfg : BTConfig} {h lb lb' : Nat} {lo hi : Option Int} {n : BNode}
    (hw : WF cfg h lb lo hi n) (hlb : lb' ≤ n.size) : WF cfg h lb' lo hi n := by
  cases h with
  | zero =>
    cases n with
    | leaf kvs =>
      obtain ⟨h1, h2, h3, h4⟩ := hw
      exact ⟨by simpa [BNode.size] using hlb, h2, h3, h4⟩
    | internal es => exact absurd hw (by simp [WF])
  | succ h =>
    cases n with
    | leaf kvs => exact absurd hw (by simp [WF])
    | internal es =>
      obtain ⟨h1, h2, h3, h4, h5⟩ := hw
      exact ⟨h1, by simpa [BNode.size] using hlb, h3, h4, h5⟩

theorem WF_lb_le_size {cfg : BTConfig} {h lb : Nat} {lo hi : Option Int} {n : BNode}
    (hw : WF cfg h lb lo hi n) : lb ≤ n.size := by
  cases h with
  | zero =>
    cases n with
    | leaf kvs => exact hw.1
    | internal es => exact absurd hw (by simp [WF])
  | succ h =>
    cases n with
    | leaf kvs => exact absurd hw (by simp [WF])
    | internal es => exact hw.2.1

/-- Membership in the flattening of an entry list. -/
theorem mem_toLL {es : List (Int × BNode)} {p : Int × Int} :
    p ∈ toLL es ↔ ∃ (i : Nat) (k : Int) (c : BNode), es[i]? = some (k, c) ∧ p ∈ toL c := by
  induction es with
  | nil => simp [toLL]
  | cons e tl ih =>
    obtain ⟨k0, c0⟩ := e
    rw [toLL]
    rw [List.mem_append, ih]
    constructor
    · rintro (hp | ⟨i, k, c, hc, hp⟩)
      · exact ⟨0, k0, c0, by simp, hp⟩
      · exact ⟨i + 1, k, c, by simpa using hc, hp⟩
    · rintro ⟨i, k, c, hc, hp⟩
      cases i with
      | zero =>
        simp only [List.getElem?_cons_zero, Option.some.injEq] at hc
        rw [show c0 = c from congrArg Prod.snd hc] at *
        exact Or.inl hp
      | succ i =>
        exact Or.inr ⟨i, k, c, by simpa using hc, hp⟩

theorem one_le_childLB {cfg : BTConfig} (hok : cfg.ok) (c : BNode) : 1 ≤ childLB cfg c := by
  obtain ⟨h1, h2⟩ := hok
  cases c with
  | leaf kvs => rw [childLB]; omega
  | internal es => rw [childLB]; omega

theorem toLL_props (cfg : BTConfig) (hok : cfg.ok) (h : Nat) (hi : Option Int)
    (IH : ∀ (lb : Nat) (lo hi' : Option Int) (n : BNode), WF cfg h lb lo hi' n →
      List.Pairwise (· < ·) ((toL n).map Prod.fst) ∧ (∀ p ∈ toL n, inB lo hi' p.1) ∧
      (1 ≤ lb → toL n ≠ [])) :
    ∀ (es : List (Int × BNode)) (lo : Option Int),
    (∀ (i : Nat) (k : Int) (c : BNode), es[i]? = some (k, c) →
      WF cfg h (childLB cfg c) (if i = 0 then lo else some k) (sepHi es hi i) c) →
    List.Pairwise (· < ·) ((toLL es).map Prod.fst) ∧
    (∀ p ∈ toLL es, inB lo hi p.1) ∧
    (es ≠ [] → toLL es ≠ []) := by
  intro es
  induction es with
  | nil =>
    intro lo _
    refine ⟨by simp [toLL], by simp [toLL], by simp⟩
  | cons e tl ih =>
    intro lo hch
    obtain ⟨k0, c0⟩ := e
    have hc0 := hch 0 k0 c0 (by simp)
    simp only [show ((if (0 : Nat) = 0 then lo else some k0) : Option Int) = lo from by simp]
      at hc0
    have hne0 : toL c0 ≠ [] :=
      (IH _ _ _ _ hc0).2.2 (one_le_childLB hok c0)
    cases tl with
    | nil =>
      have hsep : sepHi [(k0, c0)] hi 0 = hi := by rw [sepHi]; rfl
      rw [hsep] at hc0
      obtain ⟨hsort, hbnd, _⟩ := IH _ _ _ _ hc0
      rw [show toLL [(k0, c0)] = toL c0 ++ [] from by rw [toLL, toLL]]
      refine ⟨by simpa using hsort, ?_, ?_⟩
      · intro p hp
        simp only [List.append_nil] at hp
        exact hbnd p hp
      · intro _
        simpa using hne0
    | cons e1 tl' =>
      obtain ⟨k1, c1⟩ := e1
      have hsep : sepHi ((k0, c0) :: (k1, c1) :: tl') hi 0 = some k1 := by
        rw [sepHi]
        simp
      rw [hsep] at hc0
      obtain ⟨hsort0, hbnd0, _⟩ := IH _ _ _ _ hc0
      -- the tail, with the head separator as the lower window edge
      have htl : ∀ (i : Nat) (k : Int) (c : BNode), ((k1, c1) :: tl')[i]? = some (k, c) →
          WF cfg h (childLB cfg c) (if i = 0 then some k1 else some k)
            (sepHi ((k1, c1) :: tl') hi i) c := by
        intro i k c hc
        have := hch (i + 1) k c (by simpa using hc)
        have hif : (if i + 1 = 0 then lo else some k) = some k := by simp
        rw [hif] at this
        have hsep' : sepHi ((k0, c0) :: (k1, c1) :: tl') hi (i + 1) =
            sepHi ((k1, c1) :: tl') hi i := by
          rw [sepHi, sepHi]
          simp only [List.getElem?_cons_succ]
        rw [hsep'] at this
        by_cases hi0 : i = 0
        · subst hi0
          simp only [List.getElem?_cons_zero, Option.some.injEq] at hc
          rw [if_pos rfl]
          rw [show k = k1 from (congrArg Prod.fst hc).symm] at this
          exact this
        · rw [if_neg hi0]
          exact this
      obtain ⟨hsortT, hbndT, hneT⟩ := ih (some k1) htl
      have hrw : toLL ((k0, c0) :: (k1, c1) :: tl') = toL c0 ++ toLL ((k1, c1) :: tl') := by
        rw [toLL]
      have hneT' : toLL ((k1, c1) :: tl') ≠ [] := hneT (by simp)
      obtain ⟨q, hq⟩ := List.exists_mem_of_ne_nil _ hneT'
      have hqB := hbndT q hq
      obtain ⟨p0, hp0⟩ := List.exists_mem_of_ne_nil _ hne0
      have hp0B := hbnd0 p0 hp0
      rw [hrw]
      refine ⟨?_, ?_, ?_⟩
      · rw [List.map_append, List.pairwise_append]
        refine ⟨hsort0, hsortT, ?_⟩
        intro a ha b hb
        obtain ⟨pa, hpa, hpa2⟩ := List.mem_map.1 ha
        obtain ⟨pb, hpb, hpb2⟩ := List.mem_map.1 hb
        have h1 : pa.1 < k1 := (hbnd0 pa hpa).2 k1 rfl
        have h2 : k1 ≤ pb.1 := (hbndT pb hpb).1 k1 rfl
        rw [← hpa2, ← hpb2]
        omega
      · intro p hp
        rcases List.mem_append.1 hp with hp1 | hp1
        · have hB := hbnd0 p hp1
          refine ⟨hB.1, ?_⟩
          intro a ha
          have h1 : p.1 < k1 := hB.2 k1 rfl
          have h2 : k1 ≤ q.1 := hqB.1 k1 rfl
          have h3 : q.1 < a := hqB.2 a ha
          omega
        · have hB := hbndT p hp1
          refine ⟨?_, hB.2⟩
          intro a ha
          have h1 : a ≤ p0.1 := (hp0B.1) a ha
          have h2 : p0.1 < k1 := hp0B.2 k1 rfl
          have h3 : k1 ≤ p.1 := hB.1 k1 rfl
          omega
      · intro _
        intro hcon
        rw [List.append_eq_nil] at hcon
        exact hne0 hcon.1

/-- `WF` subtrees flatten to sorted, window-bounded, non-empty entry
lists. -/
theorem WF_toL (cfg : BTConfig) (hok : cfg.ok) :
    ∀ (h : Nat) (lb : Nat) (lo hi : Option Int) (n : BNode), WF cfg h lb lo hi n →
    List.Pairwise (· < ·) ((toL n).map Prod.fst) ∧
    (∀ p ∈ toL n, inB lo hi p.1) ∧
    (1 ≤ lb → toL n ≠ []) := by
  intro h
  induction h with
  | zero =>
    intro lb lo hi n hw
    cases n with
    | leaf kvs =>
      obtain ⟨h1, h2, h3, h4⟩ := hw
      refine ⟨h3, h4, ?_⟩
      intro hlb hcon
      rw [toL] at hcon
      subst hcon
      simp at h1
      omega
    | internal es => exact absurd hw (by simp [WF])
  | succ h ih =>
    intro lb lo hi n hw
    cases n with
    | leaf kvs => exact absurd hw (by simp [WF])
    | internal es =>
      obtain ⟨h1, h2, h3, h4, h5⟩ := hw
      obtain ⟨c1, c2, c3⟩ := toLL_props cfg hok h hi (fun lb' lo' hi' n' hw' => ih lb' lo' hi' n' hw') es lo h5
      rw [show toL (.internal es) = toLL es from rfl]
      refine ⟨c1, c2, ?_⟩
      intro _
      exact c3 (by intro hc; rw [hc] at h1; simp at h1)

/-- Subtrees of positive height flatten to non-empty lists. -/
theorem WF_toL_ne (cfg : BTConfig) (hok : cfg.ok) {h lb : Nat} {lo hi : Option Int}
    {es : List (Int × BNode)} (hw : WF cfg h lb lo hi (.internal es)) :
    toL (.internal es) ≠ [] := by
  cases h with
  | zero => exact absurd hw (by simp [WF])
  | succ h =>
    obtain ⟨h1, h2, h3, h4, h5⟩ := hw
    have := toLL_props cfg hok h hi (fun lb' lo' hi' n' hw' =>
      WF_toL cfg hok h lb' lo' hi' n' hw') es lo h5
    exact this.2.2 (by intro hc; rw [hc] at h1; simp at h1)

theorem getElem?_getD {α : Type} [Inhabited α] (l : List α) (i : Nat) (h : i < l.length) :
    l[i]? = some (l.getD i default) := by
  rw [List.getD_eq_getElem?_getD, List.getElem?_eq_getElem h]
  rfl

/-- Key of the entry at index `i`. -/
theorem getD_entry_key (es : List (Int × BNode)) (i : Nat) (h : i < es.length) :
    (es.map Prod.fst).getD i 0 = (es.getD i default).1 :=
  getD_map_fst es i h 0 default

/-- The separator keys of a well-formed internal node are strictly
increasing on indices `[1, size)`. -/
theorem sep_lt (cfg : BTConfig) (hok : cfg.ok) {h lb : Nat} {lo hi : Option Int}
    {es : List (Int × BNode)} (hw : WF cfg (h + 1) lb lo hi (.internal es)) :
    ∀ j i, 1 ≤ i → i < j → j < es.length →
      (es.map Prod.fst).getD i 0 < (es.map Prod.fst).getD j 0 := by
  obtain ⟨h1, h2, h3, h4, h5⟩ := hw
  have hadj : ∀ i, 1 ≤ i → i + 1 < es.length →
      (es.map Prod.fst).getD i 0 < (es.map Prod.fst).getD (i + 1) 0 := by
    intro i h1i hi1
    have hilen : i < es.length := by omega
    have hci := h5 i (es.getD i default).1 (es.getD i default).2
      (by rw [getElem?_getD es i hilen])
    rw [if_neg (by omega)] at hci
    have hsep : sepHi es hi i = some ((es.getD (i + 1) default).1) := by
      rw [sepHi, getElem?_getD es (i + 1) hi1]
    rw [hsep] at hci
    obtain ⟨-, hbnd, hne⟩ := WF_toL cfg hok h _ _ _ _ hci
    obtain ⟨p, hp⟩ := List.exists_mem_of_ne_nil _ (hne (one_le_childLB hok _))
    have hB := hbnd p hp
    have ha := hB.1 _ rfl
    have hb := hB.2 _ rfl
    rw [getD_entry_key es i hilen, getD_entry_key es (i + 1) hi1]
    omega
  intro j
  induction j with
  | zero => intro i h1i hij hj; omega
  | succ j ih =>
    intro i h1i hij hj
    rcases Nat.lt_or_ge i j with hlt | hge
    · have h1 := ih i h1i hlt (by omega)
      have h2 := hadj j (by omega) (by omega)
      omega
    · have : i = j := by omega
      subst this
      exact hadj i h1i (by omega)

/-- Specification of `childIdx` (`BPlusTreeInternalPage::Lookup`): the
chosen child index is in range, separators up to it are `≤ key`, and all
later separators are `> key`. -/
theorem childIdx_spec (cfg : BTConfig) (hok : cfg.ok) {h lb : Nat} {lo hi : Option Int}
    {es : List (Int × BNode)} (hw : WF cfg (h + 1) lb lo hi (.internal es)) (key : Int) :
    childIdx es key < es.length ∧
    (∀ m, 1 ≤ m → m ≤ childIdx es key → (es.map Prod.fst).getD m 0 ≤ key) ∧
    (∀ m, childIdx es key < m → m < es.length → key < (es.map Prod.fst).getD m 0) := by
  have hlen : 2 ≤ es.length := hw.1
  have hmono : ∀ i j, 1 ≤ i → i ≤ j → j < (es.map Prod.fst).length →
      (es.map Prod.fst).getD i 0 ≤ (es.map Prod.fst).getD j 0 := by
    intro i j h1i hij hj
    rw [List.length_map] at hj
    rcases Nat.eq_or_lt_of_le hij with h' | h'
    · rw [h']
    · exact le_of_lt (sep_lt cfg hok hw j i h1i h' hj)
  obtain ⟨c1, c2, c3, c4⟩ := bsearchLe_spec (es.map Prod.fst) key hmono
    es.length 1 es.length (by omega) (le_refl 1) (by omega) (by simp)
    (fun i h1i hlt => by omega)
    (fun i hge hlt => by rw [List.length_map] at hlt; omega)
  rw [childIdx]
  refine ⟨by omega, ?_, ?_⟩
  · intro m h1m hm
    exact c3 m h1m (by omega)
  · intro m hgt hm
    exact c4 m (by omega) (by simpa using hm)

/-- The descent key lies inside the window of the chosen child. -/
theorem childIdx_inB (cfg : BTConfig) (hok : cfg.ok) {h lb : Nat} {lo hi : Option Int}
    {es : List (Int × BNode)} (hw : WF cfg (h + 1) lb lo hi (.internal es)) (key : Int)
    (hin : inB lo hi key) :
    inB (if childIdx es key = 0 then lo else some ((es.getD (childIdx es key) default).1))
      (sepHi es hi (childIdx es key)) key := by
  obtain ⟨hci, hA, hB⟩ := childIdx_spec cfg hok hw key
  constructor
  · intro a ha
    by_cases h0 : childIdx es key = 0
    · rw [if_pos h0] at ha
      exact hin.1 a ha
    · rw [if_neg h0] at ha
      have := hA (childIdx es key) (by omega) (le_refl _)
      rw [getD_entry_key es _ hci] at this
      rw [Option.some.inj ha] at this
      exact this
  · intro a ha
    rw [sepHi] at ha
    rcases hnext : es[childIdx es key + 1]? with - | e
    · rw [hnext] at ha
      exact hin.2 a ha
    · rw [hnext] at ha
      have ha' : some e.1 = some a := ha
      have hlt : childIdx es key + 1 < es.length := by
        by_contra hc
        rw [List.getElem?_eq_none (by omega)] at hnext
        exact absurd hnext (by simp)
      rw [getElem?_getD es _ hlt] at hnext
      have he : (es.getD (childIdx es key + 1) default).1 = e.1 := by
        rw [Option.some.inj hnext]
      have := hB (childIdx es key + 1) (by omega) hlt
      rw [getD_entry_key es _ hlt, he, Option.some.inj ha'] at this
      exact this

/-- Keys equal to the descent key cannot live in any child other than the
chosen one. -/
theorem key_only_in_chosen (cfg : BTConfig) (hok : cfg.ok) {h lb : Nat} {lo hi : Option Int}
    {es : List (Int × BNode)} (hw : WF cfg (h + 1) lb lo hi (.internal es)) (key : Int) :
    ∀ (j : Nat) (k : Int) (c : BNode), es[j]? = some (k, c) → j ≠ childIdx es key →
      ∀ p ∈ toL c, p.1 ≠ key := by
  obtain ⟨hci, hA, hB⟩ := childIdx_spec cfg hok hw key
  obtain ⟨h1, h2, h3, h4, h5⟩ := hw
  intro j k c hc hne p hp
  have hj : j < es.length := by
    by_contra hcon
    rw [List.getElem?_eq_none (by omega)] at hc
    exact absurd hc (by simp)
  have hwc := h5 j k c hc
  obtain ⟨-, hbnd, -⟩ := WF_toL cfg hok h _ _ _ _ hwc
  have hpB := hbnd p hp
  rcases Nat.lt_or_ge j (childIdx es key) with hlt | hge
  · -- child strictly left of the chosen one: its keys are < the next
    -- separator, which is ≤ key
    have hnext : sepHi es hi j = some ((es.getD (j + 1) default).1) := by
      rw [sepHi, getElem?_getD es (j + 1) (by omega)]
    rw [hnext] at hpB
    have h1p := hpB.2 _ rfl
    have h2p := hA (j + 1) (by omega) (by omega)
    rw [getD_entry_key es (j + 1) (by omega)] at h2p
    omega
  · have hgt : childIdx es key < j := by omega
    have h1j : 1 ≤ j := by omega
    have hlo : (if j = 0 then lo else some k) = some k := by rw [if_neg (by omega)]
    rw [hlo] at hpB
    have h1p := hpB.1 _ rfl
    have h2p := hB j hgt hj
    rw [getD_entry_key es j hj] at h2p
    have hk : (es.getD j default).1 = k := by
      rw [getElem?_getD es j hj] at hc
      rw [Option.some.inj hc]
    rw [hk] at h2p
    omega

theorem findLeafIn_eq (key : Int) :
    ∀ (es : List (Int × BNode)) (i : Nat), i < es.length →
      findLeafIn key es i = findLeaf key ((es.getD i default).2) := by
  intro es
  induction es with
  | nil => intro i hi; simp at hi
  | cons e tl ih =>
    intro i hi
    obtain ⟨k0, c0⟩ := e
    cases i with
    | zero => rw [findLeafIn]; rfl
    | succ i =>
      rw [findLeafIn, ih i (by simpa using hi)]
      rfl

/-- `FindLeafPage` correctness: the leaf reached by the descent is sorted
and holds exactly the tree's entries at the descent key. -/
theorem findLeaf_spec (cfg : BTConfig) (hok : cfg.ok) :
    ∀ (h : Nat) (lb : Nat) (lo hi : Option Int) (n : BNode) (key : Int),
    WF cfg h lb lo hi n →
    List.Pairwise (· < ·) ((findLeaf key n).map Prod.fst) ∧
    (∀ v, (key, v) ∈ toL n ↔ (key, v) ∈ findLeaf key n) ∧
    (∀ p ∈ findLeaf key n, p ∈ toL n) := by
  intro h
  induction h with
  | zero =>
    intro lb lo hi n key hw
    cases n with
    | leaf kvs =>
      obtain ⟨h1, h2, h3, h4⟩ := hw
      exact ⟨h3, fun v => Iff.rfl, fun p hp => hp⟩
    | internal es => exact absurd hw (by simp [WF])
  | succ h ih =>
    intro lb lo hi n key hw
    cases n with
    | leaf kvs => exact absurd hw (by simp [WF])
    | internal es =>
      have hci : childIdx es key < es.length := (childIdx_spec cfg hok hw key).1
      have hws := hw
      obtain ⟨h1, h2, h3, h4, h5⟩ := hw
      have hwc := h5 (childIdx es key) (es.getD (childIdx es key) default).1
        (es.getD (childIdx es key) default).2 (by rw [getElem?_getD es _ hci])
      obtain ⟨c1, c2, c3⟩ := ih _ _ _ _ key hwc
      have hfl : findLeaf key (.internal es) = findLeaf key ((es.getD (childIdx es key) default).2) := by
        rw [findLeaf, findLeafIn_eq key es _ hci]
      refine ⟨by rw [hfl]; exact c1, ?_, ?_⟩
      · intro v
        rw [hfl, ← c2 v]
        rw [show toL (.internal es) = toLL es from rfl, mem_toLL]
        constructor
        · rintro ⟨j, k, c, hc, hp⟩
          by_cases hj : j = childIdx es key
          · rw [hj] at hc
            rw [getElem?_getD es _ hci] at hc
            rw [show c = (es.getD (childIdx es key) default).2 from (congrArg Prod.snd
              (Option.some.inj hc)).symm] at hp
            exact hp
          · exact absurd rfl (key_only_in_chosen cfg hok hws key j k c hc hj (key, v) hp)
        · intro hp
          exact ⟨childIdx es key, (es.getD (childIdx es key) default).1,
            (es.getD (childIdx es key) default).2, by rw [getElem?_getD es _ hci], hp⟩
      · intro p hp
        rw [hfl] at hp
        rw [show toL (.internal es) = toLL es from rfl, mem_toLL]
        exact ⟨childIdx es key, (es.getD (childIdx es key) default).1,
          (es.getD (childIdx es key) default).2, by rw [getElem?_getD es _ hci], c3 p hp⟩

/-! ## Positional helpers for entry-list surgery -/

theorem toLL_append (a b : List (Int × BNode)) : toLL (a ++ b) = toLL a ++ toLL b := by
  induction a with
  | nil => rw [toLL]; rfl
  | cons e tl ih =>
    obtain ⟨k, c⟩ := e
    rw [List.cons_append, toLL, toLL, ih, List.append_assoc]

theorem es_decomp {α : Type} [Inhabited α] (es : List α) (i : Nat) (h : i < es.length) :
    es = es.take i ++ es.getD i default :: es.drop (i + 1) := by
  conv_lhs => rw [← List.take_append_drop i es]
  rw [List.drop_eq_getElem_cons h]
  rw [List.getD_eq_getElem?_getD, List.getElem?_eq_getElem h]
  rfl

theorem getElem?_replace1 {α : Type} (es : List α) (x : α) (i j : Nat) (hi : i < es.length) :
    (es.take i ++ x :: es.drop (i + 1))[j]? = if j = i then some x else es[j]? := by
  have hlt : (es.take i).length = i := by
    rw [List.length_take]
    omega
  rcases Nat.lt_trichotomy j i with h | h | h
  · rw [if_neg (by omega), List.getElem?_append_left (by omega)]
    exact List.getElem?_take_of_lt h
  · subst h
    rw [if_pos rfl, List.getElem?_append_right (by omega)]
    rw [hlt]
    simp
  · rw [if_neg (by omega), List.getElem?_append_right (by omega), hlt]
    have h1 : j - i = (j - i - 1) + 1 := by omega
    rw [h1]
    rw [List.getElem?_cons_succ, List.getElem?_drop]
    congr 1
    omega

theorem getElem?_replace2 {α : Type} (es : List α) (x y : α) (i j : Nat) (hi : i < es.length) :
    (es.take i ++ x :: y :: es.drop (i + 1))[j]? =
      if j = i then some x
      else if j = i + 1 then some y
      else if j < i then es[j]? else es[j - 1]? := by
  have hlt : (es.take i).length = i := by
    rw [List.length_take]
    omega
  rcases Nat.lt_trichotomy j i with h | h | h
  · rw [if_neg (by omega), if_neg (by omega), if_pos h, List.getElem?_append_left (by omega)]
    exact List.getElem?_take_of_lt h
  · subst h
    rw [if_pos rfl, List.getElem?_append_right (by omega), hlt]
    simp
  · rw [if_neg (by omega)]
    rw [List.getElem?_append_right (by omega), hlt]
    by_cases h1 : j = i + 1
    · subst h1
      rw [if_pos rfl]
      have h4 : i + 1 - i = 1 := by omega
      rw [h4]
      simp
    · rw [if_neg h1, if_neg (by omega)]
      have h2 : j - i = (j - i - 2) + 2 := by omega
      rw [h2, List.getElem?_cons_succ, List.getElem?_cons_succ, List.getElem?_drop]
      congr 1
      omega

/-- Positional characterization of `insertChildAt`. -/
theorem insertChildAt_eq (cfg : BTConfig) (k v : Int) :
    ∀ (es : List (Int × BNode)) (i : Nat), i < es.length →
    insertChildAt cfg k v es i =
      (match insertNode cfg k v ((es.getD i default).2) with
       | .dup => .dup
       | .one c' => .upd (es.take i ++ ((es.getD i default).1, c') :: es.drop (i + 1))
       | .split l sep r =>
         .upd (es.take i ++ ((es.getD i default).1, l) :: (sep, r) :: es.drop (i + 1))) := by
  intro es
  induction es with
  | nil => intro i hi; simp at hi
  | cons e tl ih =>
    intro i hi
    obtain ⟨key, c⟩ := e
    cases i with
    | zero =>
      rw [insertChildAt]
      simp only [List.getD_cons_zero, List.take_zero, List.nil_append, List.drop_succ_cons,
        List.drop_zero]
    | succ i =>
      rw [insertChildAt, ih i (by simpa using hi)]
      simp only [List.getD_cons_succ, List.take_succ_cons, List.cons_append,
        List.drop_succ_cons]
      cases insertNode cfg k v ((tl.getD i default).2) <;> rfl

/-- Positional characterization of `removeChildAt`. -/
theorem removeChildAt_eq (cfg : BTConfig) (k : Int) :
    ∀ (es : List (Int × BNode)) (i : Nat), i < es.length →
    removeChildAt cfg k es i =
      (es.take i ++ ((es.getD i default).1, (removeNode cfg k ((es.getD i default).2)).1) ::
        es.drop (i + 1),
       match (removeNode cfg k ((es.getD i default).2)).1 with
       | .leaf kvs' => decide (kvs'.length < cfg.leafMax / 2)
       | .internal esc =>
         (removeNode cfg k ((es.getD i default).2)).2 && decide (esc.length ≤ cfg.intMax / 2)) := by
  intro es
  induction es with
  | nil => intro i hi; simp at hi
  | cons e tl ih =>
    intro i hi
    obtain ⟨key, c⟩ := e
    cases i with
    | zero =>
      rw [removeChildAt]
      simp only [List.getD_cons_zero, List.take_zero, List.nil_append, List.drop_succ_cons,
        List.drop_zero]
    | succ i =>
      rw [removeChildAt, ih i (by simpa using hi)]
      simp only [List.getD_cons_succ, List.take_succ_cons, List.cons_append,
        List.drop_succ_cons]

/-- `sepHi` only depends on the key of the following entry. -/
theorem sepHi_congr {es es' : List (Int × BNode)} {hi : Option Int} {i j : Nat}
    (h : (es'[j + 1]?).map Prod.fst = (es[i + 1]?).map Prod.fst) :
    sepHi es' hi j = sepHi es hi i := by
  rw [sepHi, sepHi]
  rcases he : es[i + 1]? with - | e <;> rw [he] at h <;>
    rcases he' : es'[j + 1]? with - | e' <;> rw [he'] at h
  · exact absurd h (by simp)
  · exact absurd h (by simp)
  · simp only [Option.map_some', Option.some.injEq] at h
    simp only [h]

/-- `sepHi` at an index whose successor entry exists. -/
theorem sepHi_some {es : List (Int × BNode)} {hi : Option Int} {i : Nat} {e : Int × BNode}
    (h : es[i + 1]? = some e) : sepHi es hi i = some e.1 := by
  rw [sepHi, h]

theorem length_replace1 {α : Type} (es : List α) (x : α) (i : Nat) (h : i < es.length) :
    (es.take i ++ x :: es.drop (i + 1)).length = es.length := by
  rw [List.length_append, List.length_take, List.length_cons, List.length_drop]
  omega

theorem length_replace2 {α : Type} (es : List α) (x y : α) (i : Nat) (h : i < es.length) :
    (es.take i ++ x :: y :: es.drop (i + 1)).length = es.length + 1 := by
  rw [List.length_append, List.length_take, List.length_cons, List.length_cons,
    List.length_drop]
  omega

theorem length_merge2 {α : Type} (es : List α) (x : α) (m : Nat) (h : m + 1 < es.length) :
    (es.take m ++ x :: es.drop (m + 2)).length + 1 = es.length := by
  rw [List.length_append, List.length_take, List.length_cons, List.length_drop]
  omega

/-- Two consecutive entries replaced by one: `set` then `eraseIdx`. -/
theorem set_eraseIdx_eq {α : Type} :
    ∀ (es : List α) (m : Nat) (x : α), m + 1 < es.length →
    (es.set m x).eraseIdx (m + 1) = es.take m ++ x :: es.drop (m + 2) := by
  intro es
  induction es with
  | nil => intro m x h; simp at h
  | cons e tl ih =>
    intro m x h
    cases m with
    | zero =>
      simp only [List.set_cons_zero, List.take_zero, List.nil_append, List.drop_succ_cons]
      rw [List.eraseIdx_cons_succ, List.eraseIdx_zero]
      cases tl with
      | nil => simp at h
      | cons t0 tl' => rfl
    | succ m =>
      simp only [List.set_cons_succ, List.eraseIdx_cons_succ, List.take_succ_cons,
        List.cons_append, List.drop_succ_cons]
      rw [ih m x (by simpa using h)]

/-- Two consecutive entries each replaced: `set` twice. -/
theorem set_set_eq {α : Type} :
    ∀ (es : List α) (m : Nat) (x y : α), m + 1 < es.length →
    (es.set m x).set (m + 1) y = es.take m ++ x :: y :: es.drop (m + 2) := by
  intro es
  induction es with
  | nil => intro m x y h; simp at h
  | cons e tl ih =>
    intro m x y h
    cases m with
    | zero =>
      simp only [List.set_cons_zero, List.set_cons_succ, List.take_zero, List.nil_append,
        List.drop_succ_cons]
      cases tl with
      | nil => simp at h
      | cons t0 tl' => rfl
    | succ m =>
      simp only [List.set_cons_succ, List.take_succ_cons, List.cons_append,
        List.drop_succ_cons]
      rw [ih m x y (by simpa using h)]

/-- Element lookup in a two-for-two consecutive replacement. -/
theorem getElem?_replacePair {α : Type} (es : List α) (x y : α) (m j : Nat)
    (h : m + 1 < es.length) :
    (es.take m ++ x :: y :: es.drop (m + 2))[j]? =
      if j = m then some x else if j = m + 1 then some y else es[j]? := by
  have hlt : (es.take m).length = m := by
    rw [List.length_take]
    omega
  rcases Nat.lt_trichotomy j m with hj | hj | hj
  · rw [if_neg (by omega), if_neg (by omega), List.getElem?_append_left (by omega)]
    exact List.getElem?_take_of_lt hj
  · subst hj
    rw [if_pos rfl, List.getElem?_append_right (by omega), hlt]
    simp
  · rw [if_neg (by omega), List.getElem?_append_right (by omega), hlt]
    by_cases h1 : j = m + 1
    · subst h1
      rw [if_pos rfl]
      have h4 : m + 1 - m = 1 := by omega
      rw [h4]
      simp
    · rw [if_neg h1]
      have h2 : j - m = (j - m - 2) + 2 := by omega
      rw [h2, List.getElem?_cons_succ, List.getElem?_cons_succ, List.getElem?_drop]
      congr 1
      omega

/-- Element lookup after merging two consecutive entries into one. -/
theorem getElem?_mergePair {α : Type} (es : List α) (x : α) (m j : Nat)
    (h : m + 1 < es.length) :
    (es.take m ++ x :: es.drop (m + 2))[j]? =
      if j < m then es[j]? else if j = m then some x else es[j + 1]? := by
  have hlt : (es.take m).length = m := by
    rw [List.length_take]
    omega
  rcases Nat.lt_trichotomy j m with hj | hj | hj
  · rw [if_pos hj, List.getElem?_append_left (by omega)]
    exact List.getElem?_take_of_lt hj
  · subst hj
    rw [if_neg (by omega), if_pos rfl, List.getElem?_append_right (by omega), hlt]
    simp
  · rw [if_neg (by omega), if_neg (by omega), List.getElem?_append_right (by omega), hlt]
    have h2 : j - m = (j - m - 1) + 1 := by omega
    rw [h2, List.getElem?_cons_succ, List.getElem?_drop]
    congr 1
    omega

/-- `WF` minus the lower size bounds: what a node satisfies right after a
removal, before its parent has decided whether to coalesce. -/
def AWF (cfg : BTConfig) : Nat → Option Int → Option Int → BNode → Prop
  | 0, lo, hi, .leaf kvs =>
      kvs.length ≤ cfg.leafMax ∧
      List.Pairwise (· < ·) (kvs.map Prod.fst) ∧
      ∀ p ∈ kvs, inB lo hi p.1
  | h + 1, lo, hi, .internal es =>
      1 ≤ es.length ∧ es.length ≤ cfg.intMax ∧
      (∀ a, lo = some a → (es[0]?).map Prod.fst = some a) ∧
      (∀ i k c, es[i]? = some (k, c) →
        WF cfg h (childLB cfg c) (if i = 0 then lo else some k) (sepHi es hi i) c)
  | _, _, _, _ => False

theorem AWF_of_WF {cfg : BTConfig} {h lb : Nat} {lo hi : Option Int} {n : BNode}
    (hw : WF cfg h lb lo hi n) : AWF cfg h lo hi n := by
  cases h with
  | zero =>
    cases n with
    | leaf kvs => exact ⟨hw.2.1, hw.2.2.1, hw.2.2.2⟩
    | internal es => exact absurd hw (by simp [WF])
  | succ h =>
    cases n with
    | leaf kvs => exact absurd hw (by simp [WF])
    | internal es => exact ⟨by have := hw.1; omega, hw.2.2.1, hw.2.2.2.1, hw.2.2.2.2⟩

theorem WF_of_AWF {cfg : BTConfig} {h lb : Nat} {lo hi : Option Int} {n : BNode}
    (ha : AWF cfg h lo hi n) (h2 : n.isLeaf = false → 2 ≤ n.size) (hlb : lb ≤ n.size) :
    WF cfg h lb lo hi n := by
  cases h with
  | zero =>
    cases n with
    | leaf kvs => exact ⟨hlb, ha.1, ha.2.1, ha.2.2⟩
    | internal es => exact absurd ha (by simp [AWF])
  | succ h =>
    cases n with
    | leaf kvs => exact absurd ha (by simp [AWF])
    | internal es => exact ⟨h2 rfl, hlb, ha.2.1, ha.2.2.1, ha.2.2.2⟩

theorem toLL_cons (x : Int × BNode) (tl : List (Int × BNode)) :
    toLL (x :: tl) = toL x.2 ++ toLL tl := by
  obtain ⟨k, c⟩ := x
  rw [toLL]

/-- Flattening of an entry list, split at index `i`. -/
theorem toLL_decomp (es : List (Int × BNode)) (i : Nat) (h : i < es.length) :
    toLL es = toLL (es.take i) ++ toL ((es.getD i default).2) ++ toLL (es.drop (i + 1)) := by
  conv_lhs => rw [es_decomp es i h]
  rw [toLL_append, toLL_cons, List.append_assoc]

theorem childLB_congr (cfg : BTConfig) {n n' : BNode} (h : n'.isLeaf = n.isLeaf) :
    childLB cfg n' = childLB cfg n := by
  cases n <;> cases n' <;> first | rfl | simp [BNode.isLeaf] at h

theorem getD_drop_zero {α : Type} [Inhabited α] (l : List α) (n : Nat) (d : α) :
    (l.drop n).getD 0 d = l.getD n d := by
  rw [List.getD_eq_getElem?_getD, List.getD_eq_getElem?_getD, List.getElem?_drop,
    Nat.add_zero]

/-- A key is among an internal node's entries iff it is among the
entries of the child chosen by `Lookup`. -/
theorem key_in_internal_iff (cfg : BTConfig) (hok : cfg.ok) {h lb : Nat} {lo hi : Option Int}
    {es : List (Int × BNode)} (hw : WF cfg (h + 1) lb lo hi (.internal es)) (key : Int) :
    key ∈ (toLL es).map Prod.fst ↔
      key ∈ (toL ((es.getD (childIdx es key) default).2)).map Prod.fst := by
  have hci : childIdx es key < es.length := (childIdx_spec cfg hok hw key).1
  constructor
  · intro hk
    obtain ⟨p, hp, hp1⟩ := List.mem_map.1 hk
    obtain ⟨j, k', c, hc, hpc⟩ := mem_toLL.1 hp
    by_cases hj : j = childIdx es key
    · subst hj
      rw [getElem?_getD es _ hci] at hc
      rw [show c = (es.getD (childIdx es key) default).2 from
        (congrArg Prod.snd (Option.some.inj hc)).symm] at hpc
      exact List.mem_map.2 ⟨p, hpc, hp1⟩
    · exact absurd hp1 (key_only_in_chosen cfg hok hw key j k' c hc hj p hpc)
  · intro hk
    obtain ⟨p, hp, hp1⟩ := List.mem_map.1 hk
    refine List.mem_map.2 ⟨p, mem_toLL.2 ?_, hp1⟩
    exact ⟨childIdx es key, (es.getD (childIdx es key) default).1,
      (es.getD (childIdx es key) default).2, by rw [getElem?_getD es _ hci], hp⟩

/-- Replacing the node of one entry (keeping its key) leaves every entry
key unchanged. -/
theorem keys_replace1 (es : List (Int × BNode)) (c' : BNode) (i : Nat) (h : i < es.length) :
    ∀ m : Nat, ((es.take i ++ ((es.getD i default).1, c') :: es.drop (i + 1))[m]?).map
      Prod.fst = (es[m]?).map Prod.fst := by
  intro m
  rw [getElem?_replace1 es ((es.getD i default).1, c') i m h]
  by_cases hm : m = i
  · subst hm
    rw [if_pos rfl, getElem?_getD es m h]
    rfl
  · rw [if_neg hm]

/-- Entry keys after replacing the entry at `i` (key kept) and inserting a
new entry right after it. -/
theorem keys_replace2 (es : List (Int × BNode)) (l r : BNode) (sep : Int) (i : Nat)
    (h : i < es.length) :
    (∀ m : Nat, m ≤ i →
      ((es.take i ++ ((es.getD i default).1, l) :: (sep, r) :: es.drop (i + 1))[m]?).map
        Prod.fst = (es[m]?).map Prod.fst) ∧
    (((es.take i ++ ((es.getD i default).1, l) :: (sep, r) :: es.drop (i + 1))[i + 1]?).map
        Prod.fst = some sep) ∧
    (∀ m : Nat, i + 2 ≤ m →
      ((es.take i ++ ((es.getD i default).1, l) :: (sep, r) :: es.drop (i + 1))[m]?).map
        Prod.fst = (es[m - 1]?).map Prod.fst) := by
  refine ⟨?_, ?_, ?_⟩
  · intro m hm
    rw [getElem?_replace2 es ((es.getD i default).1, l) (sep, r) i m h]
    by_cases hm2 : m = i
    · subst hm2
      rw [if_pos rfl, getElem?_getD es m h]
      rfl
    · rw [if_neg hm2, if_neg (by omega), if_pos (by omega)]
  · rw [getElem?_replace2 es ((es.getD i default).1, l) (sep, r) i (i + 1) h]
    rw [if_neg (by omega), if_pos rfl]
    rfl
  · intro m hm
    rw [getElem?_replace2 es ((es.getD i default).1, l) (sep, r) i m h]
    rw [if_neg (by omega), if_neg (by omega), if_neg (by omega)]

/-- Splitting a too-large internal entry list at `mid` yields two
well-formed internal nodes around the key at `mid`. -/
theorem internal_split_parts (cfg : BTConfig) (h : Nat) (lo hi : Option Int)
    (es' : List (Int × BNode)) (mid : Nat)
    (hself : ∀ a, lo = some a → (es'[0]?).map Prod.fst = some a)
    (hch : ∀ (i : Nat) (k : Int) (c : BNode), es'[i]? = some (k, c) →
      WF cfg h (childLB cfg c) (if i = 0 then lo else some k) (sepHi es' hi i) c)
    (hmid2 : 2 ≤ mid) (hmidlen : mid + 2 ≤ es'.length)
    (hlb1 : cfg.intMax / 2 ≤ mid) (hlb2 : cfg.intMax / 2 ≤ es'.length - mid)
    (hmax1 : mid ≤ cfg.intMax) (hmax2 : es'.length - mid ≤ cfg.intMax) :
    WF cfg (h + 1) (cfg.intMax / 2) lo (some ((es'.getD mid default).1))
      (.internal (es'.take mid)) ∧
    WF cfg (h + 1) (cfg.intMax / 2) (some ((es'.getD mid default).1)) hi
      (.internal (es'.drop mid)) := by
  have hmlen : mid < es'.length := by omega
  have hlt : (es'.take mid).length = mid := by
    rw [List.length_take]
    omega
  have hdlen : (es'.drop mid).length = es'.length - mid := by
    rw [List.length_drop]
  constructor
  · refine ⟨by omega, by omega, by omega, ?_, ?_⟩
    · intro a ha
      rw [List.getElem?_take_of_lt (by omega)]
      exact hself a ha
    · intro j kj cj hcj
      have hjlt : j < mid := by
        by_contra hcon
        rw [List.getElem?_eq_none (by omega)] at hcj
        exact absurd hcj (by simp)
      have hcj' : es'[j]? = some (kj, cj) := by
        rw [← List.getElem?_take_of_lt hjlt]
        exact hcj
      have hse : sepHi (es'.take mid) (some ((es'.getD mid default).1)) j =
          sepHi es' hi j := by
        by_cases hj1 : j + 1 < mid
        · have he : es'[j + 1]? = some (es'.getD (j + 1) default) :=
            getElem?_getD es' (j + 1) (by omega)
          have h1 : (es'.take mid)[j + 1]? = some (es'.getD (j + 1) default) := by
            rw [List.getElem?_take_of_lt hj1]
            exact he
          rw [sepHi_some h1, sepHi_some he]
        · have hj1' : j + 1 = mid := by omega
          rw [sepHi, sepHi, List.getElem?_eq_none (by omega), hj1',
            getElem?_getD es' mid hmlen]
      rw [hse]
      exact hch j kj cj hcj'
  · refine ⟨by omega, by omega, by omega, ?_, ?_⟩
    · intro a ha
      have h0 : (es'.drop mid)[0]? = es'[mid]? := by
        rw [List.getElem?_drop, Nat.add_zero]
      rw [h0, getElem?_getD es' mid hmlen, ← Option.some.inj ha]
      rfl
    · intro j kj cj hcj
      have hcj' : es'[mid + j]? = some (kj, cj) := by
        rw [← List.getElem?_drop]
        exact hcj
      have hjlt : mid + j < es'.length := by
        by_contra hcon
        rw [List.getElem?_eq_none (by omega)] at hcj'
        exact absurd hcj' (by simp)
      have hse : sepHi (es'.drop mid) hi j = sepHi es' hi (mid + j) := by
        refine sepHi_congr ?_
        rw [List.getElem?_drop]
        rw [show mid + (j + 1) = mid + j + 1 from by omega]
      have hc := hch (mid + j) kj cj hcj'
      rw [← hse] at hc
      by_cases hj0 : j = 0
      · subst hj0
        rw [if_pos rfl]
        have hmj : mid + 0 = mid := by omega
        rw [hmj] at hc hcj'
        rw [if_neg (by omega)] at hc
        have hkj : kj = (es'.getD mid default).1 := by
          rw [getElem?_getD es' mid hmlen] at hcj'
          exact (congrArg Prod.fst (Option.some.inj hcj')).symm
        rw [← hkj]
        exact hc
      · rw [if_neg hj0]
        rw [if_neg (by omega)] at hc
        exact hc

theorem toLL_mid1 (A B : List (Int × BNode)) (x : Int × BNode) :
    toLL (A ++ x :: B) = toLL A ++ toL x.2 ++ toLL B := by
  rw [toLL_append, toLL_cons, ← List.append_assoc]

theorem toLL_mid2 (A B : List (Int × BNode)) (x y : Int × BNode) :
    toLL (A ++ x :: y :: B) = toLL A ++ toL x.2 ++ toL y.2 ++ toLL B := by
  rw [toLL_append, toLL_cons, toLL_cons, ← List.append_assoc, ← List.append_assoc]

/-- Replacing one child (key kept) preserves the two `WF` clauses of the
parent's entry list. -/
theorem ents_replace1 (cfg : BTConfig) (h : Nat) (lo hi : Option Int)
    (es : List (Int × BNode)) (i : Nat) (hci : i < es.length) (c' : BNode)
    (hself : ∀ a, lo = some a → (es[0]?).map Prod.fst = some a)
    (hch : ∀ (j : Nat) (kj : Int) (cj : BNode), es[j]? = some (kj, cj) →
      WF cfg h (childLB cfg cj) (if j = 0 then lo else some kj) (sepHi es hi j) cj)
    (hwc' : WF cfg h (childLB cfg c')
      (if i = 0 then lo else some ((es.getD i default).1)) (sepHi es hi i) c') :
    (∀ a, lo = some a →
      ((es.take i ++ ((es.getD i default).1, c') :: es.drop (i + 1))[0]?).map Prod.fst =
        some a) ∧
    (∀ (j : Nat) (kj : Int) (cj : BNode),
      (es.take i ++ ((es.getD i default).1, c') :: es.drop (i + 1))[j]? = some (kj, cj) →
      WF cfg h (childLB cfg cj) (if j = 0 then lo else some kj)
        (sepHi (es.take i ++ ((es.getD i default).1, c') :: es.drop (i + 1)) hi j) cj) := by
  have hkeys := keys_replace1 es c' i hci
  constructor
  · intro a ha
    rw [hkeys 0]
    exact hself a ha
  · intro j kj cj hcj
    have hse : sepHi (es.take i ++ ((es.getD i default).1, c') :: es.drop (i + 1)) hi j =
        sepHi es hi j := sepHi_congr (hkeys (j + 1))
    rw [hse]
    rw [getElem?_replace1 es ((es.getD i default).1, c') i j hci] at hcj
    by_cases hj : j = i
    · subst hj
      rw [if_pos rfl] at hcj
      have h1 : kj = (es.getD j default).1 := (congrArg Prod.fst (Option.some.inj hcj)).symm
      have h2 : cj = c' := (congrArg Prod.snd (Option.some.inj hcj)).symm
      rw [h1, h2]
      exact hwc'
    · rw [if_neg hj] at hcj
      exact hch j kj cj hcj

/-- Replacing one child by a split pair preserves the two `WF` clauses of
the parent's entry list. -/
theorem ents_replace2 (cfg : BTConfig) (h : Nat) (lo hi : Option Int)
    (es : List (Int × BNode)) (i : Nat) (hci : i < es.length) (l r : BNode) (sep : Int)
    (hself : ∀ a, lo = some a → (es[0]?).map Prod.fst = some a)
    (hch : ∀ (j : Nat) (kj : Int) (cj : BNode), es[j]? = some (kj, cj) →
      WF cfg h (childLB cfg cj) (if j = 0 then lo else some kj) (sepHi es hi j) cj)
    (hl : WF cfg h (childLB cfg l)
      (if i = 0 then lo else some ((es.getD i default).1)) (some sep) l)
    (hr : WF cfg h (childLB cfg r) (some sep) (sepHi es hi i) r) :
    (∀ a, lo = some a →
      ((es.take i ++ ((es.getD i default).1, l) :: (sep, r) :: es.drop (i + 1))[0]?).map
        Prod.fst = some a) ∧
    (∀ (j : Nat) (kj : Int) (cj : BNode),
      (es.take i ++ ((es.getD i default).1, l) :: (sep, r) :: es.drop (i + 1))[j]? =
        some (kj, cj) →
      WF cfg h (childLB cfg cj) (if j = 0 then lo else some kj)
        (sepHi (es.take i ++ ((es.getD i default).1, l) :: (sep, r) :: es.drop (i + 1)) hi j)
        cj) := by
  obtain ⟨hKa, hKb, hKc⟩ := keys_replace2 es l r sep i hci
  constructor
  · intro a ha
    rw [hKa 0 (by omega)]
    exact hself a ha
  · intro j kj cj hcj
    rw [getElem?_replace2 es ((es.getD i default).1, l) (sep, r) i j hci] at hcj
    by_cases hj : j = i
    · subst hj
      rw [if_pos rfl] at hcj
      have h1 : kj = (es.getD j default).1 := (congrArg Prod.fst (Option.some.inj hcj)).symm
      have h2 : cj = l := (congrArg Prod.snd (Option.some.inj hcj)).symm
      have hnext : (es.take j ++ ((es.getD j default).1, l) :: (sep, r) ::
          es.drop (j + 1))[j + 1]? = some (sep, r) := by
        rw [getElem?_replace2 es ((es.getD j default).1, l) (sep, r) j (j + 1) hci]
        rw [if_neg (by omega), if_pos rfl]
      have hse : sepHi (es.take j ++ ((es.getD j default).1, l) :: (sep, r) :: es.drop (j + 1))
          hi j = some sep := sepHi_some hnext
      rw [hse, h1, h2]
      exact hl
    · rw [if_neg hj] at hcj
      by_cases hj1 : j = i + 1
      · subst hj1
        rw [if_pos rfl] at hcj
        have h1 : kj = sep := (congrArg Prod.fst (Option.some.inj hcj)).symm
        have h2 : cj = r := (congrArg Prod.snd (Option.some.inj hcj)).symm
        have hse : sepHi
            (es.take i ++ ((es.getD i default).1, l) :: (sep, r) :: es.drop (i + 1)) hi
            (i + 1) = sepHi es hi i := by
          refine sepHi_congr ?_
          rw [hKc (i + 2) (by omega)]
          rw [show i + 2 - 1 = i + 1 from by omega]
        rw [hse, if_neg (by omega), h1, h2]
        exact hr
      · rw [if_neg hj1] at hcj
        by_cases hj2 : j < i
        · rw [if_pos hj2] at hcj
          have hse : sepHi
              (es.take i ++ ((es.getD i default).1, l) :: (sep, r) :: es.drop (i + 1)) hi j =
              sepHi es hi j := sepHi_congr (hKa (j + 1) (by omega))
          rw [hse]
          exact hch j kj cj hcj
        · have hj4 : i + 2 ≤ j := by omega
          rw [if_neg hj2] at hcj
          have hse : sepHi
              (es.take i ++ ((es.getD i default).1, l) :: (sep, r) :: es.drop (i + 1)) hi j =
              sepHi es hi (j - 1) := by
            refine sepHi_congr ?_
            rw [hKc (j + 1) (by omega)]
            rw [show j + 1 - 1 = j - 1 + 1 from by omega]
          rw [hse]
          have := hch (j - 1) kj cj hcj
          rw [if_neg (by omega)] at this
          rw [if_neg (by omega)]
          exact this

/-- Splitting an over-full sorted leaf at `(leafMax + 1) / 2` yields two
well-formed leaves around the first key of the upper half. -/
theorem leaf_split_parts (cfg : BTConfig) (hok : cfg.ok) (lo hi : Option Int)
    (kvs' : List (Int × Int)) (hlen : kvs'.length = cfg.leafMax + 1)
    (hs : List.Pairwise (· < ·) (kvs'.map Prod.fst))
    (hbnd : ∀ p ∈ kvs', inB lo hi p.1) :
    WF cfg 0 (cfg.leafMax / 2) lo (some ((kvs'.getD ((cfg.leafMax + 1) / 2) (0, 0)).1))
      (.leaf (kvs'.take ((cfg.leafMax + 1) / 2))) ∧
    WF cfg 0 (cfg.leafMax / 2) (some ((kvs'.getD ((cfg.leafMax + 1) / 2) (0, 0)).1)) hi
      (.leaf (kvs'.drop ((cfg.leafMax + 1) / 2))) := by
  obtain ⟨hok1, hok2⟩ := hok
  have hidx : (cfg.leafMax + 1) / 2 < kvs'.length := by omega
  have htlen : (kvs'.take ((cfg.leafMax + 1) / 2)).length = (cfg.leafMax + 1) / 2 := by
    rw [List.length_take]
    omega
  have hdlen : (kvs'.drop ((cfg.leafMax + 1) / 2)).length =
      kvs'.length - (cfg.leafMax + 1) / 2 := by
    rw [List.length_drop]
  constructor
  · refine ⟨by omega, by omega, ?_, ?_⟩
    · rw [List.map_take]
      exact List.Pairwise.sublist (List.take_sublist _ _) hs
    · intro p hp
      obtain ⟨m, hmi, hml, hget⟩ := mem_take_idx (0, 0) hp
      have h1 : (kvs'.map Prod.fst).getD m 0 < (kvs'.map Prod.fst).getD
          ((cfg.leafMax + 1) / 2) 0 :=
        pairwise_getD_lt hs hmi (by rw [List.length_map]; omega)
      rw [getD_map_fst kvs' m hml 0 (0, 0),
        getD_map_fst kvs' ((cfg.leafMax + 1) / 2) hidx 0 (0, 0), hget] at h1
      refine ⟨fun a ha => (hbnd p (List.mem_of_mem_take hp)).1 a ha, ?_⟩
      intro a ha
      rw [← Option.some.inj ha]
      exact h1
  · refine ⟨by omega, by omega, ?_, ?_⟩
    · rw [List.map_drop]
      exact List.Pairwise.sublist (List.drop_sublist _ _) hs
    · intro p hp
      obtain ⟨m, hmi, hml, hget⟩ := mem_drop_idx (0, 0) hp
      have h1 : (kvs'.map Prod.fst).getD ((cfg.leafMax + 1) / 2) 0 ≤
          (kvs'.map Prod.fst).getD m 0 :=
        pairwise_getD_le hs hmi (by rw [List.length_map]; omega)
      rw [getD_map_fst kvs' m hml 0 (0, 0),
        getD_map_fst kvs' ((cfg.leafMax + 1) / 2) hidx 0 (0, 0), hget] at h1
      refine ⟨?_, fun a ha => (hbnd p (List.mem_of_mem_drop hp)).2 a ha⟩
      intro a ha
      rw [← Option.some.inj ha]
      exact h1

/-- Main invariant of recursive insertion (`InsertIntoLeaf` / `Split` /
`InsertIntoParent`): on a well-formed subtree whose window admits the key,
the result is `.dup` exactly when the key is already present; an updated
node keeps the window, the page kind and adds exactly `(k, v)`; a split
yields two well-formed halves of minimum occupancy around the pushed-up
separator. -/
theorem insertNode_spec (cfg : BTConfig) (hok : cfg.ok) (k v : Int) :
    ∀ (h : Nat) (lb : Nat) (lo hi : Option Int) (n : BNode), WF cfg h lb lo hi n →
      inB lo hi k →
    (insertNode cfg k v n = .dup ↔ k ∈ (toL n).map Prod.fst) ∧
    (∀ n', insertNode cfg k v n = .one n' →
      WF cfg h lb lo hi n' ∧ n'.isLeaf = n.isLeaf ∧
      (∀ p, p ∈ toL n' ↔ p = (k, v) ∨ p ∈ toL n)) ∧
    (∀ l sep r, insertNode cfg k v n = .split l sep r →
      WF cfg h (childLB cfg l) lo (some sep) l ∧
      WF cfg h (childLB cfg r) (some sep) hi r ∧
      l.isLeaf = n.isLeaf ∧ r.isLeaf = n.isLeaf ∧
      (∀ p, p ∈ toL l ∨ p ∈ toL r ↔ p = (k, v) ∨ p ∈ toL n)) := by
  intro h
  induction h with
  | zero =>
    intro lb lo hi n hw hin
    cases n with
    | internal es => exact absurd hw (by simp [WF])
    | leaf kvs =>
      obtain ⟨h1, h2, h3, h4⟩ := hw
      by_cases hk : k ∈ kvs.map Prod.fst
      · have hlk : (leafLookup kvs k).isSome := by
          rcases hv : leafLookup kvs k with - | v0
          · exact absurd hk ((leafLookup_spec kvs k h3).2.1 hv)
          · rfl
        have he : insertNode cfg k v (.leaf kvs) = .dup := by
          rw [insertNode, if_pos hlk]
        refine ⟨iff_of_true he hk, ?_, ?_⟩
        · intro n' hone
          rw [he] at hone
          exact absurd hone (by simp)
        · intro l sep r hsp
          rw [he] at hsp
          exact absurd hsp (by simp)
      · have hlkn : leafLookup kvs k = none := (leafLookup_spec kvs k h3).2.2 hk
        have hlk : ¬(leafLookup kvs k).isSome := by
          rw [hlkn]
          simp
        obtain ⟨hs', hm', hl'⟩ := leafInsert_spec kvs k v h3 hk
        have hbnd' : ∀ p ∈ leafInsert kvs k v, inB lo hi p.1 := by
          intro p hp
          rcases (hm' p).1 hp with rfl | hp'
          · exact hin
          · exact h4 p hp'
        by_cases hbig : (leafInsert kvs k v).length > cfg.leafMax
        · have hlen : (leafInsert kvs k v).length = cfg.leafMax + 1 := by omega
          have he : insertNode cfg k v (.leaf kvs) =
              .split (.leaf ((leafInsert kvs k v).take ((cfg.leafMax + 1) / 2)))
                (((leafInsert kvs k v).drop ((cfg.leafMax + 1) / 2)).getD 0 (0, 0)).1
                (.leaf ((leafInsert kvs k v).drop ((cfg.leafMax + 1) / 2))) := by
            rw [insertNode, if_neg hlk]
            simp only [if_pos hbig]
          obtain ⟨hwl, hwr⟩ := leaf_split_parts cfg hok lo hi (leafInsert kvs k v) hlen
            hs' hbnd'
          have hsep : (((leafInsert kvs k v).drop ((cfg.leafMax + 1) / 2)).getD 0 (0, 0)).1 =
              ((leafInsert kvs k v).getD ((cfg.leafMax + 1) / 2) (0, 0)).1 := by
            rw [getD_drop_zero]
          refine ⟨iff_of_false (by rw [he]; simp) hk, ?_, ?_⟩
          · intro n' hone
            rw [he] at hone
            exact absurd hone (by simp)
          · intro l sep r hsp
            rw [he] at hsp
            obtain ⟨rfl, rfl, rfl⟩ := IRes.split.inj hsp
            rw [hsep]
            refine ⟨hwl, hwr, rfl, rfl, ?_⟩
            intro p
            have hrw : p ∈ toL (BNode.leaf ((leafInsert kvs k v).take ((cfg.leafMax + 1) / 2)))
                ∨ p ∈ toL (BNode.leaf ((leafInsert kvs k v).drop ((cfg.leafMax + 1) / 2)))
                ↔ p ∈ leafInsert kvs k v := by
              rw [show toL (BNode.leaf ((leafInsert kvs k v).take ((cfg.leafMax + 1) / 2))) =
                  (leafInsert kvs k v).take ((cfg.leafMax + 1) / 2) from rfl,
                show toL (BNode.leaf ((leafInsert kvs k v).drop ((cfg.leafMax + 1) / 2))) =
                  (leafInsert kvs k v).drop ((cfg.leafMax + 1) / 2) from rfl,
                ← List.mem_append, List.take_append_drop]
            rw [hrw]
            exact hm' p
        · have he : insertNode cfg k v (.leaf kvs) = .one (.leaf (leafInsert kvs k v)) := by
            rw [insertNode, if_neg hlk]
            simp only [if_neg hbig]
          refine ⟨iff_of_false (by rw [he]; simp) hk, ?_, ?_⟩
          · intro n' hone
            rw [he] at hone
            obtain rfl := IRes.one.inj hone
            refine ⟨⟨by omega, by omega, hs', hbnd'⟩, rfl, ?_⟩
            intro p
            exact hm' p
          · intro l sep r hsp
            rw [he] at hsp
            exact absurd hsp (by simp)
  | succ h ih =>
    intro lb lo hi n hw hin
    cases n with
    | leaf kvs => exact absurd hw (by simp [WF])
    | internal es =>
      have hws := hw
      have hci : childIdx es k < es.length := (childIdx_spec cfg hok hw k).1
      obtain ⟨h1, h2, h3, h4, h5⟩ := hw
      have hwc := h5 (childIdx es k) (es.getD (childIdx es k) default).1
        (es.getD (childIdx es k) default).2 (by rw [getElem?_getD es _ hci])
      have hkinB := childIdx_inB cfg hok hws k hin
      obtain ⟨ihdup, ihone, ihsplit⟩ := ih (childLB cfg (es.getD (childIdx es k) default).2)
        _ _ (es.getD (childIdx es k) default).2 hwc hkinB
      have hkeyiff := key_in_internal_iff cfg hok hws k
      cases hres : insertNode cfg k v ((es.getD (childIdx es k) default).2) with
      | dup =>
        -- the child reports a duplicate
        have he : insertNode cfg k v (.internal es) = .dup := by
          rw [insertNode, insertChildAt_eq cfg k v es (childIdx es k) hci]
          simp only [hres]
        have hkk : k ∈ (toLL es).map Prod.fst := hkeyiff.2 (ihdup.1 hres)
        refine ⟨iff_of_true he hkk, ?_, ?_⟩
        · intro n' hone
          rw [he] at hone
          exact absurd hone (by simp)
        · intro l sep r hsp
          rw [he] at hsp
          exact absurd hsp (by simp)
      | one c' =>
        -- the child was updated in place
        obtain ⟨hwc1, hkind1, hmem1⟩ := ihone c' hres
        have hnotk : k ∉ (toLL es).map Prod.fst := by
          intro hkk
          have := ihdup.2 (hkeyiff.1 hkk)
          rw [hres] at this
          exact absurd this (by simp)
        have hlen' := length_replace1 es ((es.getD (childIdx es k) default).1, c')
          (childIdx es k) hci
        have hnotbig : ¬(es.take (childIdx es k) ++
            ((es.getD (childIdx es k) default).1, c') ::
            es.drop (childIdx es k + 1)).length > cfg.intMax := by omega
        have he : insertNode cfg k v (.internal es) =
            .one (.internal (es.take (childIdx es k) ++
              ((es.getD (childIdx es k) default).1, c') ::
              es.drop (childIdx es k + 1))) := by
          rw [insertNode, insertChildAt_eq cfg k v es (childIdx es k) hci]
          simp only [hres]
          rw [if_neg hnotbig]
        have hwc' : WF cfg h (childLB cfg c')
            (if childIdx es k = 0 then lo else some ((es.getD (childIdx es k) default).1))
            (sepHi es hi (childIdx es k)) c' := by
          rw [childLB_congr cfg hkind1]
          exact hwc1
        obtain ⟨hself', hch'⟩ := ents_replace1 cfg h lo hi es (childIdx es k) hci c' h4 h5 hwc'
        refine ⟨iff_of_false (by rw [he]; simp) hnotk, ?_, ?_⟩
        · intro n' hone
          rw [he] at hone
          obtain rfl := IRes.one.inj hone
          refine ⟨⟨by omega, by omega, by omega, hself', hch'⟩, rfl, ?_⟩
          intro p
          have hA : toL (BNode.internal (es.take (childIdx es k) ++
              ((es.getD (childIdx es k) default).1, c') :: es.drop (childIdx es k + 1))) =
              toLL (es.take (childIdx es k)) ++ toL c' ++
                toLL (es.drop (childIdx es k + 1)) :=
            toLL_mid1 _ _ _
          have hB : toL (BNode.internal es) = toLL (es.take (childIdx es k)) ++
              toL ((es.getD (childIdx es k) default).2) ++
              toLL (es.drop (childIdx es k + 1)) :=
            toLL_decomp es (childIdx es k) hci
          rw [hA, hB]
          simp only [List.mem_append]
          rw [hmem1 p]
          tauto
        · intro l sep r hsp
          rw [he] at hsp
          exact absurd hsp (by simp)
      | split lc sep rc =>
        -- the child split
        obtain ⟨hwl, hwr, hkl, hkr, hmem2⟩ := ihsplit lc sep rc hres
        have hnotk : k ∉ (toLL es).map Prod.fst := by
          intro hkk
          have := ihdup.2 (hkeyiff.1 hkk)
          rw [hres] at this
          exact absurd this (by simp)
        have hlen' := length_replace2 es ((es.getD (childIdx es k) default).1, lc) (sep, rc)
          (childIdx es k) hci
        have hok2 : 3 ≤ cfg.intMax := hok.2
        obtain ⟨hself', hch'⟩ := ents_replace2 cfg h lo hi es (childIdx es k) hci lc rc sep
          h4 h5 hwl hwr
        set es2 := es.take (childIdx es k) ++
            ((es.getD (childIdx es k) default).1, lc) :: (sep, rc) ::
            es.drop (childIdx es k + 1) with hes2
        have hmemAll : ∀ p, p ∈ toLL es2 ↔ p = (k, v) ∨ p ∈ toLL es := by
          intro p
          have hA : toLL es2 = toLL (es.take (childIdx es k)) ++ toL lc ++ toL rc ++
              toLL (es.drop (childIdx es k + 1)) := by
            rw [hes2]
            exact toLL_mid2 _ _ _ _
          have hB : toLL es = toLL (es.take (childIdx es k)) ++
              toL ((es.getD (childIdx es k) default).2) ++
              toLL (es.drop (childIdx es k + 1)) :=
            toLL_decomp es (childIdx es k) hci
          rw [hA, hB]
          simp only [List.mem_append]
          have := hmem2 p
          tauto
        by_cases hbig : es2.length > cfg.intMax
        · -- this node splits as well
          have hlen2 : es2.length = cfg.intMax + 1 := by omega
          have he : insertNode cfg k v (.internal es) =
              .split (.internal (es2.take (es2.length / 2)))
                ((es2.drop (es2.length / 2)).getD 0 (0, default)).1
                (.internal (es2.drop (es2.length / 2))) := by
            rw [insertNode, insertChildAt_eq cfg k v es (childIdx es k) hci]
            simp only [hres]
            rw [← hes2, if_pos hbig]
          obtain ⟨hpl, hpr⟩ := internal_split_parts cfg h lo hi es2 (es2.length / 2)
            hself' hch' (by omega) (by omega) (by omega) (by omega) (by omega) (by omega)
          have hsep : ((es2.drop (es2.length / 2)).getD 0 (0, default)).1 =
              (es2.getD (es2.length / 2) default).1 := by
            rw [getD_drop_zero]
            rfl
          refine ⟨iff_of_false (by rw [he]; simp) hnotk, ?_, ?_⟩
          · intro n' hone
            rw [he] at hone
            exact absurd hone (by simp)
          · intro l sep2 r hsp
            rw [he] at hsp
            obtain ⟨rfl, rfl, rfl⟩ := IRes.split.inj hsp
            rw [hsep]
            refine ⟨hpl, hpr, rfl, rfl, ?_⟩
            intro p
            have hTD : toLL (es2.take (es2.length / 2)) ++ toLL (es2.drop (es2.length / 2)) =
                toLL es2 := by
              rw [← toLL_append, List.take_append_drop]
            have hup : p ∈ toL (BNode.internal (es2.take (es2.length / 2))) ∨
                p ∈ toL (BNode.internal (es2.drop (es2.length / 2))) ↔ p ∈ toLL es2 := by
              rw [show toL (BNode.internal (es2.take (es2.length / 2))) =
                  toLL (es2.take (es2.length / 2)) from rfl,
                show toL (BNode.internal (es2.drop (es2.length / 2))) =
                  toLL (es2.drop (es2.length / 2)) from rfl,
                ← List.mem_append, hTD]
            rw [hup]
            exact hmemAll p
        · -- the new entry still fits
          have he : insertNode cfg k v (.internal es) = .one (.internal es2) := by
            rw [insertNode, insertChildAt_eq cfg k v es (childIdx es k) hci]
            simp only [hres]
            rw [← hes2, if_neg hbig]
          refine ⟨iff_of_false (by rw [he]; simp) hnotk, ?_, ?_⟩
          · intro n' hone
            rw [he] at hone
            obtain rfl := IRes.one.inj hone
            refine ⟨⟨by omega, by omega, by omega, hself', hch'⟩, rfl, ?_⟩
            intro p
            exact hmemAll p
          · intro l sep2 r hsp
            rw [he] at hsp
            exact absurd hsp (by simp)

theorem pairwise_append_keys {A B : List (Int × Int)} {sepK : Int}
    (hA : List.Pairwise (· < ·) (A.map Prod.fst)) (hB : List.Pairwise (· < ·) (B.map Prod.fst))
    (hAlt : ∀ p ∈ A, p.1 < sepK) (hBge : ∀ p ∈ B, sepK ≤ p.1) :
    List.Pairwise (· < ·) ((A ++ B).map Prod.fst) := by
  rw [List.map_append, List.pairwise_append]
  refine ⟨hA, hB, ?_⟩
  intro a ha b hb
  obtain ⟨pa, hpa, rfl⟩ := List.mem_map.1 ha
  obtain ⟨pb, hpb, rfl⟩ := List.mem_map.1 hb
  have h1 := hAlt pa hpa
  have h2 := hBge pb hpb
  omega

theorem getElem?_append_cons {α : Type} (A B : List α) (x : α) (j : Nat) :
    (A ++ x :: B)[j]? =
      if j < A.length then A[j]? else if j = A.length then some x
      else B[j - A.length - 1]? := by
  by_cases h1 : j < A.length
  · rw [if_pos h1, List.getElem?_append_left h1]
  · rw [if_neg h1, List.getElem?_append_right (by omega)]
    by_cases h2 : j = A.length
    · rw [if_pos h2, h2, Nat.sub_self]
      simp
    · rw [if_neg h2]
      have h3 : j - A.length = (j - A.length - 1) + 1 := by omega
      conv_lhs => rw [h3]
      rw [List.getElem?_cons_succ]

/-- `MoveAllTo` (merge) of two adjacent siblings: the result is
well-formed over the union window, flattens to the concatenation, and has
the summed size. -/
theorem mergeNodes_WF (cfg : BTConfig) (h : Nat) (loc hic : Option Int) (sepK : Int)
    (L R : BNode)
    (hL : AWF cfg h loc (some sepK) L) (hR : AWF cfg h (some sepK) hic R)
    (hsep_lo : ∀ a, loc = some a → a ≤ sepK)
    (hsep_hi : ∀ b, hic = some b → sepK ≤ b)
    (hsz : L.size + R.size ≤ nodeMaxSize cfg L)
    (hlb : childLB cfg L ≤ L.size + R.size) :
    WF cfg h (childLB cfg L) loc hic (mergeNodes L R sepK) ∧
    toL (mergeNodes L R sepK) = toL L ++ toL R ∧
    (mergeNodes L R sepK).size = L.size + R.size ∧
    (mergeNodes L R sepK).isLeaf = L.isLeaf := by
  cases h with
  | zero =>
    cases L with
    | internal le => exact absurd hL (by simp [AWF])
    | leaf lk =>
      cases R with
      | internal re => exact absurd hR (by simp [AWF])
      | leaf rk =>
        obtain ⟨hA1, hA2, hA3⟩ := hL
        obtain ⟨hB1, hB2, hB3⟩ := hR
        have hAlt : ∀ p ∈ lk, p.1 < sepK := fun p hp => (hA3 p hp).2 sepK rfl
        have hBge : ∀ p ∈ rk, sepK ≤ p.1 := fun p hp => (hB3 p hp).1 sepK rfl
        refine ⟨⟨?_, ?_, pairwise_append_keys hA2 hB2 hAlt hBge, ?_⟩, rfl, ?_, rfl⟩
        · have := List.length_append lk rk
          simp only [BNode.size, childLB, List.length_append] at *
          omega
        · have := List.length_append lk rk
          simp only [BNode.size, nodeMaxSize, List.length_append] at *
          omega
        · intro p hp
          rcases List.mem_append.1 hp with hp1 | hp1
          · refine ⟨(hA3 p hp1).1, ?_⟩
            intro b hb
            have := hAlt p hp1
            have := hsep_hi b hb
            omega
          · refine ⟨?_, (hB3 p hp1).2⟩
            intro a ha
            have := hBge p hp1
            have := hsep_lo a ha
            omega
        · show (BNode.leaf (lk ++ rk)).size = (BNode.leaf lk).size + (BNode.leaf rk).size
          simp only [BNode.size, List.length_append]
  | succ h =>
    cases L with
    | leaf lk => exact absurd hL (by simp [AWF])
    | internal le =>
      cases R with
      | leaf rk => exact absurd hR (by simp [AWF])
      | internal re =>
        obtain ⟨hA1, hA2, hA3, hA4⟩ := hL
        obtain ⟨hB1, hB2, hB3, hB4⟩ := hR
        cases re with
        | nil => simp at hB1
        | cons e0 rt =>
          obtain ⟨k0, c0⟩ := e0
          have hmerge : mergeNodes (.internal le) (.internal ((k0, c0) :: rt)) sepK =
              .internal (le ++ (sepK, c0) :: rt) := rfl
          rw [hmerge]
          have hlelen : 1 ≤ le.length := hA1
          have hlen : (le ++ (sepK, c0) :: rt).length = le.length + (rt.length + 1) := by
            rw [List.length_append, List.length_cons]
          refine ⟨⟨?_, ?_, ?_, ?_, ?_⟩, ?_, ?_, rfl⟩
          · omega
          · simp only [BNode.size, childLB] at *
            rw [hlen]
            simp only [List.length_cons] at hlb
            omega
          · simp only [BNode.size, nodeMaxSize] at hsz
            rw [hlen]
            simp only [List.length_cons] at hsz
            omega
          · intro a ha
            rw [List.getElem?_append_left (by omega)]
            exact hA3 a ha
          · intro j kj cj hcj
            rw [getElem?_append_cons le rt (sepK, c0) j] at hcj
            by_cases hj1 : j < le.length
            · rw [if_pos hj1] at hcj
              have hwj := hA4 j kj cj hcj
              have hse : sepHi (le ++ (sepK, c0) :: rt) hic j = sepHi le (some sepK) j := by
                by_cases hj2 : j + 1 < le.length
                · have he : le[j + 1]? = some (le.getD (j + 1) default) :=
                    getElem?_getD le (j + 1) hj2
                  have he' : (le ++ (sepK, c0) :: rt)[j + 1]? =
                      some (le.getD (j + 1) default) := by
                    rw [getElem?_append_cons le rt (sepK, c0) (j + 1), if_pos hj2]
                    exact he
                  rw [sepHi_some he', sepHi_some he]
                · have hj2' : j + 1 = le.length := by omega
                  rw [sepHi, sepHi, getElem?_append_cons le rt (sepK, c0) (j + 1),
                    if_neg (by omega), if_pos hj2', List.getElem?_eq_none (by omega)]
              rw [hse]
              exact hwj
            · by_cases hj2 : j = le.length
              · rw [if_neg hj1, if_pos hj2] at hcj
                have h1 : kj = sepK := (congrArg Prod.fst (Option.some.inj hcj)).symm
                have h2 : cj = c0 := (congrArg Prod.snd (Option.some.inj hcj)).symm
                have hwj := hB4 0 k0 c0 (by simp)
                rw [if_pos rfl] at hwj
                have hse : sepHi (le ++ (sepK, c0) :: rt) hic j =
                    sepHi ((k0, c0) :: rt) hic 0 := by
                  refine sepHi_congr ?_
                  rw [getElem?_append_cons le rt (sepK, c0) (j + 1), if_neg (by omega),
                    if_neg (by omega), show j + 1 - le.length - 1 = 0 from by omega]
                  rw [List.getElem?_cons_succ]
                rw [hse, if_neg (by omega), h1, h2]
                exact hwj
              · rw [if_neg hj1, if_neg hj2] at hcj
                have hj3 : le.length + 1 ≤ j := by omega
                have hcj' : ((k0, c0) :: rt)[j - le.length]? = some (kj, cj) := by
                  rw [show j - le.length = (j - le.length - 1) + 1 from by omega,
                    List.getElem?_cons_succ]
                  exact hcj
                have hwj := hB4 (j - le.length) kj cj hcj'
                rw [if_neg (by omega)] at hwj
                have hse : sepHi (le ++ (sepK, c0) :: rt) hic j =
                    sepHi ((k0, c0) :: rt) hic (j - le.length) := by
                  refine sepHi_congr ?_
                  rw [getElem?_append_cons le rt (sepK, c0) (j + 1), if_neg (by omega),
                    if_neg (by omega),
                    show j + 1 - le.length - 1 = (j - le.length - 1) + 1 from by omega,
                    show j - le.length + 1 = (j - le.length - 1) + 1 + 1 from by omega,
                    List.getElem?_cons_succ]
                rw [hse, if_neg (by omega)]
                exact hwj
          · rw [show toL (BNode.internal (le ++ (sepK, c0) :: rt)) =
                toLL (le ++ (sepK, c0) :: rt) from rfl,
              toLL_mid1 le rt (sepK, c0),
              show toL (BNode.internal le) = toLL le from rfl,
              show toL (BNode.internal ((k0, c0) :: rt)) = toLL ((k0, c0) :: rt) from rfl,
              toLL_cons (k0, c0) rt, List.append_assoc]
          · simp only [BNode.size]
            rw [hlen]
            simp only [List.length_cons]

/-- After `Coalesce` the parent's entry list, with the two adjacent
entries at `m`, `m + 1` replaced by one merged entry under the key at `m`,
still satisfies the two `WF` clauses. -/
theorem ents_mergePair (cfg : BTConfig) (h : Nat) (lo hi : Option Int)
    (es : List (Int × BNode)) (m : Nat) (hm1 : m + 1 < es.length)
    (hself : ∀ a, lo = some a → (es[0]?).map Prod.fst = some a)
    (hch : ∀ (j : Nat) (kj : Int) (cj : BNode), es[j]? = some (kj, cj) → j ≠ m → j ≠ m + 1 →
      WF cfg h (childLB cfg cj) (if j = 0 then lo else some kj) (sepHi es hi j) cj)
    (M : BNode)
    (hM : WF cfg h (childLB cfg M) (if m = 0 then lo else some ((es.getD m default).1))
      (sepHi es hi (m + 1)) M) :
    (∀ a, lo = some a →
      ((es.take m ++ ((es.getD m default).1, M) :: es.drop (m + 2))[0]?).map Prod.fst =
        some a) ∧
    (∀ (j : Nat) (kj : Int) (cj : BNode),
      (es.take m ++ ((es.getD m default).1, M) :: es.drop (m + 2))[j]? = some (kj, cj) →
      WF cfg h (childLB cfg cj) (if j = 0 then lo else some kj)
        (sepHi (es.take m ++ ((es.getD m default).1, M) :: es.drop (m + 2)) hi j) cj) := by
  have hkeys : ∀ j : Nat, j ≤ m →
      ((es.take m ++ ((es.getD m default).1, M) :: es.drop (m + 2))[j]?).map Prod.fst =
        (es[j]?).map Prod.fst := by
    intro j hj
    rw [getElem?_mergePair es ((es.getD m default).1, M) m j hm1]
    by_cases hjm : j = m
    · subst hjm
      rw [if_neg (by omega), if_pos rfl, getElem?_getD es j (by omega)]
      rfl
    · rw [if_pos (by omega)]
  constructor
  · intro a ha
    rw [hkeys 0 (by omega)]
    exact hself a ha
  · intro j kj cj hcj
    rw [getElem?_mergePair es ((es.getD m default).1, M) m j hm1] at hcj
    by_cases hj1 : j < m
    · rw [if_pos hj1] at hcj
      have hse : sepHi (es.take m ++ ((es.getD m default).1, M) :: es.drop (m + 2)) hi j =
          sepHi es hi j := sepHi_congr (hkeys (j + 1) (by omega))
      rw [hse]
      exact hch j kj cj hcj (by omega) (by omega)
    · by_cases hj2 : j = m
      · subst hj2
        rw [if_neg hj1, if_pos rfl] at hcj
        have h1 : kj = (es.getD j default).1 :=
          (congrArg Prod.fst (Option.some.inj hcj)).symm
        have h2 : cj = M := (congrArg Prod.snd (Option.some.inj hcj)).symm
        have hse : sepHi (es.take j ++ ((es.getD j default).1, M) :: es.drop (j + 2)) hi j =
            sepHi es hi (j + 1) := by
          refine sepHi_congr ?_
          rw [getElem?_mergePair es ((es.getD j default).1, M) j (j + 1) hm1,
            if_neg (by omega), if_neg (by omega)]
        rw [hse, h1, h2]
        exact hM
      · rw [if_neg hj1, if_neg hj2] at hcj
        have hse : sepHi (es.take m ++ ((es.getD m default).1, M) :: es.drop (m + 2)) hi j =
            sepHi es hi (j + 1) := by
          refine sepHi_congr ?_
          rw [getElem?_mergePair es ((es.getD m default).1, M) m (j + 1) hm1,
            if_neg (by omega), if_neg (by omega)]
        rw [hse]
        have hwj := hch (j + 1) kj cj hcj (by omega) (by omega)
        rw [if_neg (by omega)] at hwj
        rw [if_neg (by omega)]
        exact hwj

/-- After `Redistribute` the parent's entry list, with the two adjacent
entries at `m`, `m + 1` rebalanced around the new separator `newk`, still
satisfies the two `WF` clauses. -/
theorem ents_replacePair (cfg : BTConfig) (h : Nat) (lo hi : Option Int)
    (es : List (Int × BNode)) (m : Nat) (hm1 : m + 1 < es.length)
    (hself : ∀ a, lo = some a → (es[0]?).map Prod.fst = some a)
    (hch : ∀ (j : Nat) (kj : Int) (cj : BNode), es[j]? = some (kj, cj) → j ≠ m → j ≠ m + 1 →
      WF cfg h (childLB cfg cj) (if j = 0 then lo else some kj) (sepHi es hi j) cj)
    (C1 C2 : BNode) (newk : Int)
    (hC1 : WF cfg h (childLB cfg C1) (if m = 0 then lo else some ((es.getD m default).1))
      (some newk) C1)
    (hC2 : WF cfg h (childLB cfg C2) (some newk) (sepHi es hi (m + 1)) C2) :
    (∀ a, lo = some a →
      ((es.take m ++ ((es.getD m default).1, C1) :: (newk, C2) :: es.drop (m + 2))[0]?).map
        Prod.fst = some a) ∧
    (∀ (j : Nat) (kj : Int) (cj : BNode),
      (es.take m ++ ((es.getD m default).1, C1) :: (newk, C2) :: es.drop (m + 2))[j]? =
        some (kj, cj) →
      WF cfg h (childLB cfg cj) (if j = 0 then lo else some kj)
        (sepHi (es.take m ++ ((es.getD m default).1, C1) :: (newk, C2) :: es.drop (m + 2))
          hi j) cj) := by
  have hkeys : ∀ j : Nat, j ≤ m →
      ((es.take m ++ ((es.getD m default).1, C1) :: (newk, C2) :: es.drop (m + 2))[j]?).map
        Prod.fst = (es[j]?).map Prod.fst := by
    intro j hj
    rw [getElem?_replacePair es ((es.getD m default).1, C1) (newk, C2) m j hm1]
    by_cases hjm : j = m
    · subst hjm
      rw [if_pos rfl, getElem?_getD es j (by omega)]
      rfl
    · rw [if_neg hjm, if_neg (by omega)]
  have hkeys2 : ∀ j : Nat, m + 2 ≤ j →
      ((es.take m ++ ((es.getD m default).1, C1) :: (newk, C2) :: es.drop (m + 2))[j]?).map
        Prod.fst = (es[j]?).map Prod.fst := by
    intro j hj
    rw [getElem?_replacePair es ((es.getD m default).1, C1) (newk, C2) m j hm1,
      if_neg (by omega), if_neg (by omega)]
  constructor
  · intro a ha
    rw [hkeys 0 (by omega)]
    exact hself a ha
  · intro j kj cj hcj
    rw [getElem?_replacePair es ((es.getD m default).1, C1) (newk, C2) m j hm1] at hcj
    by_cases hj2 : j = m
    · subst hj2
      rw [if_pos rfl] at hcj
      have h1 : kj = (es.getD j default).1 := (congrArg Prod.fst (Option.some.inj hcj)).symm
      have h2 : cj = C1 := (congrArg Prod.snd (Option.some.inj hcj)).symm
      have hnext : (es.take j ++ ((es.getD j default).1, C1) :: (newk, C2) ::
          es.drop (j + 2))[j + 1]? = some (newk, C2) := by
        rw [getElem?_replacePair es ((es.getD j default).1, C1) (newk, C2) j (j + 1) hm1,
          if_neg (by omega), if_pos rfl]
      have hse : sepHi
          (es.take j ++ ((es.getD j default).1, C1) :: (newk, C2) :: es.drop (j + 2)) hi j =
          some newk := sepHi_some hnext
      rw [hse, h1, h2]
      exact hC1
    · by_cases hj3 : j = m + 1
      · subst hj3
        rw [if_neg hj2, if_pos rfl] at hcj
        have h1 : kj = newk := (congrArg Prod.fst (Option.some.inj hcj)).symm
        have h2 : cj = C2 := (congrArg Prod.snd (Option.some.inj hcj)).symm
        have hse : sepHi (es.take m ++ ((es.getD m default).1, C1) :: (newk, C2) ::
            es.drop (m + 2)) hi (m + 1) = sepHi es hi (m + 1) :=
          sepHi_congr (hkeys2 (m + 2) (by omega))
        rw [hse, if_neg (by omega), h1, h2]
        exact hC2
      · rw [if_neg hj2, if_neg hj3] at hcj
        by_cases hj4 : j < m
        · have hse : sepHi (es.take m ++ ((es.getD m default).1, C1) :: (newk, C2) ::
              es.drop (m + 2)) hi j = sepHi es hi j :=
            sepHi_congr (hkeys (j + 1) (by omega))
          rw [hse]
          exact hch j kj cj hcj (by omega) (by omega)
        · have hse : sepHi (es.take m ++ ((es.getD m default).1, C1) :: (newk, C2) ::
              es.drop (m + 2)) hi j = sepHi es hi j :=
            sepHi_congr (hkeys2 (j + 1) (by omega))
          rw [hse]
          exact hch j kj cj hcj (by omega) (by omega)

theorem dropLast_append_getD {α : Type} [Inhabited α] (l : List α) (d : α)
    (h : 1 ≤ l.length) : l.dropLast ++ [l.getD (l.length - 1) d] = l := by
  have hne : l ≠ [] := by
    intro hc
    rw [hc] at h
    simp at h
  have h1 : l.getD (l.length - 1) d = l.getLast hne := by
    rw [List.getLast_eq_getElem l hne, List.getD_eq_getElem?_getD,
      List.getElem?_eq_getElem (by omega)]
    rfl
  rw [h1, List.dropLast_append_getLast]

/-- `MoveFirstToEndOf` on leaves: the sibling's first entry moves to the
end of the node; the new separator is the sibling's new first key. -/
theorem leaf_moveFirst (cfg : BTConfig) (hok : cfg.ok) (loc hic : Option Int) (sepK : Int)
    (nk sk : List (Int × Int))
    (hL : AWF cfg 0 loc (some sepK) (.leaf nk))
    (hR : WF cfg 0 (cfg.leafMax / 2) (some sepK) hic (.leaf sk))
    (hsep_lo : ∀ a, loc = some a → a ≤ sepK)
    (hsk2 : 2 ≤ sk.length) (hsk' : cfg.leafMax / 2 + 1 ≤ sk.length)
    (hnk_lb : cfg.leafMax / 2 ≤ nk.length + 1) (hnk_max : nk.length + 1 ≤ cfg.leafMax) :
    WF cfg 0 (cfg.leafMax / 2) loc (some (((sk.drop 1).getD 0 (0, 0)).1))
      (.leaf (nk ++ [sk.getD 0 (0, 0)])) ∧
    WF cfg 0 (cfg.leafMax / 2) (some (((sk.drop 1).getD 0 (0, 0)).1)) hic
      (.leaf (sk.drop 1)) ∧
    (nk ++ [sk.getD 0 (0, 0)]) ++ sk.drop 1 = nk ++ sk := by
  obtain ⟨hA1, hA2, hA3⟩ := hL
  obtain ⟨hB0, hB1, hB2, hB3⟩ := hR
  have hnewk : ((sk.drop 1).getD 0 (0, 0)).1 = (sk.getD 1 (0, 0)).1 := by
    rw [getD_drop_zero]
  have hsk0mem : sk.getD 0 (0, 0) ∈ sk := by
    have := getD_mem_drop (0, 0) (le_refl 0) (show 0 < sk.length from by omega)
    rw [List.drop_zero] at this
    exact this
  have h01 : (sk.getD 0 (0, 0)).1 < (sk.getD 1 (0, 0)).1 := by
    have := pairwise_getD_lt hB2 (show (0 : Nat) < 1 from by omega)
      (by rw [List.length_map]; omega)
    rw [getD_map_fst sk 0 (by omega) 0 (0, 0), getD_map_fst sk 1 (by omega) 0 (0, 0)] at this
    exact this
  have hskge : ∀ q ∈ sk, sepK ≤ q.1 := fun q hq => (hB3 q hq).1 sepK rfl
  have hnklt : ∀ q ∈ nk, q.1 < sepK := fun q hq => (hA3 q hq).2 sepK rfl
  have hsk0ge : sepK ≤ (sk.getD 0 (0, 0)).1 := hskge _ hsk0mem
  refine ⟨⟨?_, ?_, ?_, ?_⟩, ⟨?_, ?_, ?_, ?_⟩, ?_⟩
  · rw [List.length_append, List.length_cons, List.length_nil]
    omega
  · rw [List.length_append, List.length_cons, List.length_nil]
    omega
  · refine pairwise_append_keys hA2 ?_ hnklt ?_
    · simp
    · intro p hp
      rw [List.mem_singleton] at hp
      rw [hp]
      exact hsk0ge
  · intro p hp
    rw [hnewk]
    rcases List.mem_append.1 hp with hp1 | hp1
    · refine ⟨(hA3 p hp1).1, ?_⟩
      intro b hb
      have := hnklt p hp1
      rw [← Option.some.inj hb]
      omega
    · rw [List.mem_singleton] at hp1
      subst hp1
      refine ⟨?_, ?_⟩
      · intro a ha
        have := hsep_lo a ha
        omega
      · intro b hb
        rw [← Option.some.inj hb]
        exact h01
  · rw [List.length_drop]
    omega
  · rw [List.length_drop]
    omega
  · rw [List.map_drop]
    exact List.Pairwise.sublist (List.drop_sublist _ _) hB2
  · intro p hp
    rw [hnewk]
    obtain ⟨m, hm1, hm2, hget⟩ := mem_drop_idx (0, 0) hp
    refine ⟨?_, (hB3 p (List.mem_of_mem_drop hp)).2⟩
    intro a ha
    have := pairwise_getD_le hB2 (show (1 : Nat) ≤ m from hm1)
      (by rw [List.length_map]; omega)
    rw [getD_map_fst sk 1 (by omega) 0 (0, 0), getD_map_fst sk m (by omega) 0 (0, 0),
      hget] at this
    rw [← Option.some.inj ha]
    exact this
  · rw [List.append_assoc, List.singleton_append]
    congr 1
    conv_rhs => rw [es_decomp sk 0 (by omega)]
    rw [List.take_zero, List.nil_append]
    rfl

/-- `MoveLastToFrontOf` on leaves: the sibling's last entry moves to the
front of the node; the new separator is the moved key. -/
theorem leaf_moveLast (cfg : BTConfig) (hok : cfg.ok) (loc hic : Option Int) (sepK : Int)
    (sk nk : List (Int × Int))
    (hL : WF cfg 0 (cfg.leafMax / 2) loc (some sepK) (.leaf sk))
    (hR : AWF cfg 0 (some sepK) hic (.leaf nk))
    (hsep_hi : ∀ b, hic = some b → sepK ≤ b)
    (hsk2 : 1 ≤ sk.length) (hsk' : cfg.leafMax / 2 + 1 ≤ sk.length)
    (hnk_lb : cfg.leafMax / 2 ≤ nk.length + 1) (hnk_max : nk.length + 1 ≤ cfg.leafMax) :
    WF cfg 0 (cfg.leafMax / 2) loc (some ((sk.getD (sk.length - 1) (0, 0)).1))
      (.leaf sk.dropLast) ∧
    WF cfg 0 (cfg.leafMax / 2) (some ((sk.getD (sk.length - 1) (0, 0)).1)) hic
      (.leaf (sk.getD (sk.length - 1) (0, 0) :: nk)) ∧
    sk.dropLast ++ (sk.getD (sk.length - 1) (0, 0) :: nk) = sk ++ nk := by
  obtain ⟨hA0, hA1, hA2, hA3⟩ := hL
  obtain ⟨hB1, hB2, hB3⟩ := hR
  have hmovedmem : sk.getD (sk.length - 1) (0, 0) ∈ sk := by
    have := getD_mem_drop (0, 0) (Nat.zero_le (sk.length - 1))
      (show sk.length - 1 < sk.length from by omega)
    rw [List.drop_zero] at this
    exact this
  have hmovedlt : (sk.getD (sk.length - 1) (0, 0)).1 < sepK :=
    (hA3 _ hmovedmem).2 sepK rfl
  have hnkge : ∀ q ∈ nk, sepK ≤ q.1 := fun q hq => (hB3 q hq).1 sepK rfl
  refine ⟨⟨?_, ?_, ?_, ?_⟩, ⟨?_, ?_, ?_, ?_⟩, ?_⟩
  · rw [List.length_dropLast]
    omega
  · rw [List.length_dropLast]
    omega
  · rw [List.dropLast_eq_take, List.map_take]
    exact List.Pairwise.sublist (List.take_sublist _ _) hA2
  · intro p hp
    rw [List.dropLast_eq_take] at hp
    obtain ⟨m, hm1, hm2, hget⟩ := mem_take_idx (0, 0) hp
    refine ⟨(hA3 p (List.mem_of_mem_take hp)).1, ?_⟩
    intro b hb
    have := pairwise_getD_lt hA2 (show m < sk.length - 1 from hm1)
      (by rw [List.length_map]; omega)
    rw [getD_map_fst sk m (by omega) 0 (0, 0),
      getD_map_fst sk (sk.length - 1) (by omega) 0 (0, 0), hget] at this
    rw [← Option.some.inj hb]
    exact this
  · rw [List.length_cons]
    omega
  · rw [List.length_cons]
    omega
  · rw [show (sk.getD (sk.length - 1) (0, 0) :: nk).map Prod.fst =
      (sk.getD (sk.length - 1) (0, 0)).1 :: nk.map Prod.fst from rfl]
    refine List.pairwise_cons.2 ⟨?_, hB2⟩
    intro x hx
    obtain ⟨q, hq, rfl⟩ := List.mem_map.1 hx
    have := hnkge q hq
    omega
  · intro p hp
    rcases List.mem_cons.1 hp with rfl | hp1
    · refine ⟨fun a ha => le_of_eq (Option.some.inj ha).symm, ?_⟩
      intro b hb
      have := hsep_hi b hb
      omega
    · refine ⟨?_, (hB3 p hp1).2⟩
      intro a ha
      have := hnkge p hp1
      rw [← Option.some.inj ha]
      omega
  · conv_lhs => rw [show sk.getD (sk.length - 1) (0, 0) :: nk =
      [sk.getD (sk.length - 1) (0, 0)] ++ nk from rfl]
    rw [← List.append_assoc, dropLast_append_getD sk (0, 0) (by omega)]

/-- `MoveFirstToEndOf` on internal pages: the sibling's slot-0 entry
(whose key is the sibling's parent separator, by the invariant) moves to
the end of the node; the new separator is the sibling's new slot-0 key. -/
theorem int_moveFirst (cfg : BTConfig) (h : Nat) (loc hic : Option Int) (sepK : Int)
    (ne se : List (Int × BNode))
    (hL : AWF cfg (h + 1) loc (some sepK) (.internal ne))
    (hR : WF cfg (h + 1) (cfg.intMax / 2) (some sepK) hic (.internal se))
    (hse3 : 3 ≤ se.length) (hse' : cfg.intMax / 2 + 1 ≤ se.length)
    (hne_lb : cfg.intMax / 2 ≤ ne.length + 1) (hne_max : ne.length + 1 ≤ cfg.intMax) :
    WF cfg (h + 1) (cfg.intMax / 2) loc (some (((se.drop 1).getD 0 (0, default)).1))
      (.internal (ne ++ [se.getD 0 (0, default)])) ∧
    WF cfg (h + 1) (cfg.intMax / 2) (some (((se.drop 1).getD 0 (0, default)).1)) hic
      (.internal (se.drop 1)) ∧
    toLL (ne ++ [se.getD 0 (0, default)]) ++ toLL (se.drop 1) = toLL ne ++ toLL se := by
  obtain ⟨hA1, hA2, hA3, hA4⟩ := hL
  obtain ⟨hB1, hB2, hB3, hB4, hB5⟩ := hR
  have hd0 : se.getD 0 (0, default) = se.getD 0 default := rfl
  have hse0 : se[0]? = some (se.getD 0 default) := getElem?_getD se 0 (by omega)
  have hkey0 : (se.getD 0 default).1 = sepK := by
    have := hB4 sepK rfl
    rw [hse0] at this
    exact Option.some.inj this
  have hse1 : se[1]? = some (se.getD 1 default) := getElem?_getD se 1 (by omega)
  have hnewk : ((se.drop 1).getD 0 (0, default)).1 = (se.getD 1 default).1 := by
    rw [getD_drop_zero]
    rfl
  refine ⟨⟨?_, ?_, ?_, ?_, ?_⟩, ⟨?_, ?_, ?_, ?_, ?_⟩, ?_⟩
  · rw [List.length_append, List.length_cons, List.length_nil]
    omega
  · rw [List.length_append, List.length_cons, List.length_nil]
    omega
  · rw [List.length_append, List.length_cons, List.length_nil]
    omega
  · intro a ha
    rw [List.getElem?_append_left (by omega)]
    exact hA3 a ha
  · intro j kj cj hcj
    rw [getElem?_append_cons ne [] (se.getD 0 (0, default)) j] at hcj
    by_cases hj1 : j < ne.length
    · rw [if_pos hj1] at hcj
      have hwj := hA4 j kj cj hcj
      have hse : sepHi (ne ++ [se.getD 0 (0, default)]) (some (((se.drop 1).getD 0
          (0, default)).1)) j = sepHi ne (some sepK) j := by
        by_cases hj2 : j + 1 < ne.length
        · have he : ne[j + 1]? = some (ne.getD (j + 1) default) :=
            getElem?_getD ne (j + 1) hj2
          have he' : (ne ++ [se.getD 0 (0, default)])[j + 1]? =
              some (ne.getD (j + 1) default) := by
            rw [getElem?_append_cons ne [] (se.getD 0 (0, default)) (j + 1), if_pos hj2]
            exact he
          rw [sepHi_some he', sepHi_some he]
        · have hj2' : j + 1 = ne.length := by omega
          have he' : (ne ++ [se.getD 0 (0, default)])[j + 1]? =
              some (se.getD 0 (0, default)) := by
            rw [getElem?_append_cons ne [] (se.getD 0 (0, default)) (j + 1),
              if_neg (by omega), if_pos hj2']
          rw [sepHi_some he', sepHi, List.getElem?_eq_none (by omega), hd0, hkey0]
      rw [hse]
      exact hwj
    · by_cases hj2 : j = ne.length
      · rw [if_neg hj1, if_pos hj2] at hcj
        have h1 : kj = (se.getD 0 (0, default)).1 :=
          (congrArg Prod.fst (Option.some.inj hcj)).symm
        have h2 : cj = (se.getD 0 (0, default)).2 :=
          (congrArg Prod.snd (Option.some.inj hcj)).symm
        have hwj := hB5 0 (se.getD 0 default).1 (se.getD 0 default).2
          (by rw [hse0])
        rw [if_pos rfl] at hwj
        have hseR : sepHi se hic 0 = some ((se.getD 1 default).1) := sepHi_some hse1
        rw [hseR] at hwj
        have hse : sepHi (ne ++ [se.getD 0 (0, default)]) (some (((se.drop 1).getD 0
            (0, default)).1)) j = some (((se.drop 1).getD 0 (0, default)).1) := by
          rw [sepHi, getElem?_append_cons ne [] (se.getD 0 (0, default)) (j + 1),
            if_neg (by omega), if_neg (by omega)]
          simp
        rw [hse, if_neg (by omega), h1, h2, hd0, hnewk, hkey0]
        exact hwj
      · rw [if_neg hj1, if_neg hj2] at hcj
        rw [List.getElem?_nil] at hcj
        exact absurd hcj (by simp)
  · rw [List.length_drop]
    omega
  · rw [List.length_drop]
    omega
  · rw [List.length_drop]
    omega
  · intro a ha
    have h0 : (se.drop 1)[0]? = se[1]? := by
      rw [List.getElem?_drop, Nat.add_zero]
    rw [h0, hse1, ← Option.some.inj ha, hnewk]
    rfl
  · intro j kj cj hcj
    have hcj' : se[j + 1]? = some (kj, cj) := by
      rw [← hcj, List.getElem?_drop]
      congr 1
      omega
    have hwj := hB5 (j + 1) kj cj hcj'
    rw [if_neg (by omega)] at hwj
    have hse : sepHi (se.drop 1) hic j = sepHi se hic (j + 1) := by
      refine sepHi_congr ?_
      rw [List.getElem?_drop]
      congr 2
      omega
    rw [hse]
    by_cases hj0 : j = 0
    · subst hj0
      rw [if_pos rfl]
      have hkj : kj = ((se.drop 1).getD 0 (0, default)).1 := by
        rw [hnewk]
        rw [show (0 : Nat) + 1 = 1 from rfl] at hcj'
        rw [hse1] at hcj'
        exact (congrArg Prod.fst (Option.some.inj hcj')).symm
      rw [← hkj]
      exact hwj
    · rw [if_neg hj0]
      exact hwj
  · rw [toLL_mid1 ne [] (se.getD 0 (0, default))]
    conv_rhs => rw [es_decomp se 0 (by omega), List.take_zero, List.nil_append, toLL_cons]
    rw [show toLL ([] : List (Int × BNode)) = [] from rfl, List.append_nil,
      List.append_assoc]
    rfl

/-- `MoveLastToFrontOf` on internal pages: the sibling's last entry moves
to the front of the node (whose stale slot-0 key is its parent separator,
by the invariant); the new separator is the moved key. -/
theorem int_moveLast (cfg : BTConfig) (h : Nat) (loc hic : Option Int) (sepK : Int)
    (se ne : List (Int × BNode))
    (hL : WF cfg (h + 1) (cfg.intMax / 2) loc (some sepK) (.internal se))
    (hR : AWF cfg (h + 1) (some sepK) hic (.internal ne))
    (hse3 : 3 ≤ se.length) (hse' : cfg.intMax / 2 + 1 ≤ se.length)
    (hne_lb : cfg.intMax / 2 ≤ ne.length + 1) (hne_max : ne.length + 1 ≤ cfg.intMax) :
    WF cfg (h + 1) (cfg.intMax / 2) loc (some ((se.getD (se.length - 1) (0, default)).1))
      (.internal se.dropLast) ∧
    WF cfg (h + 1) (cfg.intMax / 2) (some ((se.getD (se.length - 1) (0, default)).1)) hic
      (.internal (se.getD (se.length - 1) (0, default) :: ne)) ∧
    toLL se.dropLast ++ toLL (se.getD (se.length - 1) (0, default) :: ne) =
      toLL se ++ toLL ne := by
  obtain ⟨hA1, hA2, hA3, hA4, hA5⟩ := hL
  obtain ⟨hB1, hB2, hB3, hB4⟩ := hR
  have hdm : se.getD (se.length - 1) (0, default) = se.getD (se.length - 1) default := rfl
  have hmoved : se[se.length - 1]? = some (se.getD (se.length - 1) default) :=
    getElem?_getD se (se.length - 1) (by omega)
  have hne0 : ne[0]? = some (ne.getD 0 default) := getElem?_getD ne 0 (by omega)
  have hkey0 : (ne.getD 0 default).1 = sepK := by
    have := hB3 sepK rfl
    rw [hne0] at this
    exact Option.some.inj this
  refine ⟨⟨?_, ?_, ?_, ?_, ?_⟩, ⟨?_, ?_, ?_, ?_, ?_⟩, ?_⟩
  · rw [List.length_dropLast]
    omega
  · rw [List.length_dropLast]
    omega
  · rw [List.length_dropLast]
    omega
  · intro a ha
    rw [List.dropLast_eq_take, List.getElem?_take_of_lt (by omega)]
    exact hA4 a ha
  · intro j kj cj hcj
    rw [List.dropLast_eq_take] at hcj
    have hjlt : j < se.length - 1 := by
      by_contra hcon
      rw [List.getElem?_eq_none (by rw [List.length_take]; omega)] at hcj
      exact absurd hcj (by simp)
    have hcj' : se[j]? = some (kj, cj) := by
      rw [← List.getElem?_take_of_lt hjlt]
      exact hcj
    have hwj := hA5 j kj cj hcj'
    have hse : sepHi (se.dropLast) (some ((se.getD (se.length - 1) (0, default)).1)) j =
        sepHi se (some sepK) j := by
      rw [List.dropLast_eq_take]
      by_cases hj2 : j + 1 < se.length - 1
      · have he : se[j + 1]? = some (se.getD (j + 1) default) :=
          getElem?_getD se (j + 1) (by omega)
        have he' : (se.take (se.length - 1))[j + 1]? = some (se.getD (j + 1) default) := by
          rw [List.getElem?_take_of_lt hj2]
          exact he
        rw [sepHi_some he', sepHi_some he]
      · have hj2' : j + 1 = se.length - 1 := by omega
        have he' : se[j + 1]? = some (se.getD (se.length - 1) default) := by
          rw [hj2']
          exact hmoved
        rw [sepHi, List.getElem?_eq_none (by rw [List.length_take]; omega),
          sepHi_some he', hdm]
    rw [hse]
    exact hwj
  · rw [List.length_cons]
    omega
  · rw [List.length_cons]
    omega
  · rw [List.length_cons]
    omega
  · intro a ha
    rw [List.getElem?_cons_zero, ← Option.some.inj ha]
    rfl
  · intro j kj cj hcj
    cases j with
    | zero =>
      rw [List.getElem?_cons_zero] at hcj
      have h1 : kj = (se.getD (se.length - 1) (0, default)).1 :=
        (congrArg Prod.fst (Option.some.inj hcj)).symm
      have h2 : cj = (se.getD (se.length - 1) (0, default)).2 :=
        (congrArg Prod.snd (Option.some.inj hcj)).symm
      have hwj := hA5 (se.length - 1) (se.getD (se.length - 1) default).1
        (se.getD (se.length - 1) default).2 (by rw [hmoved])
      rw [if_neg (by omega)] at hwj
      have hseL : sepHi se (some sepK) (se.length - 1) = some sepK := by
        rw [sepHi, List.getElem?_eq_none (by omega)]
      rw [hseL] at hwj
      have hnext : (se.getD (se.length - 1) (0, default) :: ne)[0 + 1]? =
          some (ne.getD 0 default) := by
        rw [List.getElem?_cons_succ]
        exact hne0
      have hse : sepHi (se.getD (se.length - 1) (0, default) :: ne) hic 0 =
          some sepK := by
        rw [sepHi_some hnext, hkey0]
      rw [if_pos rfl, hse, h2, hdm]
      exact hwj
    | succ j =>
      rw [List.getElem?_cons_succ] at hcj
      have hwj := hB4 j kj cj hcj
      have hse : sepHi (se.getD (se.length - 1) (0, default) :: ne) hic (j + 1) =
          sepHi ne hic j := by
        refine sepHi_congr ?_
        rw [List.getElem?_cons_succ]
      rw [hse, if_neg (by omega)]
      by_cases hj0 : j = 0
      · subst hj0
        rw [if_pos rfl] at hwj
        have hkj : kj = sepK := by
          rw [hne0] at hcj
          rw [← hkey0]
          exact (congrArg Prod.fst (Option.some.inj hcj)).symm
        rw [hkj]
        exact hwj
      · rw [if_neg hj0] at hwj
        exact hwj
  · rw [toLL_cons, ← List.append_assoc]
    congr 1
    conv_rhs => rw [← dropLast_append_getD se (0, default) (by omega), toLL_append,
      toLL_cons]
    rw [show toLL ([] : List (Int × BNode)) = [] from rfl, List.append_nil]

theorem drop_decomp {α : Type} [Inhabited α] (l : List α) (m : Nat) (h : m < l.length) :
    l.drop m = l.getD m default :: l.drop (m + 1) := by
  rw [List.drop_eq_getElem_cons h, List.getD_eq_getElem?_getD, List.getElem?_eq_getElem h]
  rfl

/-- Flattening of an entry list, split at two adjacent indices. -/
theorem toLL_decomp2 (es : List (Int × BNode)) (m : Nat) (h : m + 1 < es.length) :
    toLL es = toLL (es.take m) ++ toL ((es.getD m default).2) ++
      toL ((es.getD (m + 1) default).2) ++ toLL (es.drop (m + 2)) := by
  rw [toLL_decomp es m (by omega), drop_decomp es (m + 1) (by omega), toLL_cons,
    List.append_assoc, List.append_assoc, List.append_assoc]

theorem length_replacePair {α : Type} (es : List α) (x y : α) (m : Nat)
    (h : m + 1 < es.length) :
    (es.take m ++ x :: y :: es.drop (m + 2)).length = es.length := by
  rw [List.length_append, List.length_take, List.length_cons, List.length_cons,
    List.length_drop]
  omega

theorem AWF_isLeaf {cfg : BTConfig} {h : Nat} {lo hi : Option Int} {n : BNode}
    (ha : AWF cfg h lo hi n) : n.isLeaf = decide (h = 0) := by
  cases h with
  | zero =>
    cases n with
    | leaf kvs => rfl
    | internal es => exact absurd ha (by simp [AWF])
  | succ h =>
    cases n with
    | leaf kvs => exact absurd ha (by simp [AWF])
    | internal es => rfl

theorem nodeMaxSize_congr (cfg : BTConfig) {n n' : BNode} (h : n'.isLeaf = n.isLeaf) :
    nodeMaxSize cfg n' = nodeMaxSize cfg n := by
  cases n <;> cases n' <;> first | rfl | simp [BNode.isLeaf] at h

/-- `BPlusTree::CoalesceOrRedistribute` specification: on a parent entry
list whose child at `i` just under-flowed (its size is one below or at the
non-root minimum) while every other child is well-formed, the sibling is
the left neighbour (the right one for the leftmost child); the two are
merged exactly when their sizes fit in one page, else one entry moves from
the sibling to the child; either way the parent's entries keep their
contents, keep or lose exactly one slot, and satisfy the `WF` clauses
again. -/
theorem coalesce_spec (cfg : BTConfig) (hok : cfg.ok) (h : Nat) (lo hi : Option Int)
    (es : List (Int × BNode)) (i : Nat)
    (hlen2 : 2 ≤ es.length) (hci : i < es.length)
    (hself : ∀ a, lo = some a → (es[0]?).map Prod.fst = some a)
    (hch : ∀ (j : Nat) (kj : Int) (cj : BNode), es[j]? = some (kj, cj) → j ≠ i →
      WF cfg h (childLB cfg cj) (if j = 0 then lo else some kj) (sepHi es hi j) cj)
    (hA : AWF cfg h (if i = 0 then lo else some ((es.getD i default).1))
      (sepHi es hi i) ((es.getD i default).2))
    (hsz : childLB cfg ((es.getD i default).2) ≤ ((es.getD i default).2).size + 1)
    (hunder : ((es.getD i default).2).size ≤ childLB cfg ((es.getD i default).2))
    (hkeylo : ∀ a, lo = some a → ∀ j : Nat, 1 ≤ j → j < es.length →
      a ≤ (es.getD j default).1)
    (hkeyhi : ∀ b, hi = some b → ∀ j : Nat, 1 ≤ j → j < es.length →
      (es.getD j default).1 ≤ b)
    (hsorted : ∀ j1 j2 : Nat, 1 ≤ j1 → j1 < j2 → j2 < es.length →
      (es.getD j1 default).1 < (es.getD j2 default).1) :
    ((coalesceOrRedistribute cfg es i).2 = true ↔
      ((es.getD i default).2).size +
        ((es.getD (if i = 0 then 1 else i - 1) default).2).size ≤
        nodeMaxSize cfg ((es.getD i default).2)) ∧
    (∀ p : Int × Int, p ∈ toLL (coalesceOrRedistribute cfg es i).1 ↔ p ∈ toLL es) ∧
    ((coalesceOrRedistribute cfg es i).2 = true →
      (coalesceOrRedistribute cfg es i).1.length + 1 = es.length) ∧
    ((coalesceOrRedistribute cfg es i).2 = false →
      (coalesceOrRedistribute cfg es i).1.length = es.length) ∧
    (∀ a, lo = some a → ((coalesceOrRedistribute cfg es i).1[0]?).map Prod.fst = some a) ∧
    (∀ (j : Nat) (kj : Int) (cj : BNode),
      (coalesceOrRedistribute cfg es i).1[j]? = some (kj, cj) →
      WF cfg h (childLB cfg cj) (if j = 0 then lo else some kj)
        (sepHi (coalesceOrRedistribute cfg es i).1 hi j) cj) := by
  have hok1 : 2 ≤ cfg.leafMax := hok.1
  have hok2 : 3 ≤ cfg.intMax := hok.2
  by_cases hi0 : i = 0
  · subst hi0
    have h1lt : 1 < es.length := by omega
    have he1 : es[1]? = some (es.getD 1 default) := getElem?_getD es 1 h1lt
    have hsib := hch 1 (es.getD 1 default).1 (es.getD 1 default).2 (by rw [he1]) (by omega)
    rw [if_neg (by omega)] at hsib
    have hA' : AWF cfg h lo (some ((es.getD 1 default).1)) ((es.getD 0 default).2) := by
      have h0 := hA
      rw [if_pos rfl] at h0
      rw [show sepHi es hi 0 = some ((es.getD 1 default).1) from sepHi_some he1] at h0
      exact h0
    have hsep_lo : ∀ a, lo = some a → a ≤ (es.getD 1 default).1 := fun a ha =>
      hkeylo a ha 1 (by omega) (by omega)
    have hsep_hi : ∀ b, sepHi es hi 1 = some b → (es.getD 1 default).1 ≤ b := by
      intro b hb
      rw [sepHi] at hb
      rcases he2 : es[1 + 1]? with - | e2
      · rw [he2] at hb
        exact hkeyhi b hb 1 (by omega) (by omega)
      · rw [he2] at hb
        have h2lt : 1 + 1 < es.length := by
          by_contra hcon
          rw [List.getElem?_eq_none (by omega)] at he2
          exact absurd he2 (by simp)
        rw [getElem?_getD es (1 + 1) h2lt] at he2
        have he2' : e2 = es.getD (1 + 1) default := (Option.some.inj he2).symm
        have hb' : some e2.1 = some b := hb
        have hlt := hsorted 1 (1 + 1) (by omega) (by omega) (by omega)
        rw [← Option.some.inj hb', he2']
        omega
    by_cases hM : ((es.getD 0 default).2).size + ((es.getD 1 default).2).size ≤
        nodeMaxSize cfg ((es.getD 0 default).2)
    · -- Coalesce: merge the right sibling into the node
      have hMif : ((es.getD 0 default).2).size +
          ((es.getD (if (0 : Nat) = 0 then 1 else 0 - 1) default).2).size ≤
          nodeMaxSize cfg ((es.getD 0 default).2) := by
        rw [show (if (0 : Nat) = 0 then 1 else 0 - 1) = 1 from rfl]
        exact hM
      have hfix : coalesceOrRedistribute cfg es 0 =
          ((es.set 0 ((es.getD 0 default).1,
            mergeNodes ((es.getD 0 default).2) ((es.getD 1 default).2)
              ((es.getD 1 default).1))).eraseIdx 1, true) := by
        rw [coalesceOrRedistribute]
        rw [if_pos hMif]
        try rfl
      have hcanon := set_eraseIdx_eq es 0 ((es.getD 0 default).1,
        mergeNodes ((es.getD 0 default).2) ((es.getD 1 default).2) ((es.getD 1 default).1))
        (by omega)
      have hfix2 : coalesceOrRedistribute cfg es 0 =
          (es.take 0 ++ ((es.getD 0 default).1,
            mergeNodes ((es.getD 0 default).2) ((es.getD 1 default).2)
              ((es.getD 1 default).1)) :: es.drop (0 + 2), true) := by
        rw [hfix, ← hcanon]
      have hlb2 : childLB cfg ((es.getD 0 default).2) ≤
          ((es.getD 0 default).2).size + ((es.getD 1 default).2).size := by
        have hs1 := WF_lb_le_size hsib
        have hclbeq : childLB cfg ((es.getD 1 default).2) =
            childLB cfg ((es.getD 0 default).2) :=
          childLB_congr cfg (by rw [AWF_isLeaf (AWF_of_WF hsib), AWF_isLeaf hA'])
        have h1 := one_le_childLB hok ((es.getD 0 default).2)
        omega
      obtain ⟨hmgWF, hmgL, hmgS, hmgK⟩ := mergeNodes_WF cfg h lo (sepHi es hi 1)
        ((es.getD 1 default).1) ((es.getD 0 default).2) ((es.getD 1 default).2)
        hA' (AWF_of_WF hsib) hsep_lo hsep_hi hM hlb2
      have hMw : WF cfg h (childLB cfg (mergeNodes ((es.getD 0 default).2)
          ((es.getD 1 default).2) ((es.getD 1 default).1)))
          (if (0 : Nat) = 0 then lo else some ((es.getD 0 default).1))
          (sepHi es hi (0 + 1))
          (mergeNodes ((es.getD 0 default).2) ((es.getD 1 default).2)
            ((es.getD 1 default).1)) := by
        rw [childLB_congr cfg hmgK]
        exact hmgWF
      obtain ⟨hents1, hents2⟩ := ents_mergePair cfg h lo hi es 0 (by omega) hself
        (fun j kj cj hcj hj0 hj1 => hch j kj cj hcj hj0) _ hMw
      have hmem : ∀ p : Int × Int, p ∈ toLL (es.take 0 ++ ((es.getD 0 default).1,
          mergeNodes ((es.getD 0 default).2) ((es.getD 1 default).2)
            ((es.getD 1 default).1)) :: es.drop (0 + 2)) ↔ p ∈ toLL es := by
        intro p
        rw [toLL_mid1]
        rw [show ((es.getD 0 default).1, mergeNodes ((es.getD 0 default).2)
          ((es.getD 1 default).2) ((es.getD 1 default).1)).2 =
          mergeNodes ((es.getD 0 default).2) ((es.getD 1 default).2)
            ((es.getD 1 default).1) from rfl]
        rw [hmgL, toLL_decomp2 es 0 (by omega)]
        simp only [List.mem_append, List.append_assoc]
        try tauto
      refine ⟨?_, ?_, ?_, ?_, ?_, ?_⟩
      · rw [hfix2]
        exact iff_of_true rfl hMif
      · intro p
        rw [hfix2]
        exact hmem p
      · intro _
        rw [hfix2]
        exact length_merge2 es _ 0 (by omega)
      · intro hfl
        rw [hfix2] at hfl
        simp at hfl
      · intro a ha
        rw [hfix2]
        exact hents1 a ha
      · intro j kj cj hcj
        rw [hfix2] at hcj ⊢
        exact hents2 j kj cj hcj
    · -- Redistribute: borrow the right sibling's first entry
      have hMifn : ¬(((es.getD 0 default).2).size +
          ((es.getD (if (0 : Nat) = 0 then 1 else 0 - 1) default).2).size ≤
          nodeMaxSize cfg ((es.getD 0 default).2)) := by
        rw [show (if (0 : Nat) = 0 then 1 else 0 - 1) = 1 from rfl]
        exact hM
      cases h with
      | zero =>
        rcases hnd : (es.getD 0 default).2 with nk | nn
        · rcases hsd : (es.getD 1 default).2 with sk | sn
          · rw [hnd] at hA' hsz hunder
            rw [hsd] at hsib
            rw [hnd, hsd] at hM
            simp only [BNode.size, nodeMaxSize, childLB] at hM hsz hunder
            obtain ⟨hmv1, hmv2, hmv3⟩ := leaf_moveFirst cfg hok lo (sepHi es hi 1)
              ((es.getD 1 default).1) nk sk hA' hsib hsep_lo (by omega) (by omega)
              (by omega) (by omega)
            have hfix : coalesceOrRedistribute cfg es 0 =
                ((es.set 0 ((es.getD 0 default).1,
                  BNode.leaf (nk ++ [sk.getD 0 (0, 0)]))).set 1
                  (((sk.drop 1).getD 0 (0, 0)).1, BNode.leaf (sk.drop 1)), false) := by
              rw [coalesceOrRedistribute]
              rw [if_neg hMifn, if_pos rfl, hnd,
                show (if (0 : Nat) = 0 then 1 else 0 - 1) = 1 from rfl, hsd]
              try rfl
            have hcanon := set_set_eq es 0 ((es.getD 0 default).1,
              BNode.leaf (nk ++ [sk.getD 0 (0, 0)]))
              (((sk.drop 1).getD 0 (0, 0)).1, BNode.leaf (sk.drop 1)) (by omega)
            have hfix2 : coalesceOrRedistribute cfg es 0 =
                (es.take 0 ++ ((es.getD 0 default).1,
                  BNode.leaf (nk ++ [sk.getD 0 (0, 0)])) ::
                  (((sk.drop 1).getD 0 (0, 0)).1, BNode.leaf (sk.drop 1)) ::
                  es.drop (0 + 2), false) := by
              rw [hfix, ← hcanon]
            obtain ⟨hents1, hents2⟩ := ents_replacePair cfg 0 lo hi es 0 (by omega) hself
              (fun j kj cj hcj hj0 hj1 => hch j kj cj hcj hj0)
              (BNode.leaf (nk ++ [sk.getD 0 (0, 0)])) (BNode.leaf (sk.drop 1))
              (((sk.drop 1).getD 0 (0, 0)).1) hmv1 hmv2
            have hmem : ∀ p : Int × Int, p ∈ toLL (es.take 0 ++ ((es.getD 0 default).1,
                BNode.leaf (nk ++ [sk.getD 0 (0, 0)])) ::
                (((sk.drop 1).getD 0 (0, 0)).1, BNode.leaf (sk.drop 1)) ::
                es.drop (0 + 2)) ↔ p ∈ toLL es := by
              intro p
              rw [toLL_mid2, toLL_decomp2 es 0 (by omega), hnd, hsd]
              rw [show ((es.getD 0 default).1,
                BNode.leaf (nk ++ [sk.getD 0 (0, 0)])).2 =
                BNode.leaf (nk ++ [sk.getD 0 (0, 0)]) from rfl]
              rw [show (((sk.drop 1).getD 0 (0, 0)).1, BNode.leaf (sk.drop 1)).2 =
                BNode.leaf (sk.drop 1) from rfl]
              rw [show toL (BNode.leaf (nk ++ [sk.getD 0 (0, 0)])) =
                nk ++ [sk.getD 0 (0, 0)] from rfl]
              rw [show toL (BNode.leaf (sk.drop 1)) = sk.drop 1 from rfl,
                show toL (BNode.leaf nk) = nk from rfl,
                show toL (BNode.leaf sk) = sk from rfl]
              have hq : p ∈ (nk ++ [sk.getD 0 (0, 0)]) ++ sk.drop 1 ↔ p ∈ nk ++ sk := by
                rw [hmv3]
              simp only [List.mem_append] at hq ⊢
              try tauto
            refine ⟨?_, ?_, ?_, ?_, ?_, ?_⟩
            · rw [hfix2]
              refine iff_of_false (by simp) ?_
              rw [show (if (0 : Nat) = 0 then 1 else 0 - 1) = 1 from rfl, hsd]
              simp only [BNode.size, nodeMaxSize]
              omega
            · intro p
              rw [hfix2]
              exact hmem p
            · intro hfl
              rw [hfix2] at hfl
              simp at hfl
            · intro _
              rw [hfix2]
              exact length_replacePair es _ _ 0 (by omega)
            · intro a ha
              rw [hfix2]
              exact hents1 a ha
            · intro j kj cj hcj
              rw [hfix2] at hcj ⊢
              exact hents2 j kj cj hcj
          · rw [hsd] at hsib
            exact absurd hsib (by simp [WF])
        · rw [hnd] at hA'
          exact absurd hA' (by simp [AWF])
      | succ h' =>
        rcases hnd : (es.getD 0 default).2 with nk | nn
        · rw [hnd] at hA'
          exact absurd hA' (by simp [AWF])
        · rcases hsd : (es.getD 1 default).2 with sk | sn
          · rw [hsd] at hsib
            exact absurd hsib (by simp [WF])
          · rw [hnd] at hA' hsz hunder
            rw [hsd] at hsib
            rw [hnd, hsd] at hM
            simp only [BNode.size, nodeMaxSize, childLB] at hM hsz hunder
            obtain ⟨hmv1, hmv2, hmv3⟩ := int_moveFirst cfg h' lo (sepHi es hi 1)
              ((es.getD 1 default).1) nn sn hA' hsib (by omega) (by omega)
              (by omega) (by omega)
            have hfix : coalesceOrRedistribute cfg es 0 =
                ((es.set 0 ((es.getD 0 default).1,
                  BNode.internal (nn ++ [sn.getD 0 (0, default)]))).set 1
                  (((sn.drop 1).getD 0 (0, default)).1,
                   BNode.internal (sn.drop 1)), false) := by
              rw [coalesceOrRedistribute]
              rw [if_neg hMifn, if_pos rfl, hnd,
                show (if (0 : Nat) = 0 then 1 else 0 - 1) = 1 from rfl, hsd]
              try rfl
            have hcanon := set_set_eq es 0 ((es.getD 0 default).1,
              BNode.internal (nn ++ [sn.getD 0 (0, default)]))
              (((sn.drop 1).getD 0 (0, default)).1, BNode.internal (sn.drop 1)) (by omega)
            have hfix2 : coalesceOrRedistribute cfg es 0 =
                (es.take 0 ++ ((es.getD 0 default).1,
                  BNode.internal (nn ++ [sn.getD 0 (0, default)])) ::
                  (((sn.drop 1).getD 0 (0, default)).1, BNode.internal (sn.drop 1)) ::
                  es.drop (0 + 2), false) := by
              rw [hfix, ← hcanon]
            obtain ⟨hents1, hents2⟩ := ents_replacePair cfg (h' + 1) lo hi es 0 (by omega)
              hself (fun j kj cj hcj hj0 hj1 => hch j kj cj hcj hj0)
              (BNode.internal (nn ++ [sn.getD 0 (0, default)])) (BNode.internal (sn.drop 1))
              (((sn.drop 1).getD 0 (0, default)).1) hmv1 hmv2
            have hmem : ∀ p : Int × Int, p ∈ toLL (es.take 0 ++ ((es.getD 0 default).1,
                BNode.internal (nn ++ [sn.getD 0 (0, default)])) ::
                (((sn.drop 1).getD 0 (0, default)).1, BNode.internal (sn.drop 1)) ::
                es.drop (0 + 2)) ↔ p ∈ toLL es := by
              intro p
              rw [toLL_mid2, toLL_decomp2 es 0 (by omega), hnd, hsd]
              rw [show ((es.getD 0 default).1,
                BNode.internal (nn ++ [sn.getD 0 (0, default)])).2 =
                BNode.internal (nn ++ [sn.getD 0 (0, default)]) from rfl]
              rw [show (((sn.drop 1).getD 0 (0, default)).1,
                BNode.internal (sn.drop 1)).2 = BNode.internal (sn.drop 1) from rfl]
              rw [show toL (BNode.internal (nn ++ [sn.getD 0 (0, default)])) =
                toLL (nn ++ [sn.getD 0 (0, default)]) from rfl]
              rw [show toL (BNode.internal (sn.drop 1)) = toLL (sn.drop 1) from rfl,
                show toL (BNode.internal nn) = toLL nn from rfl,
                show toL (BNode.internal sn) = toLL sn from rfl]
              rw [List.append_assoc (toLL (List.take 0 es))
                (toLL (nn ++ [sn.getD 0 (0, default)])) (toLL (sn.drop 1)), hmv3,
                ← List.append_assoc (toLL (List.take 0 es)) (toLL nn) (toLL sn)]
            refine ⟨?_, ?_, ?_, ?_, ?_, ?_⟩
            · rw [hfix2]
              refine iff_of_false (by simp) ?_
              rw [show (if (0 : Nat) = 0 then 1 else 0 - 1) = 1 from rfl, hsd]
              simp only [BNode.size, nodeMaxSize]
              omega
            · intro p
              rw [hfix2]
              exact hmem p
            · intro hfl
              rw [hfix2] at hfl
              simp at hfl
            · intro _
              rw [hfix2]
              exact length_replacePair es _ _ 0 (by omega)
            · intro a ha
              rw [hfix2]
              exact hents1 a ha
            · intro j kj cj hcj
              rw [hfix2] at hcj ⊢
              exact hents2 j kj cj hcj
  · -- the sibling is the left neighbour
    have hsucc : i - 1 + 1 = i := by omega
    have hif : (if i = 0 then 1 else i - 1) = i - 1 := if_neg hi0
    have him1 : i - 1 < es.length := by omega
    have heI : es[i - 1 + 1]? = some (es.getD i default) := by
      rw [hsucc]
      exact getElem?_getD es i hci
    have hsib := hch (i - 1) (es.getD (i - 1) default).1 (es.getD (i - 1) default).2
      (by rw [getElem?_getD es (i - 1) him1]) (by omega)
    rw [show sepHi es hi (i - 1) = some ((es.getD i default).1) from sepHi_some heI] at hsib
    have hA' : AWF cfg h (some ((es.getD i default).1)) (sepHi es hi i)
        ((es.getD i default).2) := by
      have h0 := hA
      rw [if_neg hi0] at h0
      exact h0
    have hsep_hi : ∀ b, sepHi es hi i = some b → (es.getD i default).1 ≤ b := by
      intro b hb
      rw [sepHi] at hb
      rcases he2 : es[i + 1]? with - | e2
      · rw [he2] at hb
        exact hkeyhi b hb i (by omega) (by omega)
      · rw [he2] at hb
        have h2lt : i + 1 < es.length := by
          by_contra hcon
          rw [List.getElem?_eq_none (by omega)] at he2
          exact absurd he2 (by simp)
        rw [getElem?_getD es (i + 1) h2lt] at he2
        have he2' : e2 = es.getD (i + 1) default := (Option.some.inj he2).symm
        have hb' : some e2.1 = some b := hb
        have hlt := hsorted i (i + 1) (by omega) (by omega) (by omega)
        rw [← Option.some.inj hb', he2']
        omega
    have hsep_lo : ∀ a, (if i - 1 = 0 then lo else some ((es.getD (i - 1) default).1)) =
        some a → a ≤ (es.getD i default).1 := by
      intro a ha
      by_cases hm0 : i - 1 = 0
      · rw [if_pos hm0] at ha
        exact hkeylo a ha i (by omega) (by omega)
      · rw [if_neg hm0] at ha
        have := hsorted (i - 1) i (by omega) (by omega) (by omega)
        rw [← Option.some.inj ha]
        omega
    by_cases hM : ((es.getD i default).2).size + ((es.getD (i - 1) default).2).size ≤
        nodeMaxSize cfg ((es.getD i default).2)
    · -- Coalesce: merge the node into the left sibling
      have hMif : ((es.getD i default).2).size +
          ((es.getD (if i = 0 then 1 else i - 1) default).2).size ≤
          nodeMaxSize cfg ((es.getD i default).2) := by
        rw [hif]
        exact hM
      have hfix0 : coalesceOrRedistribute cfg es i =
          ((es.set (i - 1) ((es.getD (i - 1) default).1,
            mergeNodes ((es.getD (i - 1) default).2) ((es.getD i default).2)
              ((es.getD i default).1))).eraseIdx i, true) := by
        rw [coalesceOrRedistribute]
        rw [hif, if_pos hM,
          show min i (i - 1) = i - 1 from by omega, show max i (i - 1) = i from by omega]
      have hcanon := set_eraseIdx_eq es (i - 1) ((es.getD (i - 1) default).1,
        mergeNodes ((es.getD (i - 1) default).2) ((es.getD i default).2)
          ((es.getD i default).1)) (by omega)
      rw [hsucc] at hcanon
      have hfix2 : coalesceOrRedistribute cfg es i =
          (es.take (i - 1) ++ ((es.getD (i - 1) default).1,
            mergeNodes ((es.getD (i - 1) default).2) ((es.getD i default).2)
              ((es.getD i default).1)) :: es.drop (i - 1 + 2), true) := by
        rw [hfix0, ← hcanon]
      have hkindns : ((es.getD i default).2).isLeaf =
          ((es.getD (i - 1) default).2).isLeaf := by
        rw [AWF_isLeaf hA', AWF_isLeaf (AWF_of_WF hsib)]
      have hlb2 : childLB cfg ((es.getD (i - 1) default).2) ≤
          ((es.getD (i - 1) default).2).size + ((es.getD i default).2).size := by
        have hs1 := WF_lb_le_size hsib
        have h1 := one_le_childLB hok ((es.getD (i - 1) default).2)
        have hclbeq : childLB cfg ((es.getD i default).2) =
            childLB cfg ((es.getD (i - 1) default).2) := childLB_congr cfg hkindns
        omega
      have hszL : ((es.getD (i - 1) default).2).size + ((es.getD i default).2).size ≤
          nodeMaxSize cfg ((es.getD (i - 1) default).2) := by
        have := nodeMaxSize_congr cfg hkindns
        omega
      obtain ⟨hmgWF, hmgL, hmgS, hmgK⟩ := mergeNodes_WF cfg h
        (if i - 1 = 0 then lo else some ((es.getD (i - 1) default).1)) (sepHi es hi i)
        ((es.getD i default).1) ((es.getD (i - 1) default).2) ((es.getD i default).2)
        (AWF_of_WF hsib) hA' hsep_lo hsep_hi hszL hlb2
      have hMw : WF cfg h (childLB cfg (mergeNodes ((es.getD (i - 1) default).2)
          ((es.getD i default).2) ((es.getD i default).1)))
          (if i - 1 = 0 then lo else some ((es.getD (i - 1) default).1))
          (sepHi es hi (i - 1 + 1))
          (mergeNodes ((es.getD (i - 1) default).2) ((es.getD i default).2)
            ((es.getD i default).1)) := by
        rw [childLB_congr cfg hmgK, hsucc]
        exact hmgWF
      obtain ⟨hents1, hents2⟩ := ents_mergePair cfg h lo hi es (i - 1) (by omega) hself
        (fun j kj cj hcj hj0 hj1 => hch j kj cj hcj (by omega)) _ hMw
      have hmem : ∀ p : Int × Int, p ∈ toLL (es.take (i - 1) ++
          ((es.getD (i - 1) default).1,
            mergeNodes ((es.getD (i - 1) default).2) ((es.getD i default).2)
              ((es.getD i default).1)) :: es.drop (i - 1 + 2)) ↔ p ∈ toLL es := by
        intro p
        rw [toLL_mid1]
        rw [show ((es.getD (i - 1) default).1, mergeNodes ((es.getD (i - 1) default).2)
          ((es.getD i default).2) ((es.getD i default).1)).2 =
          mergeNodes ((es.getD (i - 1) default).2) ((es.getD i default).2)
            ((es.getD i default).1) from rfl]
        rw [hmgL, toLL_decomp2 es (i - 1) (by omega), hsucc]
        simp only [List.mem_append, List.append_assoc]
        try tauto
      refine ⟨?_, ?_, ?_, ?_, ?_, ?_⟩
      · rw [hfix2]
        exact iff_of_true rfl hMif
      · intro p
        rw [hfix2]
        exact hmem p
      · intro _
        rw [hfix2]
        exact length_merge2 es _ (i - 1) (by omega)
      · intro hfl
        rw [hfix2] at hfl
        simp at hfl
      · intro a ha
        rw [hfix2]
        exact hents1 a ha
      · intro j kj cj hcj
        rw [hfix2] at hcj ⊢
        exact hents2 j kj cj hcj
    · -- Redistribute: borrow the left sibling's last entry
      have hMifn : ¬(((es.getD i default).2).size +
          ((es.getD (if i = 0 then 1 else i - 1) default).2).size ≤
          nodeMaxSize cfg ((es.getD i default).2)) := by
        rw [hif]
        exact hM
      have hkindns : ((es.getD i default).2).isLeaf =
          ((es.getD (i - 1) default).2).isLeaf := by
        rw [AWF_isLeaf hA', AWF_isLeaf (AWF_of_WF hsib)]
      have hMn : ¬(((es.getD i default).2).size + ((es.getD (i - 1) default).2).size ≤
          nodeMaxSize cfg ((es.getD (i - 1) default).2)) := by
        have := nodeMaxSize_congr cfg hkindns
        omega
      cases h with
      | zero =>
        rcases hnd : (es.getD i default).2 with nk | nn
        · rcases hsd : (es.getD (i - 1) default).2 with sk | sn
          · rw [hnd] at hA' hsz hunder
            rw [hsd] at hsib
            rw [hnd, hsd] at hMn
            simp only [BNode.size, nodeMaxSize, childLB] at hMn hsz hunder
            obtain ⟨hmv1, hmv2, hmv3⟩ := leaf_moveLast cfg hok
              (if i - 1 = 0 then lo else some ((es.getD (i - 1) default).1))
              (sepHi es hi i) ((es.getD i default).1) sk nk hsib hA' hsep_hi
              (by omega) (by omega) (by omega) (by omega)
            have hfix : coalesceOrRedistribute cfg es i =
                ((es.set (i - 1) ((es.getD (i - 1) default).1,
                  BNode.leaf sk.dropLast)).set i
                  ((sk.getD (sk.length - 1) (0, 0)).1,
                   BNode.leaf (sk.getD (sk.length - 1) (0, 0) :: nk)), false) := by
              rw [coalesceOrRedistribute]
              rw [hif, if_neg hM, if_neg hi0, hnd, hsd]
              try rfl
            have hcanon := set_set_eq es (i - 1) ((es.getD (i - 1) default).1,
              BNode.leaf sk.dropLast)
              ((sk.getD (sk.length - 1) (0, 0)).1,
               BNode.leaf (sk.getD (sk.length - 1) (0, 0) :: nk)) (by omega)
            rw [hsucc] at hcanon
            have hfix2 : coalesceOrRedistribute cfg es i =
                (es.take (i - 1) ++ ((es.getD (i - 1) default).1,
                  BNode.leaf sk.dropLast) ::
                  ((sk.getD (sk.length - 1) (0, 0)).1,
                   BNode.leaf (sk.getD (sk.length - 1) (0, 0) :: nk)) ::
                  es.drop (i - 1 + 2), false) := by
              rw [hfix, ← hcanon]
            have hmv2' : WF cfg 0 (childLB cfg (BNode.leaf (sk.getD (sk.length - 1)
                (0, 0) :: nk))) (some ((sk.getD (sk.length - 1) (0, 0)).1))
                (sepHi es hi (i - 1 + 1))
                (BNode.leaf (sk.getD (sk.length - 1) (0, 0) :: nk)) := by
              rw [hsucc]
              exact hmv2
            obtain ⟨hents1, hents2⟩ := ents_replacePair cfg 0 lo hi es (i - 1) (by omega)
              hself (fun j kj cj hcj hj0 hj1 => hch j kj cj hcj (by omega))
              (BNode.leaf sk.dropLast)
              (BNode.leaf (sk.getD (sk.length - 1) (0, 0) :: nk))
              ((sk.getD (sk.length - 1) (0, 0)).1) hmv1 hmv2'
            have hmem : ∀ p : Int × Int, p ∈ toLL (es.take (i - 1) ++
                ((es.getD (i - 1) default).1, BNode.leaf sk.dropLast) ::
                ((sk.getD (sk.length - 1) (0, 0)).1,
                 BNode.leaf (sk.getD (sk.length - 1) (0, 0) :: nk)) ::
                es.drop (i - 1 + 2)) ↔ p ∈ toLL es := by
              intro p
              rw [toLL_mid2, toLL_decomp2 es (i - 1) (by omega), hsucc, hnd, hsd]
              rw [show ((es.getD (i - 1) default).1, BNode.leaf sk.dropLast).2 =
                BNode.leaf sk.dropLast from rfl]
              rw [show ((sk.getD (sk.length - 1) (0, 0)).1,
                BNode.leaf (sk.getD (sk.length - 1) (0, 0) :: nk)).2 =
                BNode.leaf (sk.getD (sk.length - 1) (0, 0) :: nk) from rfl]
              rw [show toL (BNode.leaf sk.dropLast) = sk.dropLast from rfl]
              rw [show toL (BNode.leaf (sk.getD (sk.length - 1) (0, 0) :: nk)) =
                sk.getD (sk.length - 1) (0, 0) :: nk from rfl]
              rw [show toL (BNode.leaf nk) = nk from rfl,
                show toL (BNode.leaf sk) = sk from rfl]
              rw [List.append_assoc (toLL (es.take (i - 1))) sk.dropLast
                (sk.getD (sk.length - 1) (0, 0) :: nk), hmv3,
                ← List.append_assoc (toLL (es.take (i - 1))) sk nk]
            refine ⟨?_, ?_, ?_, ?_, ?_, ?_⟩
            · rw [hfix2]
              refine iff_of_false (by simp) ?_
              rw [hif, hsd]
              simp only [BNode.size, nodeMaxSize]
              omega
            · intro p
              rw [hfix2]
              exact hmem p
            · intro hfl
              rw [hfix2] at hfl
              simp at hfl
            · intro _
              rw [hfix2]
              exact length_replacePair es _ _ (i - 1) (by omega)
            · intro a ha
              rw [hfix2]
              exact hents1 a ha
            · intro j kj cj hcj
              rw [hfix2] at hcj ⊢
              exact hents2 j kj cj hcj
          · rw [hsd] at hsib
            exact absurd hsib (by simp [WF])
        · rw [hnd] at hA'
          exact absurd hA' (by simp [AWF])
      | succ h' =>
        rcases hnd : (es.getD i default).2 with nk | nn
        · rw [hnd] at hA'
          exact absurd hA' (by simp [AWF])
        · rcases hsd : (es.getD (i - 1) default).2 with sk | sn
          · rw [hsd] at hsib
            exact absurd hsib (by simp [WF])
          · rw [hnd] at hA' hsz hunder
            rw [hsd] at hsib
            rw [hnd, hsd] at hMn
            simp only [BNode.size, nodeMaxSize, childLB] at hMn hsz hunder
            obtain ⟨hmv1, hmv2, hmv3⟩ := int_moveLast cfg h'
              (if i - 1 = 0 then lo else some ((es.getD (i - 1) default).1))
              (sepHi es hi i) ((es.getD i default).1) sn nn hsib hA'
              (by omega) (by omega) (by omega) (by omega)
            have hfix : coalesceOrRedistribute cfg es i =
                ((es.set (i - 1) ((es.getD (i - 1) default).1,
                  BNode.internal sn.dropLast)).set i
                  ((sn.getD (sn.length - 1) (0, default)).1,
                   BNode.internal (sn.getD (sn.length - 1) (0, default) :: nn)),
                 false) := by
              rw [coalesceOrRedistribute]
              rw [hif, if_neg hM, if_neg hi0, hnd, hsd]
              try rfl
            have hcanon := set_set_eq es (i - 1) ((es.getD (i - 1) default).1,
              BNode.internal sn.dropLast)
              ((sn.getD (sn.length - 1) (0, default)).1,
               BNode.internal (sn.getD (sn.length - 1) (0, default) :: nn)) (by omega)
            rw [hsucc] at hcanon
            have hfix2 : coalesceOrRedistribute cfg es i =
                (es.take (i - 1) ++ ((es.getD (i - 1) default).1,
                  BNode.internal sn.dropLast) ::
                  ((sn.getD (sn.length - 1) (0, default)).1,
                   BNode.internal (sn.getD (sn.length - 1) (0, default) :: nn)) ::
                  es.drop (i - 1 + 2), false) := by
              rw [hfix, ← hcanon]
            have hmv2' : WF cfg (h' + 1) (childLB cfg (BNode.internal (sn.getD
                (sn.length - 1) (0, default) :: nn)))
                (some ((sn.getD (sn.length - 1) (0, default)).1))
                (sepHi es hi (i - 1 + 1))
                (BNode.internal (sn.getD (sn.length - 1) (0, default) :: nn)) := by
              rw [hsucc]
              exact hmv2
            obtain ⟨hents1, hents2⟩ := ents_replacePair cfg (h' + 1) lo hi es (i - 1)
              (by omega) hself (fun j kj cj hcj hj0 hj1 => hch j kj cj hcj (by omega))
              (BNode.internal sn.dropLast)
              (BNode.internal (sn.getD (sn.length - 1) (0, default) :: nn))
              ((sn.getD (sn.length - 1) (0, default)).1) hmv1 hmv2'
            have hmem : ∀ p : Int × Int, p ∈ toLL (es.take (i - 1) ++
                ((es.getD (i - 1) default).1, BNode.internal sn.dropLast) ::
                ((sn.getD (sn.length - 1) (0, default)).1,
                 BNode.internal (sn.getD (sn.length - 1) (0, default) :: nn)) ::
                es.drop (i - 1 + 2)) ↔ p ∈ toLL es := by
              intro p
              rw [toLL_mid2, toLL_decomp2 es (i - 1) (by omega), hsucc, hnd, hsd]
              rw [show ((es.getD (i - 1) default).1, BNode.internal sn.dropLast).2 =
                BNode.internal sn.dropLast from rfl]
              rw [show ((sn.getD (sn.length - 1) (0, default)).1,
                BNode.internal (sn.getD (sn.length - 1) (0, default) :: nn)).2 =
                BNode.internal (sn.getD (sn.length - 1) (0, default) :: nn) from rfl]
              rw [show toL (BNode.internal sn.dropLast) = toLL sn.dropLast from rfl]
              rw [show toL (BNode.internal (sn.getD (sn.length - 1) (0, default) :: nn)) =
                toLL (sn.getD (sn.length - 1) (0, default) :: nn) from rfl]
              rw [show toL (BNode.internal nn) = toLL nn from rfl,
                show toL (BNode.internal sn) = toLL sn from rfl]
              rw [List.append_assoc (toLL (es.take (i - 1))) (toLL sn.dropLast)
                (toLL (sn.getD (sn.length - 1) (0, default) :: nn)), hmv3,
                ← List.append_assoc (toLL (es.take (i - 1))) (toLL sn) (toLL nn)]
            refine ⟨?_, ?_, ?_, ?_, ?_, ?_⟩
            · rw [hfix2]
              refine iff_of_false (by simp) ?_
              rw [hif, hsd]
              simp only [BNode.size, nodeMaxSize]
              omega
            · intro p
              rw [hfix2]
              exact hmem p
            · intro hfl
              rw [hfix2] at hfl
              simp at hfl
            · intro _
              rw [hfix2]
              exact length_replacePair es _ _ (i - 1) (by omega)
            · intro a ha
              rw [hfix2]
              exact hents1 a ha
            · intro j kj cj hcj
              rw [hfix2] at hcj ⊢
              exact hents2 j kj cj hcj

/-- A well-formed internal node has at least two entries. -/
theorem WF_two_le {cfg : BTConfig} {h lb : Nat} {lo hi : Option Int} {n : BNode}
    (hw : WF cfg h lb lo hi n) (hm : n.isLeaf = false) : 2 ≤ n.size := by
  cases h with
  | zero =>
    cases n with
    | leaf kvs => exact absurd hm (by simp [BNode.isLeaf])
    | internal es => exact absurd hw (by simp [WF])
  | succ h =>
    cases n with
    | leaf kvs => exact absurd hw (by simp [WF])
    | internal es => exact hw.1

/-- The separator keys of a well-formed internal node are strictly
sorted on `[1, size)` and lie inside the node's window. -/
theorem keys_window (cfg : BTConfig) (hok : cfg.ok) {h lb : Nat} {lo hi : Option Int}
    {es : List (Int × BNode)} (hw : WF cfg (h + 1) lb lo hi (.internal es)) :
    (∀ j1 j2 : Nat, 1 ≤ j1 → j1 < j2 → j2 < es.length →
      (es.getD j1 default).1 < (es.getD j2 default).1) ∧
    (∀ a, lo = some a → ∀ j : Nat, 1 ≤ j → j < es.length → a ≤ (es.getD j default).1) ∧
    (∀ b, hi = some b → ∀ j : Nat, 1 ≤ j → j < es.length → (es.getD j default).1 ≤ b) := by
  have hws := hw
  obtain ⟨h1, h2, h3, h4, h5⟩ := hw
  have hsorted : ∀ j1 j2 : Nat, 1 ≤ j1 → j1 < j2 → j2 < es.length →
      (es.getD j1 default).1 < (es.getD j2 default).1 := by
    intro j1 j2 ha hb hc
    have := sep_lt cfg hok hws j2 j1 ha hb hc
    rw [getD_entry_key es j1 (by omega), getD_entry_key es j2 hc] at this
    exact this
  refine ⟨hsorted, ?_, ?_⟩
  · intro a ha j hj1 hjlen
    have hc0 := h5 0 (es.getD 0 default).1 (es.getD 0 default).2
      (by rw [getElem?_getD es 0 (by omega)])
    rw [if_pos rfl] at hc0
    have hsep0 : sepHi es hi 0 = some ((es.getD 1 default).1) :=
      sepHi_some (getElem?_getD es 1 (by omega))
    rw [hsep0, ha] at hc0
    obtain ⟨-, hbnd, hne⟩ := WF_toL cfg hok h _ _ _ _ hc0
    obtain ⟨p, hp⟩ := List.exists_mem_of_ne_nil _ (hne (one_le_childLB hok _))
    have hB := hbnd p hp
    have haux := hB.1 a rfl
    have hlt1 := hB.2 _ rfl
    rcases Nat.eq_or_lt_of_le hj1 with he1 | hgt
    · rw [← he1]
      omega
    · have := hsorted 1 j (by omega) hgt hjlen
      omega
  · intro b hb j hj1 hjlen
    have hL : es.length - 1 < es.length := by omega
    have hcL := h5 (es.length - 1) (es.getD (es.length - 1) default).1
      (es.getD (es.length - 1) default).2 (by rw [getElem?_getD es _ hL])
    rw [if_neg (by omega)] at hcL
    have hsepL : sepHi es hi (es.length - 1) = hi := by
      rw [sepHi, List.getElem?_eq_none (by omega)]
    rw [hsepL, hb] at hcL
    obtain ⟨-, hbnd, hne⟩ := WF_toL cfg hok h _ _ _ _ hcL
    obtain ⟨p, hp⟩ := List.exists_mem_of_ne_nil _ (hne (one_le_childLB hok _))
    have hB := hbnd p hp
    have hge := hB.1 _ rfl
    have hltb := hB.2 b rfl
    rcases Nat.eq_or_lt_of_le (show j ≤ es.length - 1 from by omega) with he1 | hgt
    · rw [he1]
      omega
    · have := hsorted j (es.length - 1) hj1 hgt hL
      omega

/-- Replacing the under-full child at index `i` by a repaired child that is
fully well-formed again (the `CoalesceOrRedistribute` call is skipped)
keeps the parent's entry list well-formed apart from its lower size
bound. -/
theorem nofix_patch_AWF (cfg : BTConfig) (h lb : Nat) (lo hi : Option Int)
    (es : List (Int × BNode)) (i : Nat) (hci : i < es.length)
    (hws : WF cfg (h + 1) lb lo hi (.internal es)) (c' : BNode)
    (hwc' : WF cfg h (childLB cfg c')
      (if i = 0 then lo else some ((es.getD i default).1)) (sepHi es hi i) c') :
    AWF cfg (h + 1) lo hi
      (.internal (es.take i ++ ((es.getD i default).1, c') :: es.drop (i + 1))) := by
  obtain ⟨hself', hch'⟩ := ents_replace1 cfg h lo hi es i hci c' hws.2.2.2.1 hws.2.2.2.2 hwc'
  have hlen' := length_replace1 es ((es.getD i default).1, c') i hci
  have h2es := hws.1
  exact ⟨by rw [hlen']; omega, by rw [hlen']; exact hws.2.2.1, hself', hch'⟩

/-- `CoalesceOrRedistribute` applied to the parent's entry list after the
under-full child at index `i` has been replaced: the records are
preserved, the length drops by one exactly on a merge, and the parent's
two entry-list well-formedness clauses hold for the result. -/
theorem coalesce_patch_spec (cfg : BTConfig) (hok : cfg.ok) (h lb : Nat) (lo hi : Option Int)
    (es : List (Int × BNode)) (i : Nat) (hci : i < es.length)
    (hws : WF cfg (h + 1) lb lo hi (.internal es)) (c' : BNode)
    (hA : AWF cfg h (if i = 0 then lo else some ((es.getD i default).1)) (sepHi es hi i) c')
    (hsz : childLB cfg c' ≤ c'.size + 1) (hunder : c'.size ≤ childLB cfg c') :
    (∀ p : Int × Int,
      p ∈ toLL (coalesceOrRedistribute cfg
        (es.take i ++ ((es.getD i default).1, c') :: es.drop (i + 1)) i).1 ↔
      p ∈ toLL (es.take i ++ ((es.getD i default).1, c') :: es.drop (i + 1))) ∧
    ((coalesceOrRedistribute cfg (es.take i ++ ((es.getD i default).1, c') ::
        es.drop (i + 1)) i).2 = true →
      (coalesceOrRedistribute cfg (es.take i ++ ((es.getD i default).1, c') ::
        es.drop (i + 1)) i).1.length + 1 = es.length) ∧
    ((coalesceOrRedistribute cfg (es.take i ++ ((es.getD i default).1, c') ::
        es.drop (i + 1)) i).2 = false →
      (coalesceOrRedistribute cfg (es.take i ++ ((es.getD i default).1, c') ::
        es.drop (i + 1)) i).1.length = es.length) ∧
    (∀ a, lo = some a →
      ((coalesceOrRedistribute cfg (es.take i ++ ((es.getD i default).1, c') ::
        es.drop (i + 1)) i).1[0]?).map Prod.fst = some a) ∧
    (∀ (j : Nat) (kj : Int) (cj : BNode),
      (coalesceOrRedistribute cfg (es.take i ++ ((es.getD i default).1, c') ::
        es.drop (i + 1)) i).1[j]? = some (kj, cj) →
      WF cfg h (childLB cfg cj) (if j = 0 then lo else some kj)
        (sepHi (coalesceOrRedistribute cfg (es.take i ++ ((es.getD i default).1, c') ::
          es.drop (i + 1)) i).1 hi j) cj) := by
  have hkeys' := keys_replace1 es c' i hci
  have hlen' := length_replace1 es ((es.getD i default).1, c') i hci
  have hgetD2 : (es.take i ++ ((es.getD i default).1, c') :: es.drop (i + 1)).getD i default =
      ((es.getD i default).1, c') := by
    rw [List.getD_eq_getElem?_getD, getElem?_replace1 es _ i i hci, if_pos rfl,
      Option.getD_some]
  have hself2 : ∀ a, lo = some a →
      ((es.take i ++ ((es.getD i default).1, c') :: es.drop (i + 1))[0]?).map Prod.fst =
      some a := by
    intro a ha
    rw [hkeys' 0]
    exact hws.2.2.2.1 a ha
  have hch2 : ∀ (j : Nat) (kj : Int) (cj : BNode),
      (es.take i ++ ((es.getD i default).1, c') :: es.drop (i + 1))[j]? = some (kj, cj) →
      j ≠ i →
      WF cfg h (childLB cfg cj) (if j = 0 then lo else some kj)
        (sepHi (es.take i ++ ((es.getD i default).1, c') :: es.drop (i + 1)) hi j) cj := by
    intro j kj cj hcj hj
    rw [getElem?_replace1 es _ i j hci, if_neg hj] at hcj
    rw [sepHi_congr (hkeys' (j + 1))]
    exact hws.2.2.2.2 j kj cj hcj
  have hA2 : AWF cfg h (if i = 0 then lo else
      some (((es.take i ++ ((es.getD i default).1, c') ::
        es.drop (i + 1)).getD i default).1))
      (sepHi (es.take i ++ ((es.getD i default).1, c') :: es.drop (i + 1)) hi i)
      (((es.take i ++ ((es.getD i default).1, c') :: es.drop (i + 1)).getD i default).2) := by
    rw [hgetD2, sepHi_congr (hkeys' (i + 1))]
    exact hA
  have hszC : childLB cfg (((es.take i ++ ((es.getD i default).1, c') ::
      es.drop (i + 1)).getD i default).2) ≤
      (((es.take i ++ ((es.getD i default).1, c') ::
        es.drop (i + 1)).getD i default).2).size + 1 := by
    rw [hgetD2]
    exact hsz
  have hunderC : (((es.take i ++ ((es.getD i default).1, c') ::
      es.drop (i + 1)).getD i default).2).size ≤
      childLB cfg (((es.take i ++ ((es.getD i default).1, c') ::
        es.drop (i + 1)).getD i default).2) := by
    rw [hgetD2]
    exact hunder
  obtain ⟨hsorted0, hkeylo0, hkeyhi0⟩ := keys_window cfg hok hws
  have hkeyD : ∀ j : Nat, j < es.length →
      ((es.take i ++ ((es.getD i default).1, c') :: es.drop (i + 1)).getD j default).1 =
      (es.getD j default).1 := by
    intro j hj
    have hj2 : j < (es.take i ++ ((es.getD i default).1, c') :: es.drop (i + 1)).length := by
      rw [hlen']
      exact hj
    have hq := hkeys' j
    rw [getElem?_getD _ j hj2, getElem?_getD es j hj] at hq
    simpa using hq
  have hkeylo2 : ∀ a, lo = some a → ∀ j : Nat, 1 ≤ j →
      j < (es.take i ++ ((es.getD i default).1, c') :: es.drop (i + 1)).length →
      a ≤ ((es.take i ++ ((es.getD i default).1, c') :: es.drop (i + 1)).getD j default).1 := by
    intro a ha j h1j hj
    rw [hlen'] at hj
    rw [hkeyD j hj]
    exact hkeylo0 a ha j h1j hj
  have hkeyhi2 : ∀ b, hi = some b → ∀ j : Nat, 1 ≤ j →
      j < (es.take i ++ ((es.getD i default).1, c') :: es.drop (i + 1)).length →
      ((es.take i ++ ((es.getD i default).1, c') :: es.drop (i + 1)).getD j default).1 ≤ b := by
    intro b hb j h1j hj
    rw [hlen'] at hj
    rw [hkeyD j hj]
    exact hkeyhi0 b hb j h1j hj
  have hsorted2 : ∀ j1 j2 : Nat, 1 ≤ j1 → j1 < j2 →
      j2 < (es.take i ++ ((es.getD i default).1, c') :: es.drop (i + 1)).length →
      ((es.take i ++ ((es.getD i default).1, c') :: es.drop (i + 1)).getD j1 default).1 <
      ((es.take i ++ ((es.getD i default).1, c') :: es.drop (i + 1)).getD j2 default).1 := by
    intro j1 j2 h1 h12 hj2
    rw [hlen'] at hj2
    rw [hkeyD j1 (by omega), hkeyD j2 hj2]
    exact hsorted0 j1 j2 h1 h12 hj2
  obtain ⟨cc1, cc2, cc3, cc4, cc5, cc6⟩ := coalesce_spec cfg hok h lo hi
    (es.take i ++ ((es.getD i default).1, c') :: es.drop (i + 1)) i
    (by rw [hlen']; exact hws.1) (by rw [hlen']; exact hci)
    hself2 hch2 hA2 hszC hunderC hkeylo2 hkeyhi2 hsorted2
  refine ⟨cc2, ?_, ?_, cc5, cc6⟩
  · intro hf
    rw [← hlen']
    exact cc3 hf
  · intro hf
    rw [← hlen']
    exact cc4 hf

/-- `BPlusTree::Remove` below the root: the result keeps the node's kind
and holds exactly the node's records except those with key `k`; it is
well-formed apart from its lower size bound; the merged flag is `true`
exactly when a child merge removed an entry from the node itself; a leaf
never reports a merge and loses at most the removed record; an internal
node without a merge keeps its size. -/
theorem removeNode_spec (cfg : BTConfig) (hok : cfg.ok) (k : Int) :
    ∀ (h : Nat) (lb : Nat) (lo hi : Option Int) (n : BNode), WF cfg h lb lo hi n →
    ((removeNode cfg k n).1.isLeaf = n.isLeaf) ∧
    (∀ p : Int × Int, p ∈ toL (removeNode cfg k n).1 ↔ p ∈ toL n ∧ p.1 ≠ k) ∧
    AWF cfg h lo hi (removeNode cfg k n).1 ∧
    ((removeNode cfg k n).2 = true → (removeNode cfg k n).1.size + 1 = n.size) ∧
    (n.isLeaf = true → (removeNode cfg k n).2 = false ∧
      n.size ≤ (removeNode cfg k n).1.size + 1 ∧ (removeNode cfg k n).1.size ≤ n.size) ∧
    (n.isLeaf = false → (removeNode cfg k n).2 = false →
      (removeNode cfg k n).1.size = n.size) := by
  intro h
  induction h with
  | zero =>
    intro lb lo hi n hw
    cases n with
    | internal es => exact absurd hw (by simp [WF])
    | leaf kvs =>
      obtain ⟨h1, h2, h3, h4⟩ := hw
      obtain ⟨hs', hm', hnoop, hlenk⟩ := removeRecord_spec kvs k h3
      have he : removeNode cfg k (BNode.leaf kvs) =
          (BNode.leaf (removeRecord kvs k), false) := by
        rw [removeNode]
      have he1 : (removeNode cfg k (BNode.leaf kvs)).1 = BNode.leaf (removeRecord kvs k) := by
        rw [he]
      have he2 : (removeNode cfg k (BNode.leaf kvs)).2 = false := by
        rw [he]
      have hlb1 : (removeRecord kvs k).length ≤ kvs.length := by
        by_cases hk : k ∈ kvs.map Prod.fst
        · have := hlenk hk
          omega
        · rw [hnoop hk]
      have hlb2 : kvs.length ≤ (removeRecord kvs k).length + 1 := by
        by_cases hk : k ∈ kvs.map Prod.fst
        · have := hlenk hk
          omega
        · rw [hnoop hk]
          omega
      rw [he1, he2]
      refine ⟨rfl, ?_, ?_, ?_, ?_, ?_⟩
      · intro p
        exact hm' p
      · exact ⟨by omega, hs',
          fun p hp => h4 p ((hm' p).1 hp).1⟩
      · intro hft
        exact Bool.noConfusion hft
      · intro _
        refine ⟨rfl, ?_, ?_⟩
        · show kvs.length ≤ (BNode.leaf (removeRecord kvs k)).size + 1
          simp only [BNode.size]
          omega
        · show (BNode.leaf (removeRecord kvs k)).size ≤ kvs.length
          simp only [BNode.size]
          omega
      · intro habs
        simp [BNode.isLeaf] at habs
  | succ h ih =>
    intro lb lo hi n hw
    cases n with
    | leaf kvs => exact absurd hw (by simp [WF])
    | internal es =>
      have hws := hw
      have hok1 : 2 ≤ cfg.leafMax := hok.1
      have hok2 : 3 ≤ cfg.intMax := hok.2
      have hci : childIdx es k < es.length := (childIdx_spec cfg hok hw k).1
      have hchild := hws.2.2.2.2 (childIdx es k) (es.getD (childIdx es k) default).1
        (es.getD (childIdx es k) default).2 (by rw [getElem?_getD es _ hci])
      obtain ⟨ihkind, ihmem, ihA, ihsz, ihleaf, ihint⟩ :=
        ih (childLB cfg (es.getD (childIdx es k) default).2) _ _
          (es.getD (childIdx es k) default).2 hchild
      have hclbsz := WF_lb_le_size hchild
      have hmemL : ∀ p : Int × Int, p ∈ toLL (es.take (childIdx es k) ++
          ((es.getD (childIdx es k) default).1,
            (removeNode cfg k ((es.getD (childIdx es k) default).2)).1) ::
          es.drop (childIdx es k + 1)) ↔ p ∈ toLL es ∧ p.1 ≠ k := by
        intro p
        constructor
        · intro hp
          obtain ⟨j, kj, cj, hcj, hpc⟩ := mem_toLL.1 hp
          rw [getElem?_replace1 es _ (childIdx es k) j hci] at hcj
          by_cases hj : j = childIdx es k
          · rw [if_pos hj] at hcj
            have hcj2 : cj = (removeNode cfg k ((es.getD (childIdx es k) default).2)).1 :=
              (congrArg Prod.snd (Option.some.inj hcj)).symm
            rw [hcj2] at hpc
            have hm := (ihmem p).1 hpc
            exact ⟨mem_toLL.2 ⟨childIdx es k, (es.getD (childIdx es k) default).1,
              (es.getD (childIdx es k) default).2,
              by rw [getElem?_getD es _ hci], hm.1⟩, hm.2⟩
          · rw [if_neg hj] at hcj
            exact ⟨mem_toLL.2 ⟨j, kj, cj, hcj, hpc⟩,
              key_only_in_chosen cfg hok hws k j kj cj hcj hj p hpc⟩
        · rintro ⟨hp, hpk⟩
          obtain ⟨j, kj, cj, hcj, hpc⟩ := mem_toLL.1 hp
          by_cases hj : j = childIdx es k
          · subst hj
            rw [getElem?_getD es _ hci] at hcj
            have hcj2 : (es.getD (childIdx es k) default).2 = cj :=
              congrArg Prod.snd (Option.some.inj hcj)
            rw [← hcj2] at hpc
            exact mem_toLL.2 ⟨childIdx es k, (es.getD (childIdx es k) default).1,
              (removeNode cfg k ((es.getD (childIdx es k) default).2)).1,
              by rw [getElem?_replace1 es _ (childIdx es k) (childIdx es k) hci, if_pos rfl],
              (ihmem p).2 ⟨hpc, hpk⟩⟩
          · exact mem_toLL.2 ⟨j, kj, cj,
              by rw [getElem?_replace1 es _ (childIdx es k) j hci, if_neg hj]; exact hcj, hpc⟩
      have hlenR := length_replace1 es ((es.getD (childIdx es k) default).1,
        (removeNode cfg k ((es.getD (childIdx es k) default).2)).1) (childIdx es k) hci
      rcases hc'k : (removeNode cfg k ((es.getD (childIdx es k) default).2)).1 with kvs' | esc
      · -- the repaired child is a leaf
        rw [hc'k] at hmemL hlenR ihA
        have ihkind' : (BNode.leaf kvs').isLeaf =
            ((es.getD (childIdx es k) default).2).isLeaf := by
          rw [← hc'k]
          exact ihkind
        have hndleaf : ((es.getD (childIdx es k) default).2).isLeaf = true := by
          rw [← ihkind']
          rfl
        have hclb : childLB cfg ((es.getD (childIdx es k) default).2) = cfg.leafMax / 2 := by
          rw [← childLB_congr cfg ihkind', childLB]
        obtain ⟨-, hsz1, hsz2⟩ := ihleaf hndleaf
        rw [hc'k] at hsz1 hsz2
        have hsz1' : ((es.getD (childIdx es k) default).2).size ≤ kvs'.length + 1 := hsz1
        have hsz2' : kvs'.length ≤ ((es.getD (childIdx es k) default).2).size := hsz2
        rw [hclb] at hclbsz
        have hra : removeChildAt cfg k es (childIdx es k) =
            (es.take (childIdx es k) ++ ((es.getD (childIdx es k) default).1,
              BNode.leaf kvs') :: es.drop (childIdx es k + 1),
             decide (kvs'.length < cfg.leafMax / 2)) := by
          rw [removeChildAt_eq cfg k es (childIdx es k) hci, hc'k]
        cases htr : decide (kvs'.length < cfg.leafMax / 2) with
        | false =>
          have htrP : ¬ kvs'.length < cfg.leafMax / 2 := of_decide_eq_false htr
          have he : removeNode cfg k (BNode.internal es) =
              (BNode.internal (es.take (childIdx es k) ++
                ((es.getD (childIdx es k) default).1, BNode.leaf kvs') ::
                es.drop (childIdx es k + 1)), false) := by
            rw [removeNode, hra, htr]
            rfl
          have he1 : (removeNode cfg k (BNode.internal es)).1 =
              BNode.internal (es.take (childIdx es k) ++
                ((es.getD (childIdx es k) default).1, BNode.leaf kvs') ::
                es.drop (childIdx es k + 1)) := by
            rw [he]
          have he2 : (removeNode cfg k (BNode.internal es)).2 = false := by
            rw [he]
          have hwc' : WF cfg h (childLB cfg (BNode.leaf kvs'))
              (if childIdx es k = 0 then lo else some ((es.getD (childIdx es k) default).1))
              (sepHi es hi (childIdx es k)) (BNode.leaf kvs') := by
            refine WF_of_AWF ihA (fun habs => absurd habs (by simp [BNode.isLeaf])) ?_
            show childLB cfg (BNode.leaf kvs') ≤ (BNode.leaf kvs').size
            simp only [childLB, BNode.size]
            omega
          rw [he1, he2]
          refine ⟨rfl, ?_,
            nofix_patch_AWF cfg h lb lo hi es (childIdx es k) hci hws _ hwc', ?_, ?_, ?_⟩
          · intro p
            exact hmemL p
          · intro hft
            exact Bool.noConfusion hft
          · intro habs
            simp [BNode.isLeaf] at habs
          · intro _ _
            show (BNode.internal (es.take (childIdx es k) ++
              ((es.getD (childIdx es k) default).1, BNode.leaf kvs') ::
              es.drop (childIdx es k + 1))).size = (BNode.internal es).size
            simp only [BNode.size]
            exact hlenR
        | true =>
          have htrP : kvs'.length < cfg.leafMax / 2 := of_decide_eq_true htr
          have he : removeNode cfg k (BNode.internal es) =
              (BNode.internal (coalesceOrRedistribute cfg (es.take (childIdx es k) ++
                ((es.getD (childIdx es k) default).1, BNode.leaf kvs') ::
                es.drop (childIdx es k + 1)) (childIdx es k)).1,
               (coalesceOrRedistribute cfg (es.take (childIdx es k) ++
                ((es.getD (childIdx es k) default).1, BNode.leaf kvs') ::
                es.drop (childIdx es k + 1)) (childIdx es k)).2) := by
            rw [removeNode, hra, htr]
            rfl
          have he1 : (removeNode cfg k (BNode.internal es)).1 =
              BNode.internal (coalesceOrRedistribute cfg (es.take (childIdx es k) ++
                ((es.getD (childIdx es k) default).1, BNode.leaf kvs') ::
                es.drop (childIdx es k + 1)) (childIdx es k)).1 := by
            rw [he]
          have he2 : (removeNode cfg k (BNode.internal es)).2 =
              (coalesceOrRedistribute cfg (es.take (childIdx es k) ++
                ((es.getD (childIdx es k) default).1, BNode.leaf kvs') ::
                es.drop (childIdx es k + 1)) (childIdx es k)).2 := by
            rw [he]
          obtain ⟨pmem, plen1, plen0, pself, pch⟩ := coalesce_patch_spec cfg hok h lb lo hi
            es (childIdx es k) hci hws (BNode.leaf kvs') ihA
            (by show childLB cfg (BNode.leaf kvs') ≤ (BNode.leaf kvs').size + 1
                simp only [childLB, BNode.size]
                omega)
            (by show (BNode.leaf kvs').size ≤ childLB cfg (BNode.leaf kvs')
                simp only [childLB, BNode.size]
                omega)
          have hlenfix : es.length - 1 ≤ (coalesceOrRedistribute cfg
              (es.take (childIdx es k) ++ ((es.getD (childIdx es k) default).1,
                BNode.leaf kvs') :: es.drop (childIdx es k + 1)) (childIdx es k)).1.length ∧
              (coalesceOrRedistribute cfg (es.take (childIdx es k) ++
                ((es.getD (childIdx es k) default).1, BNode.leaf kvs') ::
                es.drop (childIdx es k + 1)) (childIdx es k)).1.length ≤ es.length := by
            cases hfx : (coalesceOrRedistribute cfg (es.take (childIdx es k) ++
                ((es.getD (childIdx es k) default).1, BNode.leaf kvs') ::
                es.drop (childIdx es k + 1)) (childIdx es k)).2 with
            | false =>
              have := plen0 hfx
              omega
            | true =>
              have := plen1 hfx
              omega
          obtain ⟨hlfA, hlfB⟩ := hlenfix
          have h2es := hws.1
          have hesmax := hws.2.2.1
          rw [he1, he2]
          refine ⟨rfl, ?_, ⟨by omega, by omega, pself, pch⟩, ?_, ?_, ?_⟩
          · intro p
            rw [show toL (BNode.internal (coalesceOrRedistribute cfg
              (es.take (childIdx es k) ++ ((es.getD (childIdx es k) default).1,
                BNode.leaf kvs') :: es.drop (childIdx es k + 1)) (childIdx es k)).1) =
              toLL (coalesceOrRedistribute cfg (es.take (childIdx es k) ++
                ((es.getD (childIdx es k) default).1, BNode.leaf kvs') ::
                es.drop (childIdx es k + 1)) (childIdx es k)).1 from rfl,
              show toL (BNode.internal es) = toLL es from rfl, pmem p]
            exact hmemL p
          · intro hft
            show (BNode.internal (coalesceOrRedistribute cfg (es.take (childIdx es k) ++
              ((es.getD (childIdx es k) default).1, BNode.leaf kvs') ::
              es.drop (childIdx es k + 1)) (childIdx es k)).1).size + 1 =
              (BNode.internal es).size
            simp only [BNode.size]
            exact plen1 hft
          · intro habs
            simp [BNode.isLeaf] at habs
          · intro _ hff
            show (BNode.internal (coalesceOrRedistribute cfg (es.take (childIdx es k) ++
              ((es.getD (childIdx es k) default).1, BNode.leaf kvs') ::
              es.drop (childIdx es k + 1)) (childIdx es k)).1).size =
              (BNode.internal es).size
            simp only [BNode.size]
            exact plen0 hff
      · -- the repaired child is internal
        rw [hc'k] at hmemL hlenR ihA
        have ihkind' : (BNode.internal esc).isLeaf =
            ((es.getD (childIdx es k) default).2).isLeaf := by
          rw [← hc'k]
          exact ihkind
        have hndint : ((es.getD (childIdx es k) default).2).isLeaf = false := by
          rw [← ihkind']
          rfl
        have hclb : childLB cfg ((es.getD (childIdx es k) default).2) = cfg.intMax / 2 := by
          rw [← childLB_congr cfg ihkind', childLB]
        have hnd2 : 2 ≤ ((es.getD (childIdx es k) default).2).size := WF_two_le hchild hndint
        rw [hclb] at hclbsz
        have hra : removeChildAt cfg k es (childIdx es k) =
            (es.take (childIdx es k) ++ ((es.getD (childIdx es k) default).1,
              BNode.internal esc) :: es.drop (childIdx es k + 1),
             (removeNode cfg k ((es.getD (childIdx es k) default).2)).2 &&
               decide (esc.length ≤ cfg.intMax / 2)) := by
          rw [removeChildAt_eq cfg k es (childIdx es k) hci, hc'k]
        have hnofix : ∀ hwc' : WF cfg h (childLB cfg (BNode.internal esc))
            (if childIdx es k = 0 then lo else some ((es.getD (childIdx es k) default).1))
            (sepHi es hi (childIdx es k)) (BNode.internal esc),
            removeChildAt cfg k es (childIdx es k) =
              (es.take (childIdx es k) ++ ((es.getD (childIdx es k) default).1,
                BNode.internal esc) :: es.drop (childIdx es k + 1), false) →
            ((removeNode cfg k (BNode.internal es)).1.isLeaf =
              (BNode.internal es).isLeaf) ∧
            (∀ p : Int × Int, p ∈ toL (removeNode cfg k (BNode.internal es)).1 ↔
              p ∈ toL (BNode.internal es) ∧ p.1 ≠ k) ∧
            AWF cfg (h + 1) lo hi (removeNode cfg k (BNode.internal es)).1 ∧
            ((removeNode cfg k (BNode.internal es)).2 = true →
              (removeNode cfg k (BNode.internal es)).1.size + 1 =
                (BNode.internal es).size) ∧
            ((BNode.internal es).isLeaf = true →
              (removeNode cfg k (BNode.internal es)).2 = false ∧
              (BNode.internal es).size ≤ (removeNode cfg k (BNode.internal es)).1.size + 1 ∧
              (removeNode cfg k (BNode.internal es)).1.size ≤ (BNode.internal es).size) ∧
            ((BNode.internal es).isLeaf = false →
              (removeNode cfg k (BNode.internal es)).2 = false →
              (removeNode cfg k (BNode.internal es)).1.size = (BNode.internal es).size) := by
          intro hwc' hra'
          have he : removeNode cfg k (BNode.internal es) =
              (BNode.internal (es.take (childIdx es k) ++
                ((es.getD (childIdx es k) default).1, BNode.internal esc) ::
                es.drop (childIdx es k + 1)), false) := by
            rw [removeNode, hra']
            rfl
          have he1 : (removeNode cfg k (BNode.internal es)).1 =
              BNode.internal (es.take (childIdx es k) ++
                ((es.getD (childIdx es k) default).1, BNode.internal esc) ::
                es.drop (childIdx es k + 1)) := by
            rw [he]
          have he2 : (removeNode cfg k (BNode.internal es)).2 = false := by
            rw [he]
          rw [he1, he2]
          refine ⟨rfl, ?_,
            nofix_patch_AWF cfg h lb lo hi es (childIdx es k) hci hws _ hwc', ?_, ?_, ?_⟩
          · intro p
            exact hmemL p
          · intro hft
            exact Bool.noConfusion hft
          · intro habs
            simp [BNode.isLeaf] at habs
          · intro _ _
            show (BNode.internal (es.take (childIdx es k) ++
              ((es.getD (childIdx es k) default).1, BNode.internal esc) ::
              es.drop (childIdx es k + 1))).size = (BNode.internal es).size
            simp only [BNode.size]
            exact hlenR
        cases hfl : (removeNode cfg k ((es.getD (childIdx es k) default).2)).2 with
        | false =>
          rw [hfl, Bool.false_and] at hra
          have h6 := ihint hndint hfl
          rw [hc'k] at h6
          have h6' : esc.length = ((es.getD (childIdx es k) default).2).size := h6
          refine hnofix ?_ hra
          refine WF_of_AWF ihA ?_ ?_
          · intro _
            show 2 ≤ (BNode.internal esc).size
            simp only [BNode.size]
            omega
          · show childLB cfg (BNode.internal esc) ≤ (BNode.internal esc).size
            simp only [childLB, BNode.size]
            omega
        | true =>
          rw [hfl, Bool.true_and] at hra
          cases htr : decide (esc.length ≤ cfg.intMax / 2) with
          | false =>
            rw [htr] at hra
            have htrP : ¬ esc.length ≤ cfg.intMax / 2 := of_decide_eq_false htr
            refine hnofix ?_ hra
            refine WF_of_AWF ihA ?_ ?_
            · intro _
              show 2 ≤ (BNode.internal esc).size
              simp only [BNode.size]
              omega
            · show childLB cfg (BNode.internal esc) ≤ (BNode.internal esc).size
              simp only [childLB, BNode.size]
              omega
          | true =>
            rw [htr] at hra
            have htrP : esc.length ≤ cfg.intMax / 2 := of_decide_eq_true htr
            have h4' := ihsz hfl
            rw [hc'k] at h4'
            have h4s : esc.length + 1 = ((es.getD (childIdx es k) default).2).size := h4'
            have he : removeNode cfg k (BNode.internal es) =
                (BNode.internal (coalesceOrRedistribute cfg (es.take (childIdx es k) ++
                  ((es.getD (childIdx es k) default).1, BNode.internal esc) ::
                  es.drop (childIdx es k + 1)) (childIdx es k)).1,
                 (coalesceOrRedistribute cfg (es.take (childIdx es k) ++
                  ((es.getD (childIdx es k) default).1, BNode.internal esc) ::
                  es.drop (childIdx es k + 1)) (childIdx es k)).2) := by
              rw [removeNode, hra]
              rfl
            have he1 : (removeNode cfg k (BNode.internal es)).1 =
                BNode.internal (coalesceOrRedistribute cfg (es.take (childIdx es k) ++
                  ((es.getD (childIdx es k) default).1, BNode.internal esc) ::
                  es.drop (childIdx es k + 1)) (childIdx es k)).1 := by
              rw [he]
            have he2 : (removeNode cfg k (BNode.internal es)).2 =
                (coalesceOrRedistribute cfg (es.take (childIdx es k) ++
                  ((es.getD (childIdx es k) default).1, BNode.internal esc) ::
                  es.drop (childIdx es k + 1)) (childIdx es k)).2 := by
              rw [he]
            obtain ⟨pmem, plen1, plen0, pself, pch⟩ := coalesce_patch_spec cfg hok h lb lo hi
              es (childIdx es k) hci hws (BNode.internal esc) ihA
              (by show childLB cfg (BNode.internal esc) ≤ (BNode.internal esc).size + 1
                  simp only [childLB, BNode.size]
                  omega)
              (by show (BNode.internal esc).size ≤ childLB cfg (BNode.internal esc)
                  simp only [childLB, BNode.size]
                  omega)
            have hlenfix : es.length - 1 ≤ (coalesceOrRedistribute cfg
                (es.take (childIdx es k) ++ ((es.getD (childIdx es k) default).1,
                  BNode.internal esc) :: es.drop (childIdx es k + 1))
                  (childIdx es k)).1.length ∧
                (coalesceOrRedistribute cfg (es.take (childIdx es k) ++
                  ((es.getD (childIdx es k) default).1, BNode.internal esc) ::
                  es.drop (childIdx es k + 1)) (childIdx es k)).1.length ≤ es.length := by
              cases hfx : (coalesceOrRedistribute cfg (es.take (childIdx es k) ++
                  ((es.getD (childIdx es k) default).1, BNode.internal esc) ::
                  es.drop (childIdx es k + 1)) (childIdx es k)).2 with
              | false =>
                have := plen0 hfx
                omega
              | true =>
                have := plen1 hfx
                omega
            obtain ⟨hlfA, hlfB⟩ := hlenfix
            have h2es := hws.1
            have hesmax := hws.2.2.1
            rw [he1, he2]
            refine ⟨rfl, ?_, ⟨by omega, by omega, pself, pch⟩, ?_, ?_, ?_⟩
            · intro p
              rw [show toL (BNode.internal (coalesceOrRedistribute cfg
                (es.take (childIdx es k) ++ ((es.getD (childIdx es k) default).1,
                  BNode.internal esc) :: es.drop (childIdx es k + 1)) (childIdx es k)).1) =
                toLL (coalesceOrRedistribute cfg (es.take (childIdx es k) ++
                  ((es.getD (childIdx es k) default).1, BNode.internal esc) ::
                  es.drop (childIdx es k + 1)) (childIdx es k)).1 from rfl,
                show toL (BNode.internal es) = toLL es from rfl, pmem p]
              exact hmemL p
            · intro hft
              show (BNode.internal (coalesceOrRedistribute cfg (es.take (childIdx es k) ++
                ((es.getD (childIdx es k) default).1, BNode.internal esc) ::
                es.drop (childIdx es k + 1)) (childIdx es k)).1).size + 1 =
                (BNode.internal es).size
              simp only [BNode.size]
              exact plen1 hft
            · intro habs
              simp [BNode.isLeaf] at habs
            · intro _ hff
              show (BNode.internal (coalesceOrRedistribute cfg (es.take (childIdx es k) ++
                ((es.getD (childIdx es k) default).1, BNode.internal esc) ::
                es.drop (childIdx es k + 1)) (childIdx es k)).1).size =
                (BNode.internal es).size
              simp only [BNode.size]
              exact plen0 hff

/-- Removing an absent key changes nothing below the root: the leaf's
`RemoveAndDeleteRecord` finds no record, every size stays at or above
`min_size`, and no `CoalesceOrRedistribute` fires. -/
theorem removeNode_noop (cfg : BTConfig) (hok : cfg.ok) (k : Int) :
    ∀ (h : Nat) (lb : Nat) (lo hi : Option Int) (n : BNode), WF cfg h lb lo hi n →
    k ∉ (toL n).map Prod.fst → removeNode cfg k n = (n, false) := by
  intro h
  induction h with
  | zero =>
    intro lb lo hi n hw hk
    cases n with
    | internal es => exact absurd hw (by simp [WF])
    | leaf kvs =>
      obtain ⟨h1, h2, h3, h4⟩ := hw
      obtain ⟨-, -, hnoop, -⟩ := removeRecord_spec kvs k h3
      have he : removeNode cfg k (BNode.leaf kvs) =
          (BNode.leaf (removeRecord kvs k), false) := by
        rw [removeNode]
      rw [he, hnoop hk]
  | succ h ih =>
    intro lb lo hi n hw hk
    cases n with
    | leaf kvs => exact absurd hw (by simp [WF])
    | internal es =>
      have hws := hw
      have hci : childIdx es k < es.length := (childIdx_spec cfg hok hw k).1
      have hchild := hws.2.2.2.2 (childIdx es k) (es.getD (childIdx es k) default).1
        (es.getD (childIdx es k) default).2 (by rw [getElem?_getD es _ hci])
      have hkc : k ∉ (toL ((es.getD (childIdx es k) default).2)).map Prod.fst := by
        intro hkc
        exact hk ((key_in_internal_iff cfg hok hws k).2 hkc)
      have hrn := ih (childLB cfg (es.getD (childIdx es k) default).2) _ _
        (es.getD (childIdx es k) default).2 hchild hkc
      have hclbsz := WF_lb_le_size hchild
      have hpair : ((es.getD (childIdx es k) default).1,
          (es.getD (childIdx es k) default).2) = es.getD (childIdx es k) default := rfl
      have hlist : es.take (childIdx es k) ++ ((es.getD (childIdx es k) default).1,
          (es.getD (childIdx es k) default).2) :: es.drop (childIdx es k + 1) = es := by
        rw [hpair]
        exact (es_decomp es (childIdx es k) hci).symm
      rcases hnd : (es.getD (childIdx es k) default).2 with nk | nn
      · rw [hnd] at hrn hchild
        have hnk : cfg.leafMax / 2 ≤ nk.length := by
          have := WF_lb_le_size hchild
          simpa [childLB, BNode.size] using this
        have hra0 : removeChildAt cfg k es (childIdx es k) =
            (es.take (childIdx es k) ++ ((es.getD (childIdx es k) default).1,
              BNode.leaf nk) :: es.drop (childIdx es k + 1),
             decide (nk.length < cfg.leafMax / 2)) := by
          rw [removeChildAt_eq cfg k es (childIdx es k) hci, hnd, hrn]
        have hra : removeChildAt cfg k es (childIdx es k) =
            (es.take (childIdx es k) ++ ((es.getD (childIdx es k) default).1,
              BNode.leaf nk) :: es.drop (childIdx es k + 1), false) := by
          rw [hra0, decide_eq_false (show ¬ nk.length < cfg.leafMax / 2 from by omega)]
        have he : removeNode cfg k (BNode.internal es) =
            (BNode.internal (es.take (childIdx es k) ++
              ((es.getD (childIdx es k) default).1, BNode.leaf nk) ::
              es.drop (childIdx es k + 1)), false) := by
          rw [removeNode, hra]
          rfl
        rw [he, ← hnd, hlist]
      · rw [hnd] at hrn
        have hra : removeChildAt cfg k es (childIdx es k) =
            (es.take (childIdx es k) ++ ((es.getD (childIdx es k) default).1,
              BNode.internal nn) :: es.drop (childIdx es k + 1), false) := by
          rw [removeChildAt_eq cfg k es (childIdx es k) hci, hnd, hrn]
          rfl
        have he : removeNode cfg k (BNode.internal es) =
            (BNode.internal (es.take (childIdx es k) ++
              ((es.getD (childIdx es k) default).1, BNode.internal nn) ::
              es.drop (childIdx es k + 1)), false) := by
          rw [removeNode, hra]
          rfl
        rw [he, ← hnd, hlist]

/-- `BPlusTree` whole-tree invariant: empty, or a root node well-formed at
some height over the unbounded window, holding at least one record. -/
def WFt (cfg : BTConfig) (t : Option BNode) : Prop :=
  match t with
  | none => True
  | some n => ∃ h : Nat, WF cfg h 1 none none n

/-- The records stored in a tree. -/
def contents (t : Option BNode) : List (Int × Int) :=
  match t with
  | none => []
  | some n => toL n

/-- `BPlusTree::GetValue`: a stored record is found with its value; an
absent key reports `false`. -/
theorem getValue_spec (cfg : BTConfig) (hok : cfg.ok) (t : Option BNode) (key : Int)
    (hw : WFt cfg t) :
    (∀ v : Int, (key, v) ∈ contents t → getValue t key = (true, [v])) ∧
    (key ∉ (contents t).map Prod.fst → (getValue t key).1 = false) := by
  cases t with
  | none =>
    constructor
    · intro v hv
      exact absurd hv (by simp [contents])
    · intro _
      rfl
  | some n =>
    obtain ⟨h, hwn⟩ := hw
    obtain ⟨fs, fmem, fsub⟩ := findLeaf_spec cfg hok h 1 none none n key hwn
    obtain ⟨lk1, lk2⟩ := leafLookup_spec (findLeaf key n) key fs
    constructor
    · intro v hv
      have hlk : leafLookup (findLeaf key n) key = some v :=
        (lk1 v).2 ((fmem v).1 hv)
      show getValue (some n) key = (true, [v])
      rw [getValue, hlk]
    · intro hout
      have hnf : key ∉ (findLeaf key n).map Prod.fst := by
        intro hkf
        obtain ⟨p, hp, hp1⟩ := List.mem_map.1 hkf
        exact hout (List.mem_map.2 ⟨p, fsub p hp, hp1⟩)
      have hlk : leafLookup (findLeaf key n) key = none := lk2.2 hnf
      show (getValue (some n) key).1 = false
      rw [getValue, hlk]

/-- `BPlusTree::Insert` at the root: a duplicate key is rejected with the
tree unchanged; otherwise the record is added, a full root splitting into
a new root, and the whole-tree invariant is preserved. -/
theorem insertTree_spec (cfg : BTConfig) (hok : cfg.ok) (k v : Int) (t : Option BNode)
    (hw : WFt cfg t) :
    ((insertTree cfg k v t).1 = false ↔ k ∈ (contents t).map Prod.fst) ∧
    ((insertTree cfg k v t).1 = false → (insertTree cfg k v t).2 = t) ∧
    WFt cfg (insertTree cfg k v t).2 ∧
    ((insertTree cfg k v t).1 = true →
      ∀ p : Int × Int, p ∈ contents (insertTree cfg k v t).2 ↔
        p = (k, v) ∨ p ∈ contents t) := by
  have hok1 : 2 ≤ cfg.leafMax := hok.1
  have hok2 : 3 ≤ cfg.intMax := hok.2
  cases t with
  | none =>
    refine ⟨iff_of_false (by simp [insertTree]) (by simp [contents]), ?_, ?_, ?_⟩
    · intro hf
      exact absurd hf (by simp [insertTree])
    · refine ⟨0, ?_, ?_, by simp,
        fun p hp => ⟨fun a ha => Option.noConfusion ha, fun a ha => Option.noConfusion ha⟩⟩
      · simp
      · simp only [List.length_cons, List.length_nil]
        omega
    · intro _ p
      show p ∈ toL (BNode.leaf [(k, v)]) ↔ p = (k, v) ∨ p ∈ contents none
      simp [toL, contents]
  | some n =>
    obtain ⟨h, hwn⟩ := hw
    have hkin : inB none none k :=
      ⟨fun a ha => Option.noConfusion ha, fun a ha => Option.noConfusion ha⟩
    obtain ⟨ihdup, ihone, ihsplit⟩ := insertNode_spec cfg hok k v h 1 none none n hwn hkin
    cases hres : insertNode cfg k v n with
    | dup =>
      have he : insertTree cfg k v (some n) = (false, some n) := by
        rw [insertTree, hres]
      rw [he]
      refine ⟨iff_of_true rfl (ihdup.1 hres), fun _ => rfl, ⟨h, hwn⟩, ?_⟩
      intro habs
      exact absurd habs (by simp)
    | one n' =>
      obtain ⟨hwn', hkind', hmem'⟩ := ihone n' hres
      have hnotk : k ∉ (toL n).map Prod.fst := by
        intro hkk
        have := ihdup.2 hkk
        rw [hres] at this
        exact absurd this (by simp)
      have he : insertTree cfg k v (some n) = (true, some n') := by
        rw [insertTree, hres]
      rw [he]
      refine ⟨iff_of_false (by simp) hnotk, ?_, ?_, ?_⟩
      · intro habs
        exact absurd habs (by simp)
      · exact ⟨h, WF_set_lb hwn' (by
          have := WF_lb_le_size hwn'
          omega)⟩
      · intro _ p
        exact hmem' p
    | split l sep r =>
      obtain ⟨hwl, hwr, hkl, hkr, hmem'⟩ := ihsplit l sep r hres
      have hnotk : k ∉ (toL n).map Prod.fst := by
        intro hkk
        have := ihdup.2 hkk
        rw [hres] at this
        exact absurd this (by simp)
      have he : insertTree cfg k v (some n) =
          (true, some (.internal [(0, l), (sep, r)])) := by
        rw [insertTree, hres]
      rw [he]
      have hroot : WF cfg (h + 1) 1 none none (.internal [(0, l), (sep, r)]) := by
        refine ⟨by simp, by simp, ?_, fun a ha => Option.noConfusion ha, ?_⟩
        · simp only [List.length_cons, List.length_nil]
          omega
        intro j kj cj hcj
        match j with
        | 0 =>
          simp only [List.getElem?_cons_zero, Option.some.injEq] at hcj
          rw [show kj = 0 from congrArg Prod.fst hcj.symm,
            show cj = l from congrArg Prod.snd hcj.symm]
          rw [if_pos rfl, show sepHi [(0, l), (sep, r)] none 0 = some sep from rfl]
          exact hwl
        | 1 =>
          simp only [List.getElem?_cons_succ, List.getElem?_cons_zero,
            Option.some.injEq] at hcj
          rw [show kj = sep from congrArg Prod.fst hcj.symm,
            show cj = r from congrArg Prod.snd hcj.symm]
          rw [if_neg (by omega), show sepHi [(0, l), (sep, r)] none 1 = none from rfl]
          exact hwr
        | j + 2 =>
          exact absurd hcj (by simp)
      refine ⟨iff_of_false (by simp) hnotk, ?_, ⟨h + 1, hroot⟩, ?_⟩
      · intro habs
        exact absurd habs (by simp)
      · intro _ p
        show p ∈ toLL [(0, l), (sep, r)] ↔ p = (k, v) ∨ p ∈ toL n
        rw [show toLL [(0, l), (sep, r)] = toL l ++ (toL r ++ []) from rfl]
        rw [← hmem' p]
        simp

/-- `BPlusTree::Remove` at the root, including `AdjustRoot`: the records
with key `k` disappear and nothing else changes; the whole-tree invariant
is preserved (an emptied root leaf deletes the tree, a root internal page
shrunk to one entry promotes its only child). -/
theorem removeTree_spec (cfg : BTConfig) (hok : cfg.ok) (k : Int) (t : Option BNode)
    (hw : WFt cfg t) :
    WFt cfg (removeTree cfg k t) ∧
    (∀ p : Int × Int, p ∈ contents (removeTree cfg k t) ↔ p ∈ contents t ∧ p.1 ≠ k) := by
  cases t with
  | none =>
    constructor
    · trivial
    · intro p
      simp [removeTree, contents]
  | some n =>
    obtain ⟨h, hwn⟩ := hw
    cases n with
    | leaf kvs =>
      cases h with
      | succ h => exact absurd hwn (by simp [WF])
      | zero =>
        obtain ⟨h1, h2, h3, h4⟩ := hwn
        obtain ⟨hs', hm', hnoop, hlenk⟩ := removeRecord_spec kvs k h3
        by_cases hz : (removeRecord kvs k).length < 1
        · have he : removeTree cfg k (some (.leaf kvs)) = none := by
            rw [removeTree, if_pos hz]
          rw [he]
          constructor
          · trivial
          · intro p
            show p ∈ contents none ↔ p ∈ toL (BNode.leaf kvs) ∧ p.1 ≠ k
            have hempty : removeRecord kvs k = [] := by
              rw [← List.length_eq_zero]
              omega
            constructor
            · intro hp
              exact absurd hp (by simp [contents])
            · rintro ⟨hp, hpk⟩
              have := (hm' p).2 ⟨hp, hpk⟩
              rw [hempty] at this
              exact absurd this (by simp)
        · have he : removeTree cfg k (some (.leaf kvs)) =
              some (.leaf (removeRecord kvs k)) := by
            rw [removeTree, if_neg hz]
          rw [he]
          constructor
          · refine ⟨0, by omega, ?_, hs', ?_⟩
            · have : (removeRecord kvs k).length ≤ kvs.length := by
                by_cases hk : k ∈ kvs.map Prod.fst
                · have := hlenk hk
                  omega
                · rw [hnoop hk]
              omega
            · intro p hp
              exact h4 p ((hm' p).1 hp).1
          · intro p
            exact hm' p
    | internal es =>
      cases h with
      | zero => exact absurd hwn (by simp [WF])
      | succ h =>
        obtain ⟨rkind, rmem, rA, rsz, rleaf, rint⟩ :=
          removeNode_spec cfg hok k (h + 1) 1 none none (.internal es) hwn
        rcases hr1 : (removeNode cfg k (BNode.internal es)).1 with kvs' | es'
        · rw [hr1] at rkind
          exact absurd rkind (by simp [BNode.isLeaf])
        · rw [hr1] at rmem rA
          have rsz' : (removeNode cfg k (BNode.internal es)).2 = true →
              es'.length + 1 = es.length := by
            intro hf
            have := rsz hf
            rw [hr1] at this
            exact this
          have rint' : (removeNode cfg k (BNode.internal es)).2 = false →
              es'.length = es.length := by
            intro hf
            have := rint (by simp [BNode.isLeaf]) hf
            rw [hr1] at this
            exact this
          have h2es : 2 ≤ es.length := hwn.1
          have he0 : removeTree cfg k (some (.internal es)) =
              (if (removeNode cfg k (BNode.internal es)).2 && decide (es'.length ≤ 2) then
                if es'.length = 1 then some ((es'.getD 0 default).2)
                else some (.internal es')
              else some (.internal es')) := by
            rw [removeTree, hr1]
          have hmem' : ∀ p : Int × Int, p ∈ toLL es' ↔
              p ∈ toL (BNode.internal es) ∧ p.1 ≠ k := rmem
          cases hfl : (removeNode cfg k (BNode.internal es)).2 with
          | false =>
            rw [hfl, Bool.false_and] at he0
            rw [if_neg (by simp)] at he0
            rw [he0]
            have hlen : es'.length = es.length := rint' hfl
            constructor
            · exact ⟨h + 1, WF_of_AWF rA (fun _ => by
                show 2 ≤ es'.length
                omega) (by
                show 1 ≤ (BNode.internal es').size
                simp only [BNode.size]
                omega)⟩
            · intro p
              exact hmem' p
          | true =>
            rw [hfl, Bool.true_and] at he0
            have hlen : es'.length + 1 = es.length := rsz' hfl
            cases htr : decide (es'.length ≤ 2) with
            | false =>
              rw [htr, if_neg (by simp)] at he0
              have htrP : ¬ es'.length ≤ 2 := of_decide_eq_false htr
              rw [he0]
              constructor
              · exact ⟨h + 1, WF_of_AWF rA (fun _ => by
                  show 2 ≤ es'.length
                  omega) (by
                  show 1 ≤ (BNode.internal es').size
                  simp only [BNode.size]
                  omega)⟩
              · intro p
                exact hmem' p
            | true =>
              rw [htr, if_pos rfl] at he0
              by_cases h1 : es'.length = 1
              · rw [if_pos h1] at he0
                rw [he0]
                obtain ⟨e0, he0'⟩ := List.length_eq_one.1 h1
                have hch0 := rA.2.2.2 0 (es'.getD 0 default).1 (es'.getD 0 default).2
                  (by rw [getElem?_getD es' 0 (by omega)])
                rw [if_pos rfl] at hch0
                have hsep0 : sepHi es' none 0 = none := by
                  rw [sepHi, List.getElem?_eq_none (by omega)]
                rw [hsep0] at hch0
                constructor
                · refine ⟨h, WF_set_lb hch0 ?_⟩
                  have := WF_lb_le_size hch0
                  have := one_le_childLB hok (es'.getD 0 default).2
                  omega
                · intro p
                  show p ∈ toL ((es'.getD 0 default).2) ↔
                    p ∈ toL (BNode.internal es) ∧ p.1 ≠ k
                  rw [← hmem' p, he0']
                  show p ∈ toL ((e0 :: []).getD 0 default).2 ↔ p ∈ toLL [e0]
                  rw [show ((e0 :: []).getD 0 default) = e0 from rfl, toLL_cons]
                  simp [toLL]
              · rw [if_neg h1] at he0
                rw [he0]
                constructor
                · exact ⟨h + 1, WF_of_AWF rA (fun _ => by
                    show 2 ≤ es'.length
                    have h1le : 1 ≤ es'.length := rA.1
                    omega) (by
                    show 1 ≤ (BNode.internal es').size
                    simp only [BNode.size]
                    have h1le : 1 ≤ es'.length := rA.1
                    omega)⟩
                · intro p
                  exact hmem' p

/-- Removing an absent key from a well-formed tree is a no-op: the leaf's
record scan finds nothing, no node underflows and `AdjustRoot` does not
fire. -/
theorem removeTree_noop (cfg : BTConfig) (hok : cfg.ok) (k : Int) (t : Option BNode)
    (hw : WFt cfg t) (hk : k ∉ (contents t).map Prod.fst) : removeTree cfg k t = t := by
  cases t with
  | none => rfl
  | some n =>
    obtain ⟨h, hwn⟩ := hw
    cases n with
    | leaf kvs =>
      cases h with
      | succ h => exact absurd hwn (by simp [WF])
      | zero =>
        obtain ⟨h1, h2, h3, h4⟩ := hwn
        obtain ⟨-, -, hnoop, -⟩ := removeRecord_spec kvs k h3
        have hnoop' : removeRecord kvs k = kvs := hnoop hk
        rw [removeTree, hnoop', if_neg (by omega)]
    | internal es =>
      cases h with
      | zero => exact absurd hwn (by simp [WF])
      | succ h =>
        have hrn := removeNode_noop cfg hok k (h + 1) 1 none none (.internal es) hwn hk
        rw [removeTree, hrn]
        rfl

/-- A committed index operation: `BPlusTree::Insert` or `BPlusTree::Remove`. -/
inductive TreeOp where
  | ins : Int → Int → TreeOp
  | del : Int → TreeOp
deriving DecidableEq, Repr

/-- The key an operation addresses. -/
def TreeOp.key : TreeOp → Int
  | .ins k _ => k
  | .del k => k

/-- Apply one committed operation to the tree. -/
def applyOp (cfg : BTConfig) (t : Option BNode) : TreeOp → Option BNode
  | .ins k v => (insertTree cfg k v t).2
  | .del k => removeTree cfg k t

/-- Apply a sequence of committed operations, oldest first. -/
def applyOps (cfg : BTConfig) (t : Option BNode) : List TreeOp → Option BNode
  | [] => t
  | op :: ops => applyOps cfg (applyOp cfg t op) ops

/-- Operations on other keys preserve the invariant and a stored record. -/
theorem applyOps_keeps (cfg : BTConfig) (hok : cfg.ok) (k v : Int) :
    ∀ (ops : List TreeOp) (t : Option BNode), WFt cfg t → (k, v) ∈ contents t →
    (∀ op ∈ ops, op.key ≠ k) →
    WFt cfg (applyOps cfg t ops) ∧ (k, v) ∈ contents (applyOps cfg t ops) := by
  intro ops
  induction ops with
  | nil =>
    intro t hw hm hops
    exact ⟨hw, hm⟩
  | cons op tl ih =>
    intro t hw hm hops
    have hop : op.key ≠ k := hops op (by simp)
    have htl : ∀ o ∈ tl, o.key ≠ k := fun o ho => hops o (by simp [ho])
    have hstep : WFt cfg (applyOp cfg t op) ∧ (k, v) ∈ contents (applyOp cfg t op) := by
      cases op with
      | ins k' v' =>
        obtain ⟨i1, i2, i3, i4⟩ := insertTree_spec cfg hok k' v' t hw
        cases hf : (insertTree cfg k' v' t).1 with
        | false =>
          have hsame := i2 hf
          show WFt cfg (insertTree cfg k' v' t).2 ∧
            (k, v) ∈ contents (insertTree cfg k' v' t).2
          rw [hsame]
          exact ⟨hw, hm⟩
        | true =>
          refine ⟨i3, ?_⟩
          show (k, v) ∈ contents (insertTree cfg k' v' t).2
          rw [i4 hf (k, v)]
          exact Or.inr hm
      | del k' =>
        obtain ⟨r1, r2⟩ := removeTree_spec cfg hok k' t hw
        refine ⟨r1, ?_⟩
        show (k, v) ∈ contents (removeTree cfg k' t)
        rw [r2 (k, v)]
        have hop' : k' ≠ k := by simpa [TreeOp.key] using hop
        exact ⟨hm, Ne.symm hop'⟩
    exact ih (applyOp cfg t op) hstep.1 hstep.2 htl

/-- C1: insert/get round trip — if `Insert(k, v)` returns `true` and no
later committed operation removes `k` or inserts at `k`, then
`GetValue(k)` returns `true` with result vector exactly `[v]`. -/
theorem C1_insert_get_roundtrip (cfg : BTConfig) (hok : cfg.ok) (k v : Int)
    (t : Option BNode) (hw : WFt cfg t) (ops : List TreeOp)
    (hops : ∀ op ∈ ops, op.key ≠ k)
    (hins : (insertTree cfg k v t).1 = true) :
    getValue (applyOps cfg (insertTree cfg k v t).2 ops) k = (true, [v]) := by
  obtain ⟨i1, i2, i3, i4⟩ := insertTree_spec cfg hok k v t hw
  have hm0 : (k, v) ∈ contents (insertTree cfg k v t).2 := by
    rw [i4 hins (k, v)]
    exact Or.inl rfl
  obtain ⟨hwf, hmf⟩ := applyOps_keeps cfg hok k v ops (insertTree cfg k v t).2 i3 hm0 hops
  exact (getValue_spec cfg hok _ k hwf).1 v hmf

/-- C1 witness: a concrete insert followed by operations on another key. -/
theorem C1_insert_get_roundtrip_witness :
    ((⟨2, 3⟩ : BTConfig).ok ∧ WFt ⟨2, 3⟩ none ∧
      (∀ op ∈ [TreeOp.ins 5 7, TreeOp.del 5], op.key ≠ 1) ∧
      (insertTree ⟨2, 3⟩ 1 2 none).1 = true) ∧
    getValue (applyOps ⟨2, 3⟩ (insertTree ⟨2, 3⟩ 1 2 none).2
      [TreeOp.ins 5 7, TreeOp.del 5]) 1 = (true, [2]) :=
  ⟨⟨⟨by decide, by decide⟩, trivial, by decide, rfl⟩,
    C1_insert_get_roundtrip ⟨2, 3⟩ ⟨by decide, by decide⟩ 1 2 none trivial
      [TreeOp.ins 5 7, TreeOp.del 5] (by decide) rfl⟩

/-- C5: `Remove(k)` twice leaves the same tree as once, and `Insert(k, v)`
with `k` already present returns `false` and leaves the tree unchanged. -/
theorem C5_remove_insert_idempotent (cfg : BTConfig) (hok : cfg.ok) (k v : Int)
    (t : Option BNode) (hw : WFt cfg t) :
    removeTree cfg k (removeTree cfg k t) = removeTree cfg k t ∧
    (k ∈ (contents t).map Prod.fst →
      (insertTree cfg k v t).1 = false ∧ (insertTree cfg k v t).2 = t) := by
  obtain ⟨r1, r2⟩ := removeTree_spec cfg hok k t hw
  constructor
  · refine removeTree_noop cfg hok k _ r1 ?_
    intro hkk
    obtain ⟨p, hp, hp1⟩ := List.mem_map.1 hkk
    exact ((r2 p).1 hp).2 hp1
  · intro hkin
    obtain ⟨i1, i2, i3, i4⟩ := insertTree_spec cfg hok k v t hw
    have hf : (insertTree cfg k v t).1 = false := i1.2 hkin
    exact ⟨hf, i2 hf⟩

/-- C5 witness: a one-record tree holding key 1. -/
theorem C5_remove_insert_idempotent_witness :
    WFt ⟨2, 3⟩ (some (BNode.leaf [(1, 2)])) ∧
    (removeTree ⟨2, 3⟩ 1 (removeTree ⟨2, 3⟩ 1 (some (BNode.leaf [(1, 2)]))) =
      removeTree ⟨2, 3⟩ 1 (some (BNode.leaf [(1, 2)])) ∧
    ((1 : Int) ∈ (contents (some (BNode.leaf [(1, 2)]))).map Prod.fst →
      (insertTree ⟨2, 3⟩ 1 9 (some (BNode.leaf [(1, 2)]))).1 = false ∧
      (insertTree ⟨2, 3⟩ 1 9 (some (BNode.leaf [(1, 2)]))).2 =
        some (BNode.leaf [(1, 2)]))) := by
  have hwit : WFt ⟨2, 3⟩ (some (BNode.leaf [(1, 2)])) :=
    ⟨0, by decide, by decide, by decide,
      fun p hp => ⟨fun a ha => Option.noConfusion ha, fun a ha => Option.noConfusion ha⟩⟩
  exact ⟨hwit, C5_remove_insert_idempotent ⟨2, 3⟩ ⟨by decide, by decide⟩ 1 9 _ hwit⟩

/-- `BPlusTreeLeafPage::MoveHalfTo` on the page contents: `totalSize` is
`GetMaxSize() + 1`, `idxToCopy = totalSize / 2`; the entries at positions
`[idxToCopy, totalSize)` are copied to the recipient; the recipient takes
over the old `next_page_id` and the old page points to the recipient. -/
structure LeafSplitRes where
  selfEntries : List (Int × Int)
  recipEntries : List (Int × Int)
  selfNext : Int
  recipNext : Int
deriving DecidableEq, Repr

def leafMoveHalfTo (maxSize : Nat) (entries : List (Int × Int))
    (selfNext recipPageId : Int) : LeafSplitRes :=
  let totalSize := maxSize + 1
  let idxToCopy := totalSize / 2
  { selfEntries := entries.take idxToCopy
    recipEntries := (entries.drop idxToCopy).take (totalSize - idxToCopy)
    selfNext := recipPageId
    recipNext := selfNext }

/-- `BPlusTreeInternalPage::MoveHalfTo`: `mid = GetSize() / 2`; the entries
at positions `[mid, size)` move to the recipient and each moved child's
parent page id is repointed to the recipient (the updated parent map is
the third component). -/
def internalMoveHalfTo (entries : List (Int × Int)) (recipPageId : Int)
    (parentOf : Int → Int) : List (Int × Int) × List (Int × Int) × (Int → Int) :=
  let mid := entries.length / 2
  (entries.take mid, entries.drop mid,
   fun c => if c ∈ (entries.drop mid).map Prod.snd then recipPageId else parentOf c)

/-- C6 counterexample: with `max_size = 4` a leaf that has grown to five
entries splits at the source's `idxToCopy = (4+1)/2 = 2`, moving three
entries to the right page — not at `⌈(4+1)/2⌉ = 3` with two moved entries
as the claim states. -/
theorem C6_leaf_split_counterexample :
    (leafMoveHalfTo 4 [(1, 1), (2, 2), (3, 3), (4, 4), (5, 5)] 99 7).recipEntries =
      [(3, 3), (4, 4), (5, 5)] ∧
    (4 + 1 + 1) / 2 = 3 ∧
    (leafMoveHalfTo 4 [(1, 1), (2, 2), (3, 3), (4, 4), (5, 5)] 99 7).recipEntries ≠
      List.drop 3 [(1, 1), (2, 2), (3, 3), (4, 4), (5, 5)] := by
  refine ⟨rfl, rfl, ?_⟩
  decide

/-- C6 amended: a leaf that exceeds `max_size` (holding `max_size + 1`
entries) moves exactly the entries at positions `⌊(max_size+1)/2⌋` and
beyond, in order, to the new right page, sets the right page's
`next_page_id` to the old leaf's and the old leaf's `next_page_id` to the
right page's id; an internal page moves the entries at positions
`⌊size/2⌋` and beyond and repoints every moved child's parent to the
recipient; the key inserted into the parent together with the right page
is the right page's first key. -/
theorem C6_split_spec (maxSize : Nat) (entries : List (Int × Int))
    (selfNext recipPageId : Int) (hlen : entries.length = maxSize + 1)
    (ientries : List (Int × Int)) (ripid : Int) (parentOf : Int → Int)
    (cfg : BTConfig) (k v : Int) (kvs : List (Int × Int)) (l r : BNode) (sep : Int)
    (hsp : insertNode cfg k v (.leaf kvs) = .split l sep r) :
    (leafMoveHalfTo maxSize entries selfNext recipPageId).selfEntries =
      entries.take ((maxSize + 1) / 2) ∧
    (leafMoveHalfTo maxSize entries selfNext recipPageId).recipEntries =
      entries.drop ((maxSize + 1) / 2) ∧
    (leafMoveHalfTo maxSize entries selfNext recipPageId).selfNext = recipPageId ∧
    (leafMoveHalfTo maxSize entries selfNext recipPageId).recipNext = selfNext ∧
    (internalMoveHalfTo ientries ripid parentOf).1 =
      ientries.take (ientries.length / 2) ∧
    (internalMoveHalfTo ientries ripid parentOf).2.1 =
      ientries.drop (ientries.length / 2) ∧
    (∀ c, c ∈ (ientries.drop (ientries.length / 2)).map Prod.snd →
      (internalMoveHalfTo ientries ripid parentOf).2.2 c = ripid) ∧
    (∀ c, c ∉ (ientries.drop (ientries.length / 2)).map Prod.snd →
      (internalMoveHalfTo ientries ripid parentOf).2.2 c = parentOf c) ∧
    l = .leaf ((leafInsert kvs k v).take ((cfg.leafMax + 1) / 2)) ∧
    r = .leaf ((leafInsert kvs k v).drop ((cfg.leafMax + 1) / 2)) ∧
    sep = ((toL r).getD 0 (0, 0)).1 := by
  have hrec : (leafMoveHalfTo maxSize entries selfNext recipPageId).recipEntries =
      entries.drop ((maxSize + 1) / 2) := by
    show (entries.drop ((maxSize + 1) / 2)).take ((maxSize + 1) - (maxSize + 1) / 2) =
      entries.drop ((maxSize + 1) / 2)
    refine List.take_of_length_le ?_
    rw [List.length_drop, hlen]
  have hif : ∀ c : Int, (internalMoveHalfTo ientries ripid parentOf).2.2 c =
      if c ∈ (ientries.drop (ientries.length / 2)).map Prod.snd then ripid
      else parentOf c := fun c => rfl
  rw [insertNode] at hsp
  by_cases hdup : (leafLookup kvs k).isSome
  · rw [if_pos hdup] at hsp
    exact absurd hsp (by simp)
  · rw [if_neg hdup] at hsp
    by_cases hbig : (leafInsert kvs k v).length > cfg.leafMax
    · rw [if_pos hbig] at hsp
      obtain ⟨hl, hsep, hr⟩ := IRes.split.inj hsp
      refine ⟨rfl, hrec, rfl, rfl, rfl, rfl, ?_, ?_, hl.symm, hr.symm, ?_⟩
      · intro c hc
        rw [hif c, if_pos hc]
      · intro c hc
        rw [hif c, if_neg hc]
      · rw [← hr, ← hsep]
        rfl
    · rw [if_neg hbig] at hsp
      exact absurd hsp (by simp)

/-- C6 witness: a leaf with `max_size = 2` splitting on the third record,
alongside concrete page moves. -/
theorem C6_split_spec_witness :
    (([(1, 1), (2, 2), (3, 3), (4, 4), (5, 5)] : List (Int × Int)).length = 4 + 1 ∧
      insertNode ⟨2, 3⟩ 2 2 (.leaf [(1, 1), (3, 3)]) =
        .split (.leaf [(1, 1)]) 2 (.leaf [(2, 2), (3, 3)])) ∧
    ((leafMoveHalfTo 4 [(1, 1), (2, 2), (3, 3), (4, 4), (5, 5)] 99 7).selfEntries =
      ([(1, 1), (2, 2), (3, 3), (4, 4), (5, 5)] : List (Int × Int)).take ((4 + 1) / 2) ∧
    (leafMoveHalfTo 4 [(1, 1), (2, 2), (3, 3), (4, 4), (5, 5)] 99 7).recipEntries =
      ([(1, 1), (2, 2), (3, 3), (4, 4), (5, 5)] : List (Int × Int)).drop ((4 + 1) / 2) ∧
    (leafMoveHalfTo 4 [(1, 1), (2, 2), (3, 3), (4, 4), (5, 5)] 99 7).selfNext = 7 ∧
    (leafMoveHalfTo 4 [(1, 1), (2, 2), (3, 3), (4, 4), (5, 5)] 99 7).recipNext = 99 ∧
    (internalMoveHalfTo [(0, 10), (5, 11), (8, 12), (12, 13)] 77 (fun _ => 3)).1 =
      ([(0, 10), (5, 11), (8, 12), (12, 13)] : List (Int × Int)).take
        (([(0, 10), (5, 11), (8, 12), (12, 13)] : List (Int × Int)).length / 2) ∧
    (internalMoveHalfTo [(0, 10), (5, 11), (8, 12), (12, 13)] 77 (fun _ => 3)).2.1 =
      ([(0, 10), (5, 11), (8, 12), (12, 13)] : List (Int × Int)).drop
        (([(0, 10), (5, 11), (8, 12), (12, 13)] : List (Int × Int)).length / 2) ∧
    (∀ c, c ∈ (([(0, 10), (5, 11), (8, 12), (12, 13)] : List (Int × Int)).drop
        (([(0, 10), (5, 11), (8, 12), (12, 13)] : List (Int × Int)).length / 2)).map
          Prod.snd →
      (internalMoveHalfTo [(0, 10), (5, 11), (8, 12), (12, 13)] 77 (fun _ => 3)).2.2 c =
        77) ∧
    (∀ c, c ∉ (([(0, 10), (5, 11), (8, 12), (12, 13)] : List (Int × Int)).drop
        (([(0, 10), (5, 11), (8, 12), (12, 13)] : List (Int × Int)).length / 2)).map
          Prod.snd →
      (internalMoveHalfTo [(0, 10), (5, 11), (8, 12), (12, 13)] 77 (fun _ => 3)).2.2 c =
        (fun _ : Int => (3 : Int)) c) ∧
    BNode.leaf [(1, 1)] =
      .leaf ((leafInsert [(1, 1), (3, 3)] 2 2).take (((⟨2, 3⟩ : BTConfig).leafMax + 1) / 2)) ∧
    BNode.leaf [(2, 2), (3, 3)] =
      .leaf ((leafInsert [(1, 1), (3, 3)] 2 2).drop (((⟨2, 3⟩ : BTConfig).leafMax + 1) / 2)) ∧
    (2 : Int) = ((toL (BNode.leaf [(2, 2), (3, 3)])).getD 0 (0, 0)).1) :=
  ⟨⟨rfl, by simp [insertNode, leafLookup, keyIndex, bsearchGe, leafInsert]⟩,
    C6_split_spec 4 [(1, 1), (2, 2), (3, 3), (4, 4), (5, 5)] 99 7 rfl
      [(0, 10), (5, 11), (8, 12), (12, 13)] 77 (fun _ => 3)
      ⟨2, 3⟩ 2 2 [(1, 1), (3, 3)] (.leaf [(1, 1)]) (.leaf [(2, 2), (3, 3)]) 2
      (by simp [insertNode, leafLookup, keyIndex, bsearchGe, leafInsert])⟩

/-- C7 counterexample: with `max_size = 4` (`min_size = 2`) a leaf of size
1 underflows while its right sibling holds 3 entries — strictly more than
`min_size` — yet the source merges (`1 + 3 ≤ 4`): the flag is `true` and
the parent loses an entry (a page is scheduled for deletion), instead of
the redistribution the claim predicts. -/
theorem C7_redistribute_counterexample :
    (coalesceOrRedistribute ⟨4, 4⟩ [(0, BNode.leaf [(1, 1)]),
      (10, BNode.leaf [(10, 10), (11, 11), (12, 12)])] 0).2 = true ∧
    (coalesceOrRedistribute ⟨4, 4⟩ [(0, BNode.leaf [(1, 1)]),
      (10, BNode.leaf [(10, 10), (11, 11), (12, 12)])] 0).1.length = 1 ∧
    ([(10, 10), (11, 11), (12, 12)] : List (Int × Int)).length > 4 / 2 ∧
    ([(1, 1)] : List (Int × Int)).length < 4 / 2 := by
  refine ⟨rfl, rfl, by decide, by decide⟩

/-- C7 amended: `CoalesceOrRedistribute` merges — flag `true`, parent
losing exactly one entry — precisely when `node.size + sibling.size ≤
node.max_size` (the sibling being the left neighbour except for the
leftmost child, which uses its right neighbour); otherwise it
redistributes and the parent keeps its arity, so no page is deleted.
Whether the sibling holds more than `min_size` entries is not what
decides. -/
theorem C7_merge_iff_spec (cfg : BTConfig) (es : List (Int × BNode)) (i : Nat)
    (hlen2 : 2 ≤ es.length) (hci : i < es.length) :
    ((coalesceOrRedistribute cfg es i).2 = true ↔
      ((es.getD i default).2).size +
        ((es.getD (if i = 0 then 1 else i - 1) default).2).size ≤
        nodeMaxSize cfg ((es.getD i default).2)) ∧
    ((coalesceOrRedistribute cfg es i).2 = true →
      (coalesceOrRedistribute cfg es i).1.length + 1 = es.length) ∧
    ((coalesceOrRedistribute cfg es i).2 = false →
      (coalesceOrRedistribute cfg es i).1.length = es.length) := by
  by_cases hM : ((es.getD i default).2).size +
      ((es.getD (if i = 0 then 1 else i - 1) default).2).size ≤
      nodeMaxSize cfg ((es.getD i default).2)
  · have hflag : (coalesceOrRedistribute cfg es i).2 = true := by
      rw [coalesceOrRedistribute, if_pos hM]
    have hmax : max i (if i = 0 then 1 else i - 1) < es.length := by
      by_cases hi0 : i = 0
      · rw [hi0]
        show max 0 1 < es.length
        omega
      · rw [if_neg hi0]
        omega
    have hlen : (coalesceOrRedistribute cfg es i).1.length + 1 = es.length := by
      rw [coalesceOrRedistribute, if_pos hM]
      show ((es.set (min i (if i = 0 then 1 else i - 1)) _).eraseIdx
        (max i (if i = 0 then 1 else i - 1))).length + 1 = es.length
      rw [List.length_eraseIdx_of_lt (by rw [List.length_set]; exact hmax),
        List.length_set]
      omega
    refine ⟨iff_of_true hflag hM, fun _ => hlen, ?_⟩
    intro hff
    rw [hflag] at hff
    exact Bool.noConfusion hff
  · have hflag : (coalesceOrRedistribute cfg es i).2 = false := by
      rw [coalesceOrRedistribute, if_neg hM]
      by_cases hi0 : i = 0
      · rw [if_pos hi0]
        rcases (es.getD i default).2 with nk | nn <;>
          rcases (es.getD (if i = 0 then 1 else i - 1) default).2 with sk | sn <;> rfl
      · rw [if_neg hi0]
        rcases (es.getD i default).2 with nk | nn <;>
          rcases (es.getD (if i = 0 then 1 else i - 1) default).2 with sk | sn <;> rfl
    have hlen : (coalesceOrRedistribute cfg es i).1.length = es.length := by
      rw [coalesceOrRedistribute, if_neg hM]
      by_cases hi0 : i = 0
      · rw [if_pos hi0]
        rcases (es.getD i default).2 with nk | nn <;>
          rcases (es.getD (if i = 0 then 1 else i - 1) default).2 with sk | sn <;>
          simp [List.length_set]
      · rw [if_neg hi0]
        rcases (es.getD i default).2 with nk | nn <;>
          rcases (es.getD (if i = 0 then 1 else i - 1) default).2 with sk | sn <;>
          simp [List.length_set]
    refine ⟨iff_of_false (by rw [hflag]; simp) hM, ?_, fun _ => hlen⟩
    intro hft
    rw [hflag] at hft
    exact Bool.noConfusion hft

/-- C7 witness: two leaves under one parent, the left one under-full. -/
theorem C7_merge_iff_spec_witness :
    (2 ≤ ([(0, BNode.leaf [(1, 1), (2, 2)]), (5, BNode.leaf [(5, 5), (6, 6)])] :
        List (Int × BNode)).length ∧
      0 < ([(0, BNode.leaf [(1, 1), (2, 2)]), (5, BNode.leaf [(5, 5), (6, 6)])] :
        List (Int × BNode)).length) ∧
    (((coalesceOrRedistribute ⟨4, 4⟩ [(0, BNode.leaf [(1, 1), (2, 2)]),
        (5, BNode.leaf [(5, 5), (6, 6)])] 0).2 = true ↔
      ((([(0, BNode.leaf [(1, 1), (2, 2)]), (5, BNode.leaf [(5, 5), (6, 6)])] :
          List (Int × BNode)).getD 0 default).2).size +
        ((([(0, BNode.leaf [(1, 1), (2, 2)]), (5, BNode.leaf [(5, 5), (6, 6)])] :
          List (Int × BNode)).getD (if 0 = 0 then 1 else 0 - 1) default).2).size ≤
        nodeMaxSize ⟨4, 4⟩
          ((([(0, BNode.leaf [(1, 1), (2, 2)]), (5, BNode.leaf [(5, 5), (6, 6)])] :
            List (Int × BNode)).getD 0 default).2)) ∧
    ((coalesceOrRedistribute ⟨4, 4⟩ [(0, BNode.leaf [(1, 1), (2, 2)]),
        (5, BNode.leaf [(5, 5), (6, 6)])] 0).2 = true →
      (coalesceOrRedistribute ⟨4, 4⟩ [(0, BNode.leaf [(1, 1), (2, 2)]),
        (5, BNode.leaf [(5, 5), (6, 6)])] 0).1.length + 1 =
      ([(0, BNode.leaf [(1, 1), (2, 2)]), (5, BNode.leaf [(5, 5), (6, 6)])] :
        List (Int × BNode)).length) ∧
    ((coalesceOrRedistribute ⟨4, 4⟩ [(0, BNode.leaf [(1, 1), (2, 2)]),
        (5, BNode.leaf [(5, 5), (6, 6)])] 0).2 = false →
      (coalesceOrRedistribute ⟨4, 4⟩ [(0, BNode.leaf [(1, 1), (2, 2)]),
        (5, BNode.leaf [(5, 5), (6, 6)])] 0).1.length =
      ([(0, BNode.leaf [(1, 1), (2, 2)]), (5, BNode.leaf [(5, 5), (6, 6)])] :
        List (Int × BNode)).length)) :=
  ⟨⟨by decide, by decide⟩,
    C7_merge_iff_spec ⟨4, 4⟩ [(0, BNode.leaf [(1, 1), (2, 2)]),
      (5, BNode.leaf [(5, 5), (6, 6)])] 0 (by decide) (by decide)⟩

end Scudb
